import Mathlib

/-!
# Verification of the `toons` TOON (v1.3) encoder/decoder against its specification

The repository ships the Python test-suite and examples of the `toons`
library (a TOON-format codec exposing `dumps`/`loads`).  The codec itself is a
compiled extension that is not part of the source tree, so the model below is
built from the specification's component design (scalar codec, lexer, parser,
shape analyzer, encoder, error model), pinned to the concrete behaviour the
repository's own tests assert (exact `dumps` outputs, exact `loads` values and
error messages).  Each definition's doc comment names its source.

Two behaviours asserted by the test-suite deviate from the prose spec and are
reproduced faithfully by the model:
* an array-valued field of a *nested* object is emitted one extra indent level
  deep (`tests/unit/test_dumps.py::test_mixed_nested_structures`);
* a string encoded as the whole (root) document is quoted when it contains a
  space (`tests/unit/test_dumps.py::test_string_with_spaces_quoted`).
-/

set_option linter.unusedVariables false

namespace Toons

/-! ## Data model (spec §3)

Modelled from the spec: a value is one of six variants; arrays are ordered
sequences, objects ordered key/value lists (first-insertion order).  The float
variant carries sign, decimal significand and decimal exponent, i.e. the
value `(-1)^neg * mant * 10^exp`; this represents every decimal literal the
format can carry (IEEE-754 bit-level behaviour is outside the shallow
embedding, but every double is such a decimal). -/

/-- Field delimiter option: one of `,`, TAB, `|` (spec §4.5). -/
inductive Delim where
  | comma
  | tab
  | pipe
  deriving DecidableEq

/-- The literal character of a delimiter. -/
def Delim.char : Delim → Char
  | .comma => ','
  | .tab => '\t'
  | .pipe => '|'

/-- Decimal float: `(-1)^neg * mant * 10^exp`. -/
structure FloatV where
  neg : Bool
  mant : Nat
  exp : Int
  deriving DecidableEq

mutual
/-- The six-variant value tree of spec §3. -/
inductive Value where
  | null
  | bool (b : Bool)
  | int (n : Int)
  | float (f : FloatV)
  | str (s : String)
  | arr (l : VList)
  | obj (l : FList)

/-- Ordered sequence of values (array contents). -/
inductive VList where
  | nil
  | cons (v : Value) (tl : VList)

/-- Ordered key/value mapping (object contents, first-insertion order). -/
inductive FList where
  | fnil
  | fcons (k : String) (v : Value) (tl : FList)
end

/-- Number of elements of a `VList`. -/
def VList.length : VList → Nat
  | .nil => 0
  | .cons _ tl => 1 + tl.length

/-- Number of fields of an `FList`. -/
def FList.length : FList → Nat
  | .fnil => 0
  | .fcons _ _ tl => 1 + tl.length

/-- The keys of an `FList`, in insertion order. -/
def FList.keys : FList → List String
  | .fnil => []
  | .fcons k _ tl => k :: tl.keys

/-- Error model (spec §4.6): one flat enumeration of diagnostic kinds, plus
`outOfFuel`, an artefact of the fuel-based modelling of the parser's
recursion (never reached with the fuel `loads` supplies). -/
inductive Err where
  | badConfig
  | tabInIndent
  | badIndent
  | blankInArray
  | countMismatch
  | widthMismatch
  | invalidEscape
  | unterminatedString
  | missingColon
  | nonUniformTabular
  | outOfFuel
  deriving DecidableEq

/-- The diagnostics lenient mode downgrades (spec §6 `strict`):
*BlankInArray*, *CountMismatch*, *WidthMismatch*, *BadIndent*. -/
def Err.downgradeable : Err → Bool
  | .blankInArray => true
  | .countMismatch => true
  | .widthMismatch => true
  | .badIndent => true
  | _ => false

/-! ## Scalar codec: numbers (spec §4.1) -/

/-- The decimal digit character for `d < 10`. -/
def digitChar (d : Nat) : Char :=
  match d with
  | 0 => '0' | 1 => '1' | 2 => '2' | 3 => '3' | 4 => '4'
  | 5 => '5' | 6 => '6' | 7 => '7' | 8 => '8' | _ => '9'

/-- Numeric value of a digit character. -/
def digitVal (c : Char) : Nat := c.toNat - 48

/-- Big-endian decimal digits of `n` (with explicit fuel; `fuel > n` is always
supplied). -/
def natDigitsCore : Nat → Nat → List Char → List Char
  | 0, _, acc => acc
  | fuel + 1, n, acc =>
    if n < 10 then digitChar n :: acc
    else natDigitsCore fuel (n / 10) (digitChar (n % 10) :: acc)

/-- Shortest decimal representation of a natural number. -/
def natDigits (n : Nat) : List Char := natDigitsCore (n + 1) n []

/-- Value of a big-endian digit string. -/
def digitsToNat (ds : List Char) : Nat := ds.foldl (fun a c => 10 * a + digitVal c) 0

/-- Integers render as shortest decimal with optional leading `-` (spec §4.1). -/
def renderInt (n : Int) : List Char :=
  (if n < 0 then ['-'] else []) ++ natDigits n.natAbs

/-- Whether a float's numeric value is an integer. -/
def FloatV.isIntegral (f : FloatV) : Bool :=
  decide (0 ≤ f.exp) || decide (f.mant % 10 ^ f.exp.natAbs = 0)

/-- Fractional digits of a float, zero-padded on the left to width `k`. -/
def padDigits (k fp : Nat) : List Char :=
  List.replicate (k - (natDigits fp).length) '0' ++ natDigits fp

/-- Float rendering (spec §4.1): plain decimal; `-0.0` rendered as `0`
(normalization pinned by `test_spec_compliance.py::test_minus_zero_normalization`);
integral values are emitted without a decimal point (shortest round-tripping
decimal). -/
def renderFloat (f : FloatV) : List Char :=
  if f.isIntegral then
    let n : Nat :=
      if 0 ≤ f.exp then f.mant * 10 ^ f.exp.natAbs else f.mant / 10 ^ f.exp.natAbs
    (if f.neg && decide (n ≠ 0) then ['-'] else []) ++ natDigits n
  else
    let k := f.exp.natAbs
    (if f.neg then ['-'] else []) ++
      natDigits (f.mant / 10 ^ k) ++ '.' :: padDigits k (f.mant % 10 ^ k)

/-! ## Scalar codec: the numeric token grammar (spec §4.1)

`-?(0|[1-9][0-9]*)(\.[0-9]+)?([eE][+-]?[0-9]+)?`, plus the leading-zero form
`-?0[0-9]+` which is a quoting trigger only. -/

/-- Parsed shape of a token matching the numeric grammar. -/
structure NumParts where
  neg : Bool
  ip : List Char
  fp : List Char
  hasExp : Bool
  eneg : Bool
  ed : List Char

/-- Split off the longest run of decimal digits. -/
def spanDigits (cs : List Char) : List Char × List Char :=
  (cs.takeWhile Char.isDigit, cs.dropWhile Char.isDigit)

/-- Split an optional leading minus sign. -/
def stripNeg (cs : List Char) : Bool × List Char :=
  match cs with
  | '-' :: r => (true, r)
  | _ => (false, cs)

/-- The exponent clause of the numeric grammar. -/
def numParseExp (neg : Bool) (ip fp : List Char) (rest : List Char) : Option NumParts :=
  match rest with
  | [] => some ⟨neg, ip, fp, false, false, []⟩
  | e :: r3 =>
    if e = 'e' || e = 'E' then
      let s : Bool × List Char := match r3 with
        | '+' :: r4 => (false, r4)
        | '-' :: r4 => (true, r4)
        | _ => (false, r3)
      let er := spanDigits s.2
      if er.1.isEmpty || !er.2.isEmpty then none
      else some ⟨neg, ip, fp, true, s.1, er.1⟩
    else none

/-- The numeric grammar after the optional sign. -/
def numParseCore (neg : Bool) (cs1 : List Char) : Option NumParts :=
  match cs1 with
  | [] => none
  | c :: r =>
    if c.isDigit then
      let ipr : List Char × List Char :=
        if c = '0' then ([c], r)
        else (c :: (spanDigits r).1, (spanDigits r).2)
      match ipr.2 with
      | '.' :: r2 =>
        let fr := spanDigits r2
        if fr.1.isEmpty then none
        else numParseExp neg ipr.1 fr.1 fr.2
      | rest => numParseExp neg ipr.1 [] rest
    else none

/-- Match the full numeric token grammar; `none` when the token is not numeric. -/
def numParse (cs : List Char) : Option NumParts :=
  numParseCore (stripNeg cs).1 (stripNeg cs).2

/-- Whether a token matches the numeric grammar. -/
def isNumericTok (cs : List Char) : Bool := (numParse cs).isSome

/-- The leading-zero integer-like form `-?0[0-9]+` (quoting trigger). -/
def isLeadZero (cs : List Char) : Bool :=
  match cs with
  | '-' :: '0' :: r => !r.isEmpty && r.all Char.isDigit
  | '0' :: r => !r.isEmpty && r.all Char.isDigit
  | _ => false

/-- Scalar literal decoding of an unquoted token (spec §4.1): keywords, then
integers (no `.`/`e`/`E`), then floats, otherwise a plain string. -/
def decodeScalar (cs : List Char) : Value :=
  if cs = ['t', 'r', 'u', 'e'] then .bool true
  else if cs = ['f', 'a', 'l', 's', 'e'] then .bool false
  else if cs = ['n', 'u', 'l', 'l'] then .null
  else
    match numParse cs with
    | some p =>
      if p.fp.isEmpty && !p.hasExp then
        .int (if p.neg then -(digitsToNat p.ip : Int) else (digitsToNat p.ip : Int))
      else
        .float ⟨p.neg, digitsToNat (p.ip ++ p.fp),
          (if p.eneg then -(digitsToNat p.ed : Int) else (digitsToNat p.ed : Int))
            - p.fp.length⟩
    | none => .str (String.mk cs)

/-! ## Scalar codec: strings, escapes, quoting (spec §4.1) -/

/-- The escape expansion of one character: exactly the five mapped escapes,
all other characters pass through (spec §4.1 escape table). -/
def escCharMap (c : Char) : List Char :=
  if c = '\\' then ['\\', '\\']
  else if c = '"' then ['\\', '"']
  else if c = '\n' then ['\\', 'n']
  else if c = '\r' then ['\\', 'r']
  else if c = '\t' then ['\\', 't']
  else [c]

/-- Escape a string's characters for a quoted literal. -/
def escChars : List Char → List Char
  | [] => []
  | c :: r => escCharMap c ++ escChars r

/-- The quoted form of a string: `"` + escapes + `"`. -/
def quoteWrap (cs : List Char) : List Char := '"' :: escChars cs ++ ['"']

/-- ASCII control character (`< 0x20`). -/
def isCtl (c : Char) : Bool := decide (c.toNat < 32)

/-- ASCII whitespace for the leading/trailing-whitespace quoting trigger. -/
def isWsA (c : Char) : Bool := c = ' ' || c = '\t' || c = '\n' || c = '\r'

/-- The quoting triggers for value strings (spec §4.1, quoting policy): empty;
leading/trailing ASCII whitespace; the keywords; numeric-looking (incl. the
leading-zero form); containing `"`, `\`, `:`, the active delimiter, or an
ASCII control; equal to `-` or beginning with `-`. -/
def quoteTrigger (cs : List Char) (d : Char) : Bool :=
  cs.isEmpty ||
  (match cs.head? with | some c => isWsA c | none => false) ||
  (match cs.getLast? with | some c => isWsA c | none => false) ||
  cs = ['t', 'r', 'u', 'e'] || cs = ['f', 'a', 'l', 's', 'e'] || cs = ['n', 'u', 'l', 'l'] ||
  isNumericTok cs || isLeadZero cs ||
  cs.contains '"' || cs.contains '\\' || cs.contains ':' || cs.contains d ||
  cs.any isCtl ||
  cs.head? = some '-'

/-- Whether a value string is emitted quoted.  In addition to the spec §4.1
triggers, a string emitted as the root document is quoted when it contains a
space (pinned by `test_dumps.py::test_string_with_spaces_quoted`). -/
def needsQuotes (cs : List Char) (d : Char) (root : Bool) : Bool :=
  quoteTrigger cs d || (root && cs.contains ' ')

/-- Emission of a string value: quoted iff `needsQuotes`, else bare. -/
def encodeStr (s : String) (d : Char) (root : Bool) : List Char :=
  if needsQuotes s.toList d root then quoteWrap s.toList else s.toList

/-- Bare-key grammar `[A-Za-z_][A-Za-z0-9_.]*` (spec §4.1, key policy). -/
def bareKeyOk (cs : List Char) : Bool :=
  match cs with
  | [] => false
  | c :: r =>
    (c.isAlpha || c = '_') &&
      r.all (fun c => c.isAlphanum || c = '_' || c = '.')

/-- Key emission: bare iff the key grammar matches, else quoted. -/
def encodeKey (k : String) : List Char :=
  if bareKeyOk k.toList then k.toList else quoteWrap k.toList

/-! ## Shape analyzer (spec §4.4) -/

/-- Primitive values: null, bool, number, string. -/
def Value.isPrim : Value → Bool
  | .null | .bool _ | .int _ | .float _ | .str _ => true
  | .arr _ | .obj _ => false

/-- All values of a field list are primitive. -/
def FList.allPrim : FList → Bool
  | .fnil => true
  | .fcons _ v tl => v.isPrim && tl.allPrim

/-- All elements are primitive (inline-form test, spec §4.4 rule 2). -/
def VList.allPrim : VList → Bool
  | .nil => true
  | .cons v tl => v.isPrim && tl.allPrim

/-- One tabular row candidate: an object with exactly the given keys in the
given order, all values primitive. -/
def rowMatches (ks : List String) : Value → Bool
  | .obj fl => fl.keys = ks && fl.allPrim
  | _ => false

/-- All elements match the tabular header keys. -/
def VList.allRows (ks : List String) : VList → Bool
  | .nil => true
  | .cons v tl => rowMatches ks v && tl.allRows ks

/-- Tabular-candidate test (spec §4.4 rule 3): every element a non-empty
object with the first element's keys in the same first-insertion order and
primitive leaves; returns the field header. -/
def tabFields? : VList → Option (List String)
  | .nil => none
  | .cons v tl =>
    match v with
    | .obj fl =>
      if !(fl.keys).isEmpty && fl.allPrim && tl.allRows fl.keys then some fl.keys
      else none
    | _ => none

/-! ## Encoder (spec §4.5), producing indented lines -/

/-- One physical output/input line: indent column and content text. -/
structure Line where
  col : Nat
  txt : List Char

/-- Scalar text of a primitive value (containers yield `[]`, never consulted). -/
def scalarTxt (d : Char) (root : Bool) : Value → List Char
  | .null => ['n', 'u', 'l', 'l']
  | .int n => renderInt n
  | .bool true => ['t', 'r', 'u', 'e']
  | .float f => renderFloat f
  | .bool false => ['f', 'a', 'l', 's', 'e']
  | .str s => encodeStr s d root
  | _ => []

/-- Cells of an all-primitive list, joined by the delimiter with no spaces. -/
def cellsTxt (d : Char) : VList → List Char
  | .nil => []
  | .cons v .nil => scalarTxt d false v
  | .cons v tl => scalarTxt d false v ++ d :: cellsTxt d tl

/-- Header keys `{f1 d f2 …}` content. -/
def keysTxt (d : Char) : List String → List Char
  | [] => []
  | [k] => encodeKey k
  | k :: ks => encodeKey k ++ d :: keysTxt d ks

/-- An array header line `key? [N d?] {fields}? : tail?` (spec §4.5: the
delimiter character is written whenever the configured delimiter is not the
comma, as pinned by `test_delimiter.py`). -/
def mkHeader (k : Option String) (n : Nat) (d : Delim) (fields : Option (List String))
    (tail : Option (List Char)) : List Char :=
  (match k with | some k => encodeKey k | none => []) ++
  '[' :: natDigits n ++ (if d = .comma then [] else [d.char]) ++ ']' ::
  (match fields with
   | some fs => '\x7b' :: keysTxt d.char fs ++ ['\x7d']
   | none => []) ++
  ':' :: (match tail with | some t => ' ' :: t | none => [])

/-- One tabular row line per element. -/
def rowLines (d : Char) (c : Nat) : VList → List Line
  | .nil => []
  | .cons v tl =>
    (match v with
     | .obj fl => ⟨c, cellsTxtF d fl⟩ :: rowLines d c tl
     | _ => rowLines d c tl)
where
  cellsTxtF (d : Char) : FList → List Char
    | .fnil => []
    | .fcons _ v .fnil => scalarTxt d false v
    | .fcons _ v tl => scalarTxt d false v ++ d :: cellsTxtF d tl

mutual

/-- Encode the fields of an object at indent column `c`.  Primitive fields and
nested objects sit at `c`; an array-valued field of a *nested* object
(`c > 0`) is emitted at `c + u` — the extra-indent behaviour pinned by
`test_dumps.py::test_mixed_nested_structures`. -/
def encFields (d : Delim) (u : Nat) : FList → Nat → List Line
  | .fnil, _ => []
  | .fcons k v tl, c =>
    (match v with
     | .arr vl => encArr d u (some k) vl (if c = 0 then 0 else c + u)
     | .obj fl => ⟨c, encodeKey k ++ [':']⟩ :: encFields d u fl (c + u)
     | _ => [⟨c, encodeKey k ++ ':' :: ' ' :: scalarTxt d.char false v⟩]) ++
    encFields d u tl c

/-- Encode an array (with optional key) at indent column `c`: empty → `[0]:`;
all-primitive → inline; uniform objects → tabular; otherwise expanded
(spec §4.4 decision procedure first-match order). -/
def encArr (d : Delim) (u : Nat) (k : Option String) (l : VList) (c : Nat) : List Line :=
  match l with
  | .nil => [⟨c, mkHeader k 0 d none none⟩]
  | .cons v tl =>
    if (VList.cons v tl).allPrim then
      [⟨c, mkHeader k (VList.cons v tl).length d none (some (cellsTxt d.char (.cons v tl)))⟩]
    else
      match tabFields? (.cons v tl) with
      | some fs =>
        ⟨c, mkHeader k (VList.cons v tl).length d (some fs) none⟩ ::
          rowLines d.char (c + u) (.cons v tl)
      | none =>
        ⟨c, mkHeader k (VList.cons v tl).length d none none⟩ ::
          (encItem d u v (c + u) ++ encItems d u tl (c + u))

/-- Encode the items of an expanded array at column `c`. -/
def encItems (d : Delim) (u : Nat) : VList → Nat → List Line
  | .nil, _ => []
  | .cons v tl, c => encItem d u v c ++ encItems d u tl c

/-- Encode one expanded item (`- ` marker, spec §4.3): a primitive on the
hyphen line; a nested array's header on the hyphen line with its body below;
an object as a bare `-` line with its fields one level deeper. -/
def encItem (d : Delim) (u : Nat) (v : Value) (c : Nat) : List Line :=
  match v with
  | .arr vl =>
    match encArr d u none vl c with
    | ⟨_, h⟩ :: rest => ⟨c, '-' :: ' ' :: h⟩ :: rest
    | [] => []
  | .obj fl => ⟨c, ['-']⟩ :: encFields d u fl (c + u)
  | _ => [⟨c, '-' :: ' ' :: scalarTxt d.char false v⟩]

end

/-- Encode a whole value tree as lines (spec §3 Document: empty object →
empty document; root array; root object; root primitive). -/
def encDoc (d : Delim) (u : Nat) : Value → List Line
  | .obj fl => encFields d u fl 0
  | .arr vl => encArr d u none vl 0
  | v => [⟨0, scalarTxt d.char true v⟩]

/-- Spaces of the indent column followed by the content. -/
def Line.render (l : Line) : List Char := List.replicate l.col ' ' ++ l.txt

/-- Join lines with single `\n` separators, no trailing newline (spec §4.5). -/
def joinLines : List Line → List Char
  | [] => []
  | [l] => l.render
  | l :: ls => l.render ++ '\n' :: joinLines ls

/-- `toons.dumps`: encode with the given options; `indent < 2` raises
*BadConfig* (spec §4.5 configuration, pinned by
`test_indent.py::test_indent_zero_raises_error`). -/
def dumps (v : Value) (indent : Nat) (d : Delim) : Except Err String :=
  if indent < 2 then .error .badConfig
  else .ok (String.mk (joinLines (encDoc d indent v)))

/-- `toons.dumps` at its Python keyword defaults `indent=2`, `delimiter=','`. -/
def dumpsDef (v : Value) : Except Err String := dumps v 2 .comma

/-! ## Convenience constructors for concrete values -/

/-- Build an `FList` from a Lean list. -/
def FList.ofList : List (String × Value) → FList
  | [] => .fnil
  | (k, v) :: tl => .fcons k v (FList.ofList tl)

/-- Build a `VList` from a Lean list. -/
def VList.ofList : List Value → VList
  | [] => .nil
  | v :: tl => .cons v (VList.ofList tl)

/-- Object value from a Lean list of fields. -/
def vObj (l : List (String × Value)) : Value := .obj (FList.ofList l)

/-- Array value from a Lean list of elements. -/
def vArr (l : List Value) : Value := .arr (VList.ofList l)

/-- Encoder sanity anchors: the model reproduces the exact outputs asserted by
the repository's unit tests. -/
example : dumpsDef (vObj [("name", .str "Alice"), ("age", .int 30)]) =
    .ok "name: Alice\nage: 30" := rfl

example : dumpsDef (vObj [("items", vArr [.int 1, .int 2, .int 3])]) =
    .ok "items[3]: 1,2,3" := rfl

example : dumps (vObj [("items", vArr [.int 1, .int 2, .int 3])]) 2 .pipe =
    .ok "items[3|]: 1|2|3" := rfl

example : dumps (vObj [("items", vArr [.int 1, .int 2, .int 3])]) 2 .tab =
    .ok "items[3\t]: 1\t2\t3" := rfl

example : dumpsDef (vArr [vObj [("id", .int 1), ("name", .str "Alice")],
      vObj [("id", .int 2), ("name", .str "Bob")]]) =
    .ok "[2]\x7bid,name\x7d:\n  1,Alice\n  2,Bob" := rfl

example : dumpsDef (vObj [("value", .float ⟨true, 0, 0⟩)]) = .ok "value: 0" := rfl

example : dumpsDef (vObj [("tags", vArr [.str "a,b", .str "c"])]) =
    .ok "tags[2]: \"a,b\",c" := rfl

example : dumpsDef (vObj [("server", vObj [("host", .str "localhost"),
      ("ports", vArr [.int 8080, .int 8443])])]) =
    .ok "server:\n  host: localhost\n    ports[2]: 8080,8443" := rfl

example : dumpsDef (.str "test string") = .ok "\"test string\"" := rfl

example : dumpsDef (vObj []) = .ok "" := rfl

example : dumpsDef (vObj [("mixed", vArr [.int 1, .str "text",
      vObj [("key", .str "value")]])]) =
    .ok "mixed[3]:\n  - 1\n  - text\n  -\n    key: value" := rfl

example : dumpsDef (vObj [("pairs", vArr [vArr [.int 1, .int 2], vArr [.int 3, .int 4]])]) =
    .ok "pairs[2]:\n  - [2]: 1,2\n  - [2]: 3,4" := rfl

example : dumps (vObj [("level1", vObj [("level2", vObj [("level3", .str "value")])])]) 3 .comma =
    .ok "level1:\n   level2:\n      level3: value" := rfl

example : dumpsDef (vObj [("empty", vArr [])]) = .ok "empty[0]:" := rfl

example : dumpsDef (vObj [("price", .float ⟨false, 1999, -2⟩)]) = .ok "price: 19.99" := rfl

example : dumpsDef (vObj [("t", .str "true"), ("n", .str "null"), ("num", .str "42"),
      ("lz", .str "05"), ("e", .str ""), ("w", .str " space "), ("h", .str "-start"),
      ("c", .str "has:colon")]) =
    .ok "t: \"true\"\nn: \"null\"\nnum: \"42\"\nlz: \"05\"\ne: \"\"\nw: \" space \"\nh: \"-start\"\nc: \"has:colon\"" := rfl

example : dumpsDef (vObj [("text", .str "line1\nline2\ttab\r\n\"quoted\"\\backslash")]) =
    .ok "text: \"line1\\nline2\\ttab\\r\\n\\\"quoted\\\"\\\\backslash\"" := rfl

example : dumpsDef (vObj [("key with space", .int 1), ("key:colon", .int 2),
      ("key-dash", .int 3), ("with.dot", .int 4)]) =
    .ok "\"key with space\": 1\n\"key:colon\": 2\n\"key-dash\": 3\nwith.dot: 4" := rfl

example : dumps (vObj [("key", .str "value")]) 0 .comma = .error .badConfig := rfl

example : dumps (vObj [("users", vArr [vObj [("name", .str "Alice"), ("age", .int 30)],
      vObj [("name", .str "Bob"), ("age", .int 25)]])]) 2 .tab =
    .ok "users[2\t]\x7bname\tage\x7d:\n  Alice\t30\n  Bob\t25" := rfl

/-! ## Lexer (spec §4.2): lines, indent columns, quoted-string scanning -/

/-- Blank line: no content after the indent. -/
def Line.blank (l : Line) : Bool := l.txt.isEmpty

/-- A line belonging to the block of a container opened at column `c`:
blank, or strictly deeper indented.  (The parser attaches any deeper line to
the innermost open frame, which is what lets the decoder read back the
extra-indented array fields of nested objects.) -/
def Line.deeper (c : Nat) (l : Line) : Bool := l.blank || decide (c < l.col)

/-- Split a document into physical lines at `\n` (spec §4.2). -/
def splitNl : List Char → List (List Char)
  | [] => [[]]
  | '\n' :: r => [] :: splitNl r
  | c :: r =>
    match splitNl r with
    | x :: xs => (c :: x) :: xs
    | [] => [[c]]

/-- Tolerate one trailing newline: drop a final empty line (spec §4.2). -/
def dropLastEmpty : List (List Char) → List (List Char)
  | [] => []
  | [[]] => []
  | [x] => [x]
  | x :: xs => x :: dropLastEmpty xs

/-- Indent column and content of a physical line; a tab in the leading indent
is *TabInIndent* (spec §4.2). -/
def analyzeLine (cs : List Char) : Except Err Line :=
  let rest := cs.dropWhile (fun c => c = ' ')
  match rest with
  | '\t' :: _ => .error .tabInIndent
  | _ => .ok ⟨(cs.takeWhile (fun c => c = ' ')).length, rest⟩

/-- Analyze every physical line. -/
def mapLines : List (List Char) → Except Err (List Line)
  | [] => .ok []
  | x :: xs =>
    match analyzeLine x, mapLines xs with
    | .error e, _ => .error e
    | _, .error e => .error e
    | .ok l, .ok ls => .ok (l :: ls)

/-- Unescape a quoted literal from after the opening quote up to the closing
quote; returns contents and the rest of the line.  Unknown `\X` is
*InvalidEscape*, a missing closing quote *UnterminatedString* (spec §4.1). -/
def unquote : List Char → Except Err (List Char × List Char)
  | [] => .error .unterminatedString
  | '"' :: r => .ok ([], r)
  | '\\' :: [] => .error .unterminatedString
  | '\\' :: c :: r =>
    if c = '\\' then (fun p => ('\\' :: p.1, p.2)) <$> unquote r
    else if c = '"' then (fun p => ('"' :: p.1, p.2)) <$> unquote r
    else if c = 'n' then (fun p => ('\n' :: p.1, p.2)) <$> unquote r
    else if c = 'r' then (fun p => ('\r' :: p.1, p.2)) <$> unquote r
    else if c = 't' then (fun p => ('\t' :: p.1, p.2)) <$> unquote r
    else .error .invalidEscape
  | c :: r => (fun p => (c :: p.1, p.2)) <$> unquote r

/-- Add a character to the front of the current (first) cell. -/
def consCur (c : Char) : List (List Char) → List (List Char)
  | x :: xs => (c :: x) :: xs
  | [] => [[c]]

/-- Quote-aware split of a value tail into delimiter-separated cells
(state: inside-quote, after-backslash); cells keep their quotes raw. -/
def splitCellsSM (d : Char) : Bool → Bool → List Char → Except Err (List (List Char))
  | false, _, [] => .ok [[]]
  | true, _, [] => .error .unterminatedString
  | false, _, c :: r =>
    if c = d then (fun cells => [] :: cells) <$> splitCellsSM d false false r
    else if c = '"' then consCur c <$> splitCellsSM d true false r
    else consCur c <$> splitCellsSM d false false r
  | true, true, c :: r => consCur c <$> splitCellsSM d true false r
  | true, false, c :: r =>
    if c = '\\' then consCur c <$> splitCellsSM d true true r
    else if c = '"' then consCur c <$> splitCellsSM d false false r
    else consCur c <$> splitCellsSM d true false r

/-- Split a tail into cells at the active delimiter, outside quotes. -/
def splitCells (d : Char) (cs : List Char) : Except Err (List (List Char)) :=
  splitCellsSM d false false cs

/-- Quote-aware search for a `:` outside quotes. -/
def hasUnquotedColonSM : Bool → Bool → List Char → Bool
  | _, _, [] => false
  | false, _, c :: r =>
    if c = ':' then true
    else if c = '"' then hasUnquotedColonSM true false r
    else hasUnquotedColonSM false false r
  | true, true, _ :: r => hasUnquotedColonSM true false r
  | true, false, c :: r =>
    if c = '\\' then hasUnquotedColonSM true true r
    else if c = '"' then hasUnquotedColonSM false false r
    else hasUnquotedColonSM true false r

/-- Whether a line contains a colon outside quoted strings (spec §3 root
dispatch: a single line without one is a bare primitive). -/
def hasUnquotedColon (cs : List Char) : Bool := hasUnquotedColonSM false false cs

/-- Quote-aware scan of a `\x7b…\x7d` field block: delimiter-separated raw
key cells and the rest of the line after the closing brace. -/
def splitFieldsSM (d : Char) : Bool → Bool → List Char → Option (List (List Char) × List Char)
  | _, _, [] => none
  | false, _, c :: r =>
    if c = '\x7d' then some ([[]], r)
    else if c = d then (fun p => ([] :: p.1, p.2)) <$> splitFieldsSM d false false r
    else if c = '"' then (fun p => (consCur c p.1, p.2)) <$> splitFieldsSM d true false r
    else (fun p => (consCur c p.1, p.2)) <$> splitFieldsSM d false false r
  | true, true, c :: r => (fun p => (consCur c p.1, p.2)) <$> splitFieldsSM d true false r
  | true, false, c :: r =>
    if c = '\\' then (fun p => (consCur c p.1, p.2)) <$> splitFieldsSM d true true r
    else if c = '"' then (fun p => (consCur c p.1, p.2)) <$> splitFieldsSM d false false r
    else (fun p => (consCur c p.1, p.2)) <$> splitFieldsSM d true false r

/-! ## Line-level parsing: headers, keys, scalars (spec §4.2/§4.3) -/

/-- Parsed array-header data: declared count, active delimiter, tabular keys. -/
structure HeaderInfo where
  count : Nat
  delim : Delim
  fields : Option (List String)

/-- Parsed shape of one content line: optional key, optional header, optional
value tail. -/
structure FieldLine where
  key : Option String
  header : Option HeaderInfo
  tail : Option (List Char)

/-- The value tail after the `:`: nothing, or the text minus one leading
space (spec §4.2). -/
def parseTailOpt (cs : List Char) : Option (List Char) :=
  match cs with
  | [] => none
  | ' ' :: t => some t
  | t => some t

/-- Parse `count delim-char? ]` after the opening bracket.  An optional `#`
before the count is accepted and ignored (pinned by
`test_spec_compliance.py::test_header_length_marker_ignored`); absence of a
delimiter character means comma (spec §4.2). -/
def parseBracketCore (cs1 : List Char) : Option (Nat × Delim × List Char) :=
  let ds := (spanDigits cs1).1
  if ds.isEmpty then none
  else
    match (spanDigits cs1).2 with
    | ']' :: r2 => some (digitsToNat ds, .comma, r2)
    | ',' :: ']' :: r2 => some (digitsToNat ds, .comma, r2)
    | '\t' :: ']' :: r2 => some (digitsToNat ds, .tab, r2)
    | '|' :: ']' :: r2 => some (digitsToNat ds, .pipe, r2)
    | _ => none

/-- Parse `count delim-char? ]`, first stripping the optional `#` marker. -/
def parseBracket (cs : List Char) : Option (Nat × Delim × List Char) :=
  match cs with
  | '#' :: r => parseBracketCore r
  | _ => parseBracketCore cs

/-- A key cell: quoted (unescaped) or bare. -/
def parseCellKey (cs : List Char) : Except Err String :=
  match cs with
  | '"' :: r => (fun p => String.mk p.1) <$> unquote r
  | _ => .ok (String.mk cs)

/-- All header keys. -/
def parseKeys : List (List Char) → Except Err (List String)
  | [] => .ok []
  | c :: tl =>
    match parseCellKey c, parseKeys tl with
    | .error e, _ => .error e
    | _, .error e => .error e
    | .ok k, .ok ks => .ok (k :: ks)

/-- A line whose `[` does not open a well-formed header: the bracket is read
as part of a bare key running to the next colon. -/
def fallbackKey (key : Option String) (cs : List Char) : Except Err FieldLine :=
  match cs.dropWhile (fun c => !(c = ':')) with
  | ':' :: t =>
    .ok ⟨some (String.mk (((key.map String.toList).getD []) ++
      cs.takeWhile (fun c => !(c = ':')))), none, parseTailOpt t⟩
  | _ => .error .missingColon

/-- Continue a content line after its key: optional header, mandatory `:`,
value tail (spec §4.2 line anatomy; a missing colon is *MissingColon*). -/
def parseAfterKey (key : Option String) (cs : List Char) : Except Err FieldLine :=
  match cs with
  | '[' :: r =>
    match parseBracket r with
    | some (n, d, r2) =>
      match r2 with
      | '\x7b' :: r3 =>
        match splitFieldsSM d.char false false r3 with
        | some (fcells, r4) =>
          (match parseKeys fcells with
           | .error e => .error e
           | .ok fs =>
             match r4 with
             | ':' :: t => .ok ⟨key, some ⟨n, d, some fs⟩, parseTailOpt t⟩
             | _ => .error .missingColon)
        | none => .error .unterminatedString
      | ':' :: t => .ok ⟨key, some ⟨n, d, none⟩, parseTailOpt t⟩
      | _ => .error .missingColon
    | none => fallbackKey key cs
  | ':' :: t => .ok ⟨key, none, parseTailOpt t⟩
  | _ => .error .missingColon

/-- Parse the anatomy of one content line: quoted key, bare key or keyless
header, then `parseAfterKey`. -/
def parseFieldLine (cs : List Char) : Except Err FieldLine :=
  match cs with
  | '"' :: r =>
    (match unquote r with
     | .error e => .error e
     | .ok (k, rest) => parseAfterKey (some (String.mk k)) rest)
  | '[' :: _ => parseAfterKey none cs
  | _ =>
    parseAfterKey (some (String.mk (cs.takeWhile (fun c => !(c = ':') && !(c = '[')))))
      (cs.dropWhile (fun c => !(c = ':') && !(c = '[')))

/-- Whether the value announced by a content line is built from a block of
deeper lines: a field-less header with no inline tail (expanded array), a
tabular header, or a bare `key:` (nested object).  Scalar fields and inline
arrays are complete on their own line and open no container frame, so
following deeper lines belong to the enclosing frame (spec §4.3). -/
def FieldLine.opensBlock (fl : FieldLine) : Bool :=
  match fl.header with
  | some h => fl.tail.isNone || h.fields.isSome
  | none => fl.tail.isNone

/-- A value cell: quoted string or scalar literal (spec §4.1). -/
def parseCellValue (cs : List Char) : Except Err Value :=
  match cs with
  | '"' :: r => (fun p => Value.str (String.mk p.1)) <$> unquote r
  | _ => .ok (decodeScalar cs)

/-! ## Parser (spec §4.3), strict-mode checks through one guard -/

/-- The single maybe-raise helper for the strict-only diagnostics
(spec §9 design note): raise `e` when in strict mode and the deviation is
present, otherwise tolerate silently. -/
def strictCheck (strict bad : Bool) (e : Err) : Except Err Unit :=
  if strict && bad then .error e else .ok ()

/-- Parse all cells as values. -/
def parseCells : List (List Char) → Except Err VList
  | [] => .ok .nil
  | c :: tl =>
    match parseCellValue c, parseCells tl with
    | .error e, _ => .error e
    | _, .error e => .error e
    | .ok v, .ok vs => .ok (.cons v vs)

/-- Inline array body: split the tail at the active delimiter; in strict mode
the cell count must equal the declared count (*CountMismatch*, spec §4.3). -/
def finishInline (strict : Bool) (n : Nat) (d : Delim) (t : List Char) : Except Err Value :=
  match splitCells d.char t with
  | .error e => .error e
  | .ok cells =>
    match strictCheck strict (decide (cells.length ≠ n)) .countMismatch with
    | .error e => .error e
    | .ok _ =>
      match parseCells cells with
      | .error e => .error e
      | .ok vs => .ok (.arr vs)

/-- Zip tabular header keys with row cells (lenient rows may be ragged). -/
def zipFields : List String → VList → FList
  | [], _ => .fnil
  | _, .nil => .fnil
  | k :: ks, .cons v tl => .fcons k v (zipFields ks tl)

/-- One tabular row: cells at the active delimiter; in strict mode the cell
count must equal the header width (*WidthMismatch*, spec §4.3). -/
def parseRow (strict : Bool) (fields : List String) (d : Delim) (cs : List Char) :
    Except Err Value :=
  match splitCells d.char cs with
  | .error e => .error e
  | .ok cells =>
    match strictCheck strict (decide (cells.length ≠ fields.length)) .widthMismatch with
    | .error e => .error e
    | .ok _ =>
      match parseCells cells with
      | .error e => .error e
      | .ok vs => .ok (.obj (zipFields fields vs))

/-- All rows of a tabular body; a blank line inside the array body is
*BlankInArray* in strict mode, skipped in lenient mode (spec §4.3). -/
def parseRows (strict : Bool) (fields : List String) (d : Delim) : List Line → Except Err VList
  | [] => .ok .nil
  | l :: ls =>
    if l.blank then
      match strictCheck strict true .blankInArray with
      | .error e => .error e
      | .ok _ => parseRows strict fields d ls
    else
      match parseRow strict fields d l.txt, parseRows strict fields d ls with
      | .error e, _ => .error e
      | _, .error e => .error e
      | .ok v, .ok tl => .ok (.cons v tl)

/-- Tabular array body: rows, then the strict row-count check
(*CountMismatch*, spec §4.3). -/
def parseTabular (strict : Bool) (n : Nat) (fields : List String) (d : Delim)
    (block : List Line) : Except Err Value :=
  match parseRows strict fields d block with
  | .error e => .error e
  | .ok rows =>
    match strictCheck strict (decide (rows.length ≠ n)) .countMismatch with
    | .error e => .error e
    | .ok _ => .ok (.arr rows)

mutual

/-- Parse a run of lines as object fields; every line is attached to this
object, deeper lines forming the child block of the preceding field
(spec §4.3 container frames). -/
def parseFields (strict : Bool) : Nat → List Line → Except Err FList
  | 0, _ => .error .outOfFuel
  | _ + 1, [] => .ok .fnil
  | fuel + 1, l :: ls =>
    if l.blank then parseFields strict fuel ls
    else
      match parseFieldLine l.txt with
      | .error e => .error e
      | .ok fl =>
        match fl.key with
        | none => .error .missingColon
        | some k =>
          if fl.opensBlock then
            match parseValueAfter strict fuel fl (ls.takeWhile (Line.deeper l.col)) with
            | .error e => .error e
            | .ok v =>
              match parseFields strict fuel (ls.dropWhile (Line.deeper l.col)) with
              | .error e => .error e
              | .ok tl => .ok (.fcons k v tl)
          else
            match parseValueAfter strict fuel fl [] with
            | .error e => .error e
            | .ok v =>
              match parseFields strict fuel ls with
              | .error e => .error e
              | .ok tl => .ok (.fcons k v tl)

/-- Build the value announced by a content line from its header/tail and its
child block: tabular, inline or expanded array body, scalar tail, or a nested
object (empty block → empty object). -/
def parseValueAfter (strict : Bool) : Nat → FieldLine → List Line → Except Err Value
  | 0, _, _ => .error .outOfFuel
  | fuel + 1, fl, block =>
    match fl.header with
    | some h =>
      match h.fields with
      | some fs => parseTabular strict h.count fs h.delim block
      | none =>
        match fl.tail with
        | some t => finishInline strict h.count h.delim t
        | none =>
          match strictCheck strict (block.any Line.blank) .blankInArray with
          | .error e => .error e
          | .ok _ =>
            match parseItems strict fuel block with
            | .error e => .error e
            | .ok items =>
              match strictCheck strict (decide (items.length ≠ h.count)) .countMismatch with
              | .error e => .error e
              | .ok _ => .ok (.arr items)
    | none =>
      match fl.tail with
      | some t => parseCellValue t
      | none =>
        match parseFields strict fuel block with
        | .error e => .error e
        | .ok fs => .ok (.obj fs)

/-- Parse the items of an expanded array body; blank lines inside the body are
*BlankInArray* in strict mode, skipped in lenient mode (spec §4.3). -/
def parseItems (strict : Bool) : Nat → List Line → Except Err VList
  | 0, _ => .error .outOfFuel
  | _ + 1, [] => .ok .nil
  | fuel + 1, l :: ls =>
    if l.blank then
      match strictCheck strict true .blankInArray with
      | .error e => .error e
      | .ok _ => parseItems strict fuel ls
    else
      match parseItem strict fuel l.txt (ls.takeWhile (Line.deeper l.col)) with
      | .error e => .error e
      | .ok v =>
        match parseItems strict fuel (ls.dropWhile (Line.deeper l.col)) with
        | .error e => .error e
        | .ok tl => .ok (.cons v tl)

/-- Parse one `- ` item (spec §4.3 expanded form): a bare `-` opens an object
from the deeper block; `- [` opens a nested array; a hyphen line with an
unquoted colon carries an object's first field; otherwise the item is a
primitive.  A non-item line inside an expanded body is *MissingColon*. -/
def parseItem (strict : Bool) : Nat → List Char → List Line → Except Err Value
  | 0, _, _ => .error .outOfFuel
  | fuel + 1, txt, block =>
    match txt with
    | '-' :: rest =>
      (match rest with
       | [] =>
         (match parseFields strict fuel block with
          | .error e => .error e
          | .ok fs => .ok (.obj fs))
       | ' ' :: content =>
         if content.head? = some '[' then
           match parseFieldLine content with
           | .error e => .error e
           | .ok fl => parseValueAfter strict fuel fl block
         else if hasUnquotedColon content then
           match parseFieldLine content with
           | .error e => .error e
           | .ok fl =>
             match fl.key with
             | none => .error .missingColon
             | some k =>
               match parseValueAfter strict fuel fl [] with
               | .error e => .error e
               | .ok v0 =>
                 match parseFields strict fuel block with
                 | .error e => .error e
                 | .ok fs => .ok (.obj (.fcons k v0 fs))
         else parseCellValue content
       | _ => .error .missingColon)
    | _ => .error .missingColon

end

/-! ## Decoder entry point -/

/-- First positive indent column of a non-blank line: the indent unit
established by the first indented line (spec §4.3). -/
def firstPosCol : List Line → Option Nat
  | [] => none
  | l :: ls => if !l.blank && decide (0 < l.col) then some l.col else firstPosCol ls

/-- Strict indentation discipline (spec §4.3): every non-blank line's indent
must be a multiple of the indent unit; violations are *BadIndent*, tolerated
in lenient mode. -/
def checkIndent (strict : Bool) (lines : List Line) : Except Err Unit :=
  match firstPosCol lines with
  | none => .ok ()
  | some u =>
    strictCheck strict (!(lines.all (fun l => l.blank || decide (l.col % u = 0)))) .badIndent

/-- `toons.loads`: split into lines, analyze indents, strict indent pre-check,
then root dispatch (spec §3 Document): empty → null; a single content line
with no unquoted colon → bare primitive; first content line starting `[` →
root array; otherwise → root object. -/
def loads (text : String) (strict : Bool) : Except Err Value :=
  match mapLines (dropLastEmpty (splitNl text.toList)) with
  | .error e => .error e
  | .ok lines =>
    match checkIndent strict lines with
    | .error e => .error e
    | .ok _ =>
      match lines.dropWhile Line.blank with
      | [] => .ok .null
      | l0 :: restL =>
        if restL.all Line.blank && !hasUnquotedColon l0.txt then
          parseCellValue l0.txt
        else if l0.txt.head? = some '[' then
          match parseFieldLine l0.txt with
          | .error e => .error e
          | .ok fl =>
            match fl.key, fl.header with
            | none, some _ => parseValueAfter strict (4 * lines.length + 4) fl restL
            | _, _ => .error .missingColon
        else
          match parseFields strict (4 * lines.length + 4) (l0 :: restL) with
          | .error e => .error e
          | .ok fs => .ok (.obj fs)

/-- `toons.loads` at its Python keyword default `strict=True` (pinned by
`test_strict_flag.py::test_strict_flag_exposed`). -/
def loadsDef (text : String) : Except Err Value := loads text true

/-- Decoder sanity anchors against the repository's test-suite. -/
example : loadsDef "name: Alice\nage: 30" =
    .ok (vObj [("name", .str "Alice"), ("age", .int 30)]) := rfl

example : loadsDef "[3]: 1,2,3" = .ok (vArr [.int 1, .int 2, .int 3]) := rfl

example : loadsDef "user:\n  name: Bob\n  age: 25" =
    .ok (vObj [("user", vObj [("name", .str "Bob"), ("age", .int 25)])]) := rfl

example : loadsDef "[2]\x7bid,name\x7d:\n  1,Alice\n  2,Bob" =
    .ok (vArr [vObj [("id", .int 1), ("name", .str "Alice")],
      vObj [("id", .int 2), ("name", .str "Bob")]]) := rfl

example : loadsDef "hello" = .ok (.str "hello") := rfl
example : loadsDef "42" = .ok (.int 42) := rfl
example : loadsDef "true" = .ok (.bool true) := rfl
example : loadsDef "" = .ok .null := rfl

example : loadsDef "items[#3]: 1,2,3" = .ok (vObj [("items", vArr [.int 1, .int 2, .int 3])]) := rfl
example : loadsDef "items[3]: 1,2,3" = .ok (vObj [("items", vArr [.int 1, .int 2, .int 3])]) := rfl

example : loadsDef "items[2\t]: a\tb" = .ok (vObj [("items", vArr [.str "a", .str "b"])]) := rfl
example : loadsDef "items[2|]: a|b" = .ok (vObj [("items", vArr [.str "a", .str "b"])]) := rfl

example : loadsDef "[3]\x7ba,b,c\x7d:\n  1,true,x\n  2,false,y\n  3,true,z" =
    .ok (vArr [vObj [("a", .int 1), ("b", .bool true), ("c", .str "x")],
      vObj [("a", .int 2), ("b", .bool false), ("c", .str "y")],
      vObj [("a", .int 3), ("b", .bool true), ("c", .str "z")]]) := rfl

example : loadsDef "text: \"a\\\\b\\\"c\\nd\\re\\tf\"" =
    .ok (vObj [("text", .str "a\\b\"c\nd\re\tf")]) := rfl

-- strict-mode behaviour (spec §8 strict-mode properties and test_strict_flag.py)
example : loadsDef "[3]:\n  - 1\n\n  - 2\n  - 3" = .error .blankInArray := rfl
example : loads "[3]:\n  - 1\n\n  - 2\n  - 3" false = .ok (vArr [.int 1, .int 2, .int 3]) := rfl

example : loadsDef "root:\n  child1: value\n   child2: value" = .error .badIndent := rfl
example : loads "root:\n  child1: value\n   child2: value" false =
    .ok (vObj [("root", vObj [("child1", .str "value"), ("child2", .str "value")])]) := rfl

example : loadsDef "[3]: 1,2" = .error .countMismatch := rfl
example : loads "[3]: 1,2" false = .ok (vArr [.int 1, .int 2]) := rfl

example : loadsDef "items[3]\x7bid,name\x7d:\n  1,Alice\n  2,Bob" = .error .countMismatch := rfl
example : loads "items[3]\x7bid,name\x7d:\n  1,Alice\n  2,Bob" false =
    .ok (vObj [("items", vArr [vObj [("id", .int 1), ("name", .str "Alice")],
      vObj [("id", .int 2), ("name", .str "Bob")]])]) := rfl

example : loadsDef "[2]\x7ba,b\x7d:\n  1,2,3\n  4,5,6" = .error .widthMismatch := rfl
example : loads "[2]\x7ba,b\x7d:\n  1,2,3\n  4,5,6" false =
    .ok (vArr [vObj [("a", .int 1), ("b", .int 2)], vObj [("a", .int 4), ("b", .int 5)]]) := rfl

example : loadsDef "text: \"bad\\xescape\"" = .error .invalidEscape := rfl

-- round-trip smoke, including the extra-indent quirk document
example : (dumpsDef (vObj [("server", vObj [("host", .str "localhost"),
      ("ports", vArr [.int 8080, .int 8443])])])).bind loadsDef =
    .ok (vObj [("server", vObj [("host", .str "localhost"),
      ("ports", vArr [.int 8080, .int 8443])])]) := rfl

example : (dumpsDef (vObj [("mixed", vArr [.int 1, .str "text",
      vObj [("key", .str "value")]])])).bind loadsDef =
    .ok (vObj [("mixed", vArr [.int 1, .str "text", vObj [("key", .str "value")]])]) := rfl

example : (dumpsDef (vArr [vObj [("id", .int 1), ("name", .str "Alice")],
      vObj [("id", .int 2), ("name", .str "Bob")]])).bind loadsDef =
    .ok (vArr [vObj [("id", .int 1), ("name", .str "Alice")],
      vObj [("id", .int 2), ("name", .str "Bob")]]) := rfl

example : (dumpsDef (vObj [("numbers", vArr [.int 0, .int (-42), .float ⟨false, 314, -2⟩,
      .float ⟨true, 9999, -2⟩, .float ⟨false, 1, -6⟩])])).bind loadsDef =
    .ok (vObj [("numbers", vArr [.int 0, .int (-42), .float ⟨false, 314, -2⟩,
      .float ⟨true, 9999, -2⟩, .float ⟨false, 1, -6⟩])]) := rfl

example : (dumpsDef (vObj [("pairs", vArr [vArr [.int 1, .int 2], vArr [.int 3, .int 4]])])).bind
    loadsDef = .ok (vObj [("pairs", vArr [vArr [.int 1, .int 2], vArr [.int 3, .int 4]])]) := rfl

example : (dumpsDef (vObj [("unicode", .str "Hello 世界 🌍")])).bind loadsDef =
    .ok (vObj [("unicode", .str "Hello 世界 🌍")]) := rfl

example : (dumpsDef (vObj [("empty", vObj [("nested", vObj [])])])).bind loadsDef =
    .ok (vObj [("empty", vObj [("nested", vObj [])])]) := rfl

/-! ## Claim-side definitions: substring search, data-model equality,
pre-normalized Python values, the spec-worded tabular condition -/

/-- `pat` begins `cs`. -/
def startsWithL : List Char → List Char → Bool
  | [], _ => true
  | _ :: _, [] => false
  | p :: ps, c :: cs => p = c && startsWithL ps cs

/-- `pat` occurs contiguously somewhere in `cs`. -/
def hasSub (pat : List Char) : List Char → Bool
  | [] => startsWithL pat []
  | c :: cs => startsWithL pat (c :: cs) || hasSub pat cs

/-- Numeric equality of decimal floats (`-0.0` collapses to `0.0`). -/
def floatEqB (a b : FloatV) : Bool :=
  if a.mant = 0 then decide (b.mant = 0)
  else if b.mant = 0 then false
  else
    a.neg = b.neg &&
      (if 0 ≤ a.exp - b.exp then decide (a.mant * 10 ^ (a.exp - b.exp).natAbs = b.mant)
       else decide (a.mant = b.mant * 10 ^ (b.exp - a.exp).natAbs))

mutual

/-- The data-model equality of spec §3: key order preserved, `-0.0` collapsed
to `0.0`, integers distinct from floats, floats compared by numeric value. -/
def dmEq : Value → Value → Bool
  | .null, .null => true
  | .bool a, .bool b => a = b
  | .int a, .int b => a = b
  | .float a, .float b => floatEqB a b
  | .str a, .str b => a = b
  | .arr a, .arr b => dmEqV a b
  | .obj a, .obj b => dmEqF a b
  | _, _ => false

/-- Element-wise data-model equality of arrays. -/
def dmEqV : VList → VList → Bool
  | .nil, .nil => true
  | .cons a as, .cons b bs => dmEq a b && dmEqV as bs
  | _, _ => false

/-- Field-wise data-model equality of objects (same keys in the same order). -/
def dmEqF : FList → FList → Bool
  | .fnil, .fnil => true
  | .fcons ka va as, .fcons kb vb bs => ka = kb && dmEq va vb && dmEqF as bs
  | _, _ => false

end

/-- Two-digit zero-padded decimal field. -/
def pad2 (n : Nat) : List Char := if n < 10 then '0' :: natDigits n else natDigits n

/-- Four-digit zero-padded decimal field. -/
def pad4 (n : Nat) : List Char :=
  List.replicate (4 - (natDigits n).length) '0' ++ natDigits n

/-- ISO-8601 date text `YYYY-MM-DD`. -/
def isoDate (y mo d : Nat) : String := String.mk (pad4 y ++ '-' :: pad2 mo ++ '-' :: pad2 d)

/-- ISO-8601 time text `HH:MM:SS`. -/
def isoTime (h mi s : Nat) : String := String.mk (pad2 h ++ ':' :: pad2 mi ++ ':' :: pad2 s)

/-- ISO-8601 datetime text `YYYY-MM-DDTHH:MM:SS`. -/
def isoDatetime (y mo d h mi s : Nat) : String :=
  String.mk ((isoDate y mo d).toList ++ 'T' :: (isoTime h mi s).toList)

/-- Modelled from the spec (§9 design note, "Date/Decimal stringification")
and `tests/integration/test_non_serializable.py`: `dumps` pre-normalizes a
`datetime.datetime` to its ISO-8601 string before encoding. -/
def pyDatetime (y mo d h mi s : Nat) : Value := .str (isoDatetime y mo d h mi s)

/-- Modelled from the spec: `dumps` pre-normalizes a `datetime.date` to its
ISO-8601 string. -/
def pyDate (y mo d : Nat) : Value := .str (isoDate y mo d)

/-- Modelled from the spec: `dumps` pre-normalizes a `datetime.time` to its
ISO-8601 string. -/
def pyTime (h mi s : Nat) : Value := .str (isoTime h mi s)

/-- Modelled from the spec and `test_non_serializable.py`: `dumps` emits a
`decimal.Decimal` as its plain decimal text, bare (so it reads back as a
number): the pre-normalized form is the decimal number itself. -/
def pyDecimal (f : FloatV) : Value := .float f

/-- The keys of the first element, when it is an object. -/
def firstKeys : VList → Option (List String)
  | .cons (.obj fl) _ => some fl.keys
  | _ => none

/-- The tabular condition exactly as the spec's property §8.6 words it:
every element is a non-empty object with the first element's keys in the same
first-insertion order and only primitive leaves. -/
def claimTabular (l : VList) : Bool :=
  match l with
  | .nil => false
  | .cons v tl =>
    match v with
    | .obj fl => !fl.keys.isEmpty && VList.allRows fl.keys (.cons v tl)
    | _ => false

/-- The tabular field clause carried by a parsed line, if any. -/
def headerFields (fl : FieldLine) : Option (List String) :=
  match fl.header with
  | some h => h.fields
  | none => none

/-! ## Claim C3, C7, C8: direct evaluations and the configuration law -/

/-- **C3** (code bug observed in the model pinned to the tests): encoding
`{"server": {"host": "localhost", "ports": [8080, 8443]}}` puts the two child
lines of `server` at columns 2 and 4: the children do not share one indent
column and the array child is not at `parent + indent`, contradicting the
spec's indent-geometry property §8.8.  The exact output is the one asserted by
`test_dumps.py::test_mixed_nested_structures`. -/
theorem C3_indent_geometry_code_bug :
    dumpsDef (vObj [("server", vObj [("host", .str "localhost"),
        ("ports", vArr [.int 8080, .int 8443])])]) =
      .ok "server:\n  host: localhost\n    ports[2]: 8080,8443" ∧
    (encFields .comma 2 (FList.ofList [("host", .str "localhost"),
        ("ports", vArr [.int 8080, .int 8443])]) 2).map Line.col = [2, 4] :=
  ⟨rfl, rfl⟩

/-- **C7**: encoding `{"value": -0.0}` normalizes the negative zero: the
output is exactly `value: 0` and contains no `-0`
(`test_spec_compliance.py::test_minus_zero_normalization`). -/
theorem C7_minus_zero_normalized :
    dumpsDef (vObj [("value", .float ⟨true, 0, 0⟩)]) = .ok "value: 0" ∧
    hasSub ['-', '0'] ("value: 0".toList) = false :=
  ⟨rfl, rfl⟩

/-- **C8**: the encoder raises *BadConfig* exactly when `indent < 2`, and
produces output exactly when `indent ≥ 2`
(spec §4.5, `test_indent.py::test_indent_zero_raises_error`). -/
theorem C8_bad_config_iff (v : Value) (n : Nat) (d : Delim) :
    (dumps v n d = .error .badConfig ↔ n < 2) ∧
    ((∃ s, dumps v n d = .ok s) ↔ 2 ≤ n) := by
  unfold dumps
  by_cases h : n < 2
  · simp [h]
  · simp [h]
    omega

/-! ## Claim C9: the `#` count marker -/

/-- **C9**: the decoder accepts an optional `#` before the count of an array
header and ignores it semantically: stripping it is the first step of
`parseBracket`, so any header `[#N…]` parses exactly like `[N…]`, and on the
concrete documents of
`test_spec_compliance.py::test_header_length_marker_ignored` the decoded
values agree. -/
theorem C9_hash_marker_ignored :
    (∀ cs : List Char, cs.head? ≠ some '#' →
      parseBracket ('#' :: cs) = parseBracket cs) ∧
    loadsDef "items[#3]: 1,2,3" = loadsDef "items[3]: 1,2,3" ∧
    loadsDef "items[3]: 1,2,3" = .ok (vObj [("items", vArr [.int 1, .int 2, .int 3])]) := by
  refine ⟨?_, rfl, rfl⟩
  intro cs h
  show parseBracketCore cs = parseBracket cs
  unfold parseBracket
  split
  · simp at h
  · rfl

/-- Witness for the hypothesis of `C9_hash_marker_ignored`. -/
theorem C9_hash_marker_ignored_witness :
    ("3]: 1,2,3".toList.head? ≠ some '#') ∧
    parseBracket ('#' :: "3]: 1,2,3".toList) = parseBracket ("3]: 1,2,3".toList) :=
  ⟨by decide, C9_hash_marker_ignored.1 "3]: 1,2,3".toList (by decide)⟩

/-! ## Claim C5: strict count enforcement -/

/-- **C5**: in strict mode every declared count is enforced: an inline tail
with a cell count different from the declared count is *CountMismatch*
(concretely, `[3]: 1,2`); a tabular body whose row count differs from the
declared count is *CountMismatch* (concretely the document of
`test_spec_compliance.py::test_tabular_row_count_mismatch`); a tabular row
whose cell count differs from the header width is *WidthMismatch*; an
expanded body with the wrong number of items is *CountMismatch*. -/
theorem C5_count_enforcement :
    loadsDef "[3]: 1,2" = .error .countMismatch ∧
    loadsDef "items[3]\x7bid,name\x7d:\n  1,Alice\n  2,Bob" = .error .countMismatch ∧
    loadsDef "[2]\x7ba,b\x7d:\n  1,2,3\n  4,5,6" = .error .widthMismatch ∧
    loadsDef "[3]:\n  - 1\n  - 2" = .error .countMismatch ∧
    (∀ (n : Nat) (d : Delim) (t : List Char) (cells : List (List Char)),
      splitCells d.char t = .ok cells → cells.length ≠ n →
      finishInline true n d t = .error .countMismatch) ∧
    (∀ (n : Nat) (fs : List String) (d : Delim) (block : List Line) (rows : VList),
      parseRows true fs d block = .ok rows → rows.length ≠ n →
      parseTabular true n fs d block = .error .countMismatch) ∧
    (∀ (fs : List String) (d : Delim) (cs : List Char) (cells : List (List Char)),
      splitCells d.char cs = .ok cells → cells.length ≠ fs.length →
      parseRow true fs d cs = .error .widthMismatch) := by
  refine ⟨rfl, rfl, rfl, rfl, ?_, ?_, ?_⟩
  · intro n d t cells hsplit hne
    simp [finishInline, hsplit, strictCheck, hne]
  · intro n fs d block rows hrows hne
    simp [parseTabular, hrows, strictCheck, hne]
  · intro fs d cs cells hsplit hne
    simp [parseRow, hsplit, strictCheck, hne]

/-- Witness for the hypotheses of `C5_count_enforcement`: the inline tail
`1,2` declared as `[3]`. -/
theorem C5_count_enforcement_witness :
    splitCells Delim.comma.char ("1,2".toList) = .ok [['1'], ['2']] ∧
    [['1'], ['2']].length ≠ 3 ∧
    finishInline true 3 .comma ("1,2".toList) = .error .countMismatch :=
  ⟨rfl, by decide,
    C5_count_enforcement.2.2.2.2.1 3 .comma ("1,2".toList) [['1'], ['2']] rfl (by decide)⟩

/-! ## Claim C6: the quoting policy -/

/-- Every character escapes to at least one character. -/
theorem escCharMap_len_pos (c : Char) : 1 ≤ (escCharMap c).length := by
  unfold escCharMap
  repeat' split
  all_goals simp

/-- Escaping does not shorten a string. -/
theorem escChars_len_ge (cs : List Char) : cs.length ≤ (escChars cs).length := by
  induction cs with
  | nil => simp [escChars]
  | cons c r ih =>
    have := escCharMap_len_pos c
    simp [escChars]
    omega

/-- The quoted form of a string is never the string itself. -/
theorem quoteWrap_ne (cs : List Char) : quoteWrap cs ≠ cs := by
  intro h
  have hl := congrArg List.length h
  simp [quoteWrap] at hl
  have := escChars_len_ge cs
  omega

/-- **C6 counterexample**: the claim's "quoted only if some trigger holds"
direction fails on the code: `dumps("test string")` is emitted quoted
(`test_dumps.py::test_string_with_spaces_quoted`) although the string
satisfies none of the §4.1 quoting triggers. -/
theorem C6_counterexample :
    dumpsDef (.str "test string") = .ok "\"test string\"" ∧
    quoteTrigger ("test string".toList) ',' = false :=
  ⟨rfl, rfl⟩

/-- **C6 as amended**: inside containers (object fields, array cells — the
non-root emission context) a string value is emitted inside double quotes iff
some §4.1 quoting trigger holds, and bare iff none holds; a string emitted as
the whole root document is additionally quoted when it contains a space. -/
theorem C6_quoting_policy (cs : List Char) (d : Delim) :
    (encodeStr (String.mk cs) d.char false = quoteWrap cs ↔
      quoteTrigger cs d.char = true) ∧
    (encodeStr (String.mk cs) d.char false = cs ↔ quoteTrigger cs d.char = false) ∧
    (encodeStr (String.mk cs) d.char true = quoteWrap cs ↔
      (quoteTrigger cs d.char || cs.contains ' ') = true) := by
  have hne := quoteWrap_ne cs
  cases h : quoteTrigger cs d.char with
  | true =>
    have he : needsQuotes cs d.char false = true := by simp [needsQuotes, h]
    have he2 : needsQuotes cs d.char true = true := by simp [needsQuotes, h]
    refine ⟨?_, ?_, ?_⟩
    · simp [encodeStr, he]
    · simp [encodeStr, he]
      exact hne
    · simp [encodeStr, he2]
  | false =>
    have he : needsQuotes cs d.char false = false := by simp [needsQuotes, h]
    refine ⟨?_, ?_, ?_⟩
    · simp [encodeStr, he]
      exact fun hh => hne hh.symm
    · simp [encodeStr, he]
    · cases hsp : cs.contains ' ' with
      | true =>
        have h2 : needsQuotes cs d.char true = true := by
          unfold needsQuotes
          rw [h, hsp]
          rfl
        simp only [encodeStr]
        rw [show (String.mk cs).toList = cs from rfl, h2]
        simp
      | false =>
        have h2 : needsQuotes cs d.char true = false := by
          unfold needsQuotes
          rw [h, hsp]
          rfl
        simp only [encodeStr]
        rw [show (String.mk cs).toList = cs from rfl, h2]
        simp
        exact fun hh => hne hh.symm

/-! ## Claim C4: lenient mode and the downgradeable diagnostics -/

/-- A decode result that did not raise a downgradeable diagnostic. -/
def resOk {α : Type} : Except Err α → Bool
  | .ok _ => true
  | .error e => !e.downgradeable

/-- Mapping over a result does not change which error it carries. -/
theorem resOk_map {α β : Type} (f : α → β) (e : Except Err α) :
    resOk (f <$> e) = resOk e := by
  cases e <;> rfl

/-- With `strict = false` the maybe-raise helper never raises. -/
theorem strictCheck_false (b : Bool) (e : Err) : strictCheck false b e = .ok () := rfl

/-- `unquote` raises only *UnterminatedString* or *InvalidEscape*. -/
theorem unquote_resOk : ∀ (n : Nat) (cs : List Char), cs.length ≤ n →
    resOk (unquote cs) = true := by
  intro n
  induction n with
  | zero =>
    intro cs h
    cases cs with
    | nil => rfl
    | cons c r => simp at h
  | succ n ih =>
    intro cs h
    rw [unquote.eq_def]
    repeat' split
    all_goals first
      | rfl
      | (rw [resOk_map]
         apply ih
         simp only [List.length_cons] at h
         omega)

/-- `splitCellsSM` raises only *UnterminatedString*. -/
theorem splitCellsSM_resOk : ∀ (n : Nat) (d : Char) (a b : Bool) (cs : List Char),
    cs.length ≤ n → resOk (splitCellsSM d a b cs) = true := by
  intro n
  induction n with
  | zero =>
    intro d a b cs h
    cases cs with
    | nil => cases a <;> cases b <;> rfl
    | cons c r => simp at h
  | succ n ih =>
    intro d a b cs h
    rw [splitCellsSM.eq_def]
    repeat' split
    all_goals first
      | rfl
      | (rw [resOk_map]
         apply ih
         simp only [List.length_cons] at h
         omega)

/-- `parseCellKey` raises only what `unquote` raises. -/
theorem parseCellKey_resOk (cs : List Char) : resOk (parseCellKey cs) = true := by
  rw [parseCellKey.eq_def]
  split
  · rw [resOk_map]
    exact unquote_resOk _ _ le_rfl
  · rfl

/-- Propagation: a two-scrutinee error cascade preserves `resOk`. -/
theorem resOk_match2 {α β γ : Type} (a : Except Err α) (b : Except Err β) (f : α → β → γ)
    (ha : resOk a = true) (hb : resOk b = true) :
    resOk (match a, b with
      | .error e, _ => .error e
      | _, .error e => .error e
      | .ok x, .ok y => .ok (f x y)) = true := by
  cases a <;> cases b <;> simp_all [resOk]

/-- Propagation: an error cascade into a continuation preserves `resOk`. -/
theorem resOk_matchE {α β : Type} (a : Except Err α) (f : α → Except Err β)
    (ha : resOk a = true) (hf : ∀ x, a = .ok x → resOk (f x) = true) :
    resOk (match a with | .error e => .error e | .ok x => f x) = true := by
  cases a with
  | error e => simpa using ha
  | ok x => exact hf x rfl

/-- `parseKeys` raises only what `parseCellKey` raises. -/
theorem parseKeys_resOk (l : List (List Char)) : resOk (parseKeys l) = true := by
  induction l with
  | nil => rfl
  | cons c tl ih =>
    cases hc : parseCellKey c with
    | error e =>
      have h1 := parseCellKey_resOk c
      rw [hc] at h1
      simp only [parseKeys, hc]
      exact h1
    | ok k =>
      cases ht : parseKeys tl with
      | error e =>
        rw [ht] at ih
        simp only [parseKeys, hc, ht]
        exact ih
      | ok ks =>
        simp only [parseKeys, hc, ht]
        rfl

/-- `fallbackKey` raises only *MissingColon*. -/
theorem fallbackKey_resOk (k : Option String) (cs : List Char) :
    resOk (fallbackKey k cs) = true := by
  rw [fallbackKey.eq_def]
  split <;> rfl

/-- `parseAfterKey` raises no downgradeable diagnostic. -/
theorem parseAfterKey_resOk (k : Option String) (cs : List Char) :
    resOk (parseAfterKey k cs) = true := by
  rw [parseAfterKey.eq_def]
  repeat' split
  all_goals first
    | rfl
    | exact fallbackKey_resOk _ _
    | (rename_i e hks
       rename_i fc r4 heq2 xx
       have h := parseKeys_resOk fc
       rw [hks] at h
       simp only [resOk] at h ⊢
       exact h)

/-- `parseFieldLine` raises no downgradeable diagnostic. -/
theorem parseFieldLine_resOk (cs : List Char) : resOk (parseFieldLine cs) = true := by
  rw [parseFieldLine.eq_def]
  split
  · rename_i r
    cases hu : unquote r with
    | error e =>
      have := unquote_resOk r.length r le_rfl
      rw [hu] at this
      simpa using this
    | ok p => exact parseAfterKey_resOk _ _
  · exact parseAfterKey_resOk _ _
  · exact parseAfterKey_resOk _ _

/-- `parseCellValue` raises no downgradeable diagnostic. -/
theorem parseCellValue_resOk (cs : List Char) : resOk (parseCellValue cs) = true := by
  rw [parseCellValue.eq_def]
  split
  · rw [resOk_map]
    exact unquote_resOk _ _ le_rfl
  · rfl

/-- `parseCells` raises no downgradeable diagnostic. -/
theorem parseCells_resOk (l : List (List Char)) : resOk (parseCells l) = true := by
  induction l with
  | nil => rfl
  | cons c tl ih =>
    cases hc : parseCellValue c with
    | error e =>
      have h1 := parseCellValue_resOk c
      rw [hc] at h1
      simp only [parseCells, hc]
      exact h1
    | ok v =>
      cases ht : parseCells tl with
      | error e =>
        rw [ht] at ih
        simp only [parseCells, hc, ht]
        exact ih
      | ok vs =>
        simp only [parseCells, hc, ht]
        rfl

/-- Lenient inline bodies raise no downgradeable diagnostic. -/
theorem finishInline_resOk (n : Nat) (d : Delim) (t : List Char) :
    resOk (finishInline false n d t) = true := by
  cases hs : splitCells d.char t with
  | error e =>
    have h2 : resOk (splitCells d.char t) = true :=
      splitCellsSM_resOk t.length d.char false false t le_rfl
    rw [hs] at h2
    simp only [finishInline, hs]
    simp only [resOk] at h2 ⊢
    exact h2
  | ok cells =>
    simp only [finishInline, hs, strictCheck_false]
    cases hc : parseCells cells with
    | error e =>
      have h2 := parseCells_resOk cells
      rw [hc] at h2
      simp only [resOk] at h2 ⊢
      exact h2
    | ok vs => rfl

/-- Lenient rows raise no downgradeable diagnostic. -/
theorem parseRow_resOk (fields : List String) (d : Delim) (cs : List Char) :
    resOk (parseRow false fields d cs) = true := by
  cases hs : splitCells d.char cs with
  | error e =>
    have h2 : resOk (splitCells d.char cs) = true :=
      splitCellsSM_resOk cs.length d.char false false cs le_rfl
    rw [hs] at h2
    simp only [parseRow, hs]
    simp only [resOk] at h2 ⊢
    exact h2
  | ok cells =>
    simp only [parseRow, hs, strictCheck_false]
    cases hc : parseCells cells with
    | error e =>
      have h2 := parseCells_resOk cells
      rw [hc] at h2
      simp only [resOk] at h2 ⊢
      exact h2
    | ok vs => rfl

/-- Lenient tabular bodies raise no downgradeable diagnostic. -/
theorem parseRows_resOk (fields : List String) (d : Delim) (block : List Line) :
    resOk (parseRows false fields d block) = true := by
  induction block with
  | nil => rfl
  | cons l ls ih =>
    by_cases hb : l.blank
    · simp only [parseRows, hb, if_true, strictCheck_false]
      exact ih
    · simp only [parseRows, hb, if_false]
      cases hr : parseRow false fields d l.txt with
      | error e =>
        have h2 := parseRow_resOk fields d l.txt
        rw [hr] at h2
        simp only [resOk] at h2 ⊢
        exact h2
      | ok v =>
        cases ht : parseRows false fields d ls with
        | error e =>
          rw [ht] at ih
          simp only [resOk] at ih ⊢
          exact ih
        | ok tl => rfl

/-- Lenient tabular arrays raise no downgradeable diagnostic. -/
theorem parseTabular_resOk (n : Nat) (fields : List String) (d : Delim) (block : List Line) :
    resOk (parseTabular false n fields d block) = true := by
  cases hr : parseRows false fields d block with
  | error e =>
    have h2 := parseRows_resOk fields d block
    rw [hr] at h2
    simp only [parseTabular, hr]
    simp only [resOk] at h2 ⊢
    exact h2
  | ok rows =>
    simp only [parseTabular, hr, strictCheck_false]
    rfl

/-- The line analyzer raises only *TabInIndent*. -/
theorem analyzeLine_resOk (cs : List Char) : resOk (analyzeLine cs) = true := by
  rw [analyzeLine.eq_def]
  simp only []
  split <;> rfl

/-- Line analysis raises only *TabInIndent*. -/
theorem mapLines_resOk (l : List (List Char)) : resOk (mapLines l) = true := by
  induction l with
  | nil => rfl
  | cons x xs ih =>
    cases hx : analyzeLine x with
    | error e =>
      have h2 := analyzeLine_resOk x
      rw [hx] at h2
      simp only [mapLines, hx]
      simp only [resOk] at h2 ⊢
      exact h2
    | ok ln =>
      cases ht : mapLines xs with
      | error e =>
        rw [ht] at ih
        simp only [mapLines, hx, ht]
        simp only [resOk] at ih ⊢
        exact ih
      | ok ls =>
        simp only [mapLines, hx, ht]
        rfl

/-- The lenient indentation pre-check never raises. -/
theorem checkIndent_false (lines : List Line) : checkIndent false lines = .ok () := by
  rw [checkIndent.eq_def]
  split
  · rfl
  · exact strictCheck_false _ _

mutual

/-- Lenient object-field parsing raises no downgradeable diagnostic. -/
theorem parseFields_resOk : ∀ (fuel : Nat) (L : List Line),
    resOk (parseFields false fuel L) = true
  | 0, _ => rfl
  | _ + 1, [] => rfl
  | fuel + 1, l :: ls => by
    by_cases hb : l.blank
    · simp only [parseFields, hb, if_true]
      exact parseFields_resOk fuel ls
    · cases hfl : parseFieldLine l.txt with
      | error e =>
        have h2 := parseFieldLine_resOk l.txt
        rw [hfl] at h2
        simp [parseFields, hb, hfl]
        simpa [resOk] using h2
      | ok fl =>
        cases hk : fl.key with
        | none => simp [parseFields, hb, hfl, hk, resOk, Err.downgradeable]
        | some k =>
          by_cases ho : fl.opensBlock
          · cases hv : parseValueAfter false fuel fl (ls.takeWhile (Line.deeper l.col)) with
            | error e =>
              have h2 := parseValueAfter_resOk fuel fl (ls.takeWhile (Line.deeper l.col))
              rw [hv] at h2
              simp [parseFields, hb, hfl, hk, ho, hv]
              simpa [resOk] using h2
            | ok v =>
              cases ht : parseFields false fuel (ls.dropWhile (Line.deeper l.col)) with
              | error e =>
                have h2 := parseFields_resOk fuel (ls.dropWhile (Line.deeper l.col))
                rw [ht] at h2
                simp [parseFields, hb, hfl, hk, ho, hv, ht]
                simpa [resOk] using h2
              | ok tl => simp [parseFields, hb, hfl, hk, ho, hv, ht, resOk]
          · cases hv : parseValueAfter false fuel fl [] with
            | error e =>
              have h2 := parseValueAfter_resOk fuel fl []
              rw [hv] at h2
              simp [parseFields, hb, hfl, hk, ho, hv]
              simpa [resOk] using h2
            | ok v =>
              cases ht : parseFields false fuel ls with
              | error e =>
                have h2 := parseFields_resOk fuel ls
                rw [ht] at h2
                simp [parseFields, hb, hfl, hk, ho, hv, ht]
                simpa [resOk] using h2
              | ok tl => simp [parseFields, hb, hfl, hk, ho, hv, ht, resOk]

/-- Lenient value construction raises no downgradeable diagnostic. -/
theorem parseValueAfter_resOk : ∀ (fuel : Nat) (fl : FieldLine) (block : List Line),
    resOk (parseValueAfter false fuel fl block) = true
  | 0, _, _ => rfl
  | fuel + 1, fl, block => by
    cases hh : fl.header with
    | some h =>
      cases hf : h.fields with
      | some fs =>
        simp only [parseValueAfter, hh, hf]
        exact parseTabular_resOk h.count fs h.delim block
      | none =>
        cases ht : fl.tail with
        | some t =>
          simp only [parseValueAfter, hh, hf, ht]
          exact finishInline_resOk h.count h.delim t
        | none =>
          simp only [parseValueAfter, hh, hf, ht, strictCheck_false]
          cases hi : parseItems false fuel block with
          | error e =>
            have h2 := parseItems_resOk fuel block
            rw [hi] at h2
            simp [hi]
            simpa [resOk] using h2
          | ok items => simp [hi, strictCheck_false, resOk]
    | none =>
      cases ht : fl.tail with
      | some t =>
        simp only [parseValueAfter, hh, ht]
        exact parseCellValue_resOk t
      | none =>
        simp only [parseValueAfter, hh, ht]
        cases hfs : parseFields false fuel block with
        | error e =>
          have h2 := parseFields_resOk fuel block
          rw [hfs] at h2
          simp [hfs]
          simpa [resOk] using h2
        | ok fs => simp [hfs, resOk]

/-- Lenient item iteration raises no downgradeable diagnostic. -/
theorem parseItems_resOk : ∀ (fuel : Nat) (L : List Line),
    resOk (parseItems false fuel L) = true
  | 0, _ => rfl
  | _ + 1, [] => rfl
  | fuel + 1, l :: ls => by
    by_cases hb : l.blank
    · simp only [parseItems, hb, if_true, strictCheck_false]
      exact parseItems_resOk fuel ls
    · cases hv : parseItem false fuel l.txt (ls.takeWhile (Line.deeper l.col)) with
      | error e =>
        have h2 := parseItem_resOk fuel l.txt (ls.takeWhile (Line.deeper l.col))
        rw [hv] at h2
        simp [parseItems, hb, hv]
        simpa [resOk] using h2
      | ok v =>
        cases ht : parseItems false fuel (ls.dropWhile (Line.deeper l.col)) with
        | error e =>
          have h2 := parseItems_resOk fuel (ls.dropWhile (Line.deeper l.col))
          rw [ht] at h2
          simp [parseItems, hb, hv, ht]
          simpa [resOk] using h2
        | ok tl => simp [parseItems, hb, hv, ht, resOk]

/-- Lenient single-item parsing raises no downgradeable diagnostic. -/
theorem parseItem_resOk : ∀ (fuel : Nat) (txt : List Char) (block : List Line),
    resOk (parseItem false fuel txt block) = true
  | 0, _, _ => rfl
  | fuel + 1, txt, block => by
    simp only [parseItem]
    split
    · split
      · cases hfs : parseFields false fuel block with
        | error e =>
          have h2 := parseFields_resOk fuel block
          rw [hfs] at h2
          simp [hfs]
          simpa [resOk] using h2
        | ok fs => simp [hfs, resOk]
      · rename_i content
        by_cases hhd : content.head? = some '['
        · simp only [hhd, if_true]
          cases hfl : parseFieldLine content with
          | error e =>
            have h2 := parseFieldLine_resOk content
            rw [hfl] at h2
            simp [hfl]
            simpa [resOk] using h2
          | ok fl =>
            simp only [hfl]
            exact parseValueAfter_resOk fuel fl block
        · simp only [hhd, if_false]
          by_cases hcol : hasUnquotedColon content
          · simp only [hcol, if_true]
            cases hfl : parseFieldLine content with
            | error e =>
              have h2 := parseFieldLine_resOk content
              rw [hfl] at h2
              simp [hfl]
              simpa [resOk] using h2
            | ok fl =>
              cases hk : fl.key with
              | none => simp [hfl, hk, resOk, Err.downgradeable]
              | some k =>
                cases hv : parseValueAfter false fuel fl [] with
                | error e =>
                  have h2 := parseValueAfter_resOk fuel fl []
                  rw [hv] at h2
                  simp [hfl, hk, hv]
                  simpa [resOk] using h2
                | ok v0 =>
                  cases hfs : parseFields false fuel block with
                  | error e =>
                    have h2 := parseFields_resOk fuel block
                    rw [hfs] at h2
                    simp [hfl, hk, hv, hfs]
                    simpa [resOk] using h2
                  | ok fs => simp [hfl, hk, hv, hfs, resOk]
          · simp only [hcol, if_false]
            exact parseCellValue_resOk content
      · rfl
    · rfl

end

/-- Lenient decoding raises no downgradeable diagnostic: every such check
goes through `strictCheck`, disabled when `strict = false`. -/
theorem loads_resOk (text : String) : resOk (loads text false) = true := by
  unfold loads
  cases hm : mapLines (dropLastEmpty (splitNl text.toList)) with
  | error e =>
    have h2 := mapLines_resOk (dropLastEmpty (splitNl text.toList))
    rw [hm] at h2
    simpa [resOk] using h2
  | ok lines =>
    simp only [checkIndent_false]
    cases hd : lines.dropWhile Line.blank with
    | nil => rfl
    | cons l0 restL =>
      by_cases h1 : restL.all Line.blank && !hasUnquotedColon l0.txt
      · simp only [h1, if_true]
        exact parseCellValue_resOk _
      · simp only [h1, if_false]
        by_cases h2 : l0.txt.head? = some '['
        · simp only [h2, if_true]
          cases hfl : parseFieldLine l0.txt with
          | error e =>
            have h3 := parseFieldLine_resOk l0.txt
            rw [hfl] at h3
            simpa [resOk] using h3
          | ok fl =>
            cases hk : fl.key with
            | some k => cases hh : fl.header <;> simp [hk, hh, resOk, Err.downgradeable]
            | none =>
              cases hh : fl.header with
              | none => simp [hk, hh, resOk, Err.downgradeable]
              | some h => simp only [hk, hh]; exact parseValueAfter_resOk _ _ _
        · simp only [h2, if_false]
          cases hfs : parseFields false (4 * lines.length + 4) (l0 :: restL) with
          | error e =>
            have h3 := parseFields_resOk (4 * lines.length + 4) (l0 :: restL)
            rw [hfs] at h3
            simpa [resOk] using h3
          | ok fs => simp [hfs, resOk]

/-- **C4 counterexample**: the claim "a document that fails strict decoding
with a downgradeable diagnostic decodes successfully with `strict=false`"
fails on documents with a second, non-downgradeable flaw: this one raises
*BlankInArray* in strict mode but *InvalidEscape* in lenient mode. -/
theorem C4_counterexample :
    loadsDef "[2]:\n  - 1\n\n  - \"x\\qy\"" = .error .blankInArray ∧
    Err.downgradeable .blankInArray = true ∧
    loads "[2]:\n  - 1\n\n  - \"x\\qy\"" false = .error .invalidEscape :=
  ⟨rfl, rfl, rfl⟩

/-- **C4 as amended**: `loads` defaults to `strict=true`, and with
`strict=false` the decoder never raises any of the downgradeable diagnostics
(*BlankInArray*, *CountMismatch*, *WidthMismatch*, *BadIndent*) — they are
silently tolerated; a strict-failing document may still fail leniently, but
only with a non-downgradeable diagnostic. -/
theorem C4_lenient_never_downgrades (text : String) (k : Err)
    (h : Err.downgradeable k = true) :
    loadsDef text = loads text true ∧ loads text false ≠ .error k := by
  refine ⟨rfl, ?_⟩
  intro hc
  have h2 := loads_resOk text
  rw [hc] at h2
  simp [resOk, h] at h2

/-- Witness for `C4_lenient_never_downgrades`: the blank-in-array document of
`test_strict_flag.py` decodes leniently. -/
theorem C4_lenient_never_downgrades_witness :
    Err.downgradeable .blankInArray = true ∧
    (loadsDef "[3]:\n  - 1\n\n  - 2\n  - 3" = loads "[3]:\n  - 1\n\n  - 2\n  - 3" true ∧
      loads "[3]:\n  - 1\n\n  - 2\n  - 3" false ≠ .error .blankInArray) :=
  ⟨rfl, C4_lenient_never_downgrades "[3]:\n  - 1\n\n  - 2\n  - 3" .blankInArray rfl⟩

/-! ## Round-trip machinery, layer 1: decimal digits -/

/-- The core digit loop produces the standalone rendering followed by the
accumulator. -/
theorem natDigitsCore_acc : ∀ (fuel n : Nat) (acc : List Char), n < fuel →
    natDigitsCore fuel n acc = natDigits n ++ acc := by
  intro fuel
  induction fuel using Nat.strong_induction_on with
  | _ fuel ih =>
    intro n acc h
    match fuel, h with
    | fuel + 1, h =>
      by_cases h10 : n < 10
      · simp [natDigitsCore, natDigits, h10]
      · simp only [natDigitsCore, h10, if_false, natDigits]
        rw [ih fuel (by omega) (n / 10) _ (by omega)]
        rw [ih n (by omega) (n / 10) [digitChar (n % 10)] (by omega)]
        simp

/-- Splitting off the last digit of a large number. -/
theorem natDigits_split (n : Nat) (h : 10 ≤ n) :
    natDigits n = natDigits (n / 10) ++ [digitChar (n % 10)] := by
  have h10 : ¬ n < 10 := by omega
  rw [natDigits]
  simp only [natDigitsCore, h10, if_false]
  exact natDigitsCore_acc n (n / 10) _ (by omega)

/-- Small numbers are one digit. -/
theorem natDigits_small (n : Nat) (h : n < 10) : natDigits n = [digitChar n] := by
  simp [natDigits, natDigitsCore, h]

/-- Each digit character is a decimal digit. -/
theorem digitChar_isDigit (d : Nat) : (digitChar d).isDigit = true := by
  unfold digitChar
  split <;> rfl

/-- Digit characters decode to their value below 10. -/
theorem digitVal_digitChar (d : Nat) (h : d < 10) : digitVal (digitChar d) = d := by
  interval_cases d <;> rfl

/-- Every character of a rendering is a decimal digit. -/
theorem natDigits_all_digits (n : Nat) : (natDigits n).all Char.isDigit = true := by
  induction n using Nat.strong_induction_on with
  | _ n ih =>
    by_cases h : n < 10
    · rw [natDigits_small n h]
      simp [digitChar_isDigit]
    · rw [natDigits_split n (by omega)]
      simp [List.all_append, ih (n / 10) (by omega), digitChar_isDigit]

/-- Renderings are never empty. -/
theorem natDigits_ne_nil (n : Nat) : natDigits n ≠ [] := by
  by_cases h : n < 10
  · rw [natDigits_small n h]; simp
  · rw [natDigits_split n (by omega)]; simp

/-- Only zero renders with a leading `0`. -/
theorem natDigits_head_ne_zero (n : Nat) (h : n ≠ 0) : (natDigits n).head? ≠ some '0' := by
  induction n using Nat.strong_induction_on with
  | _ n ih =>
    by_cases h10 : n < 10
    · rw [natDigits_small n h10]
      interval_cases n <;> revert h <;> decide
    · rw [natDigits_split n (by omega)]
      rw [List.head?_append_of_ne_nil _ (natDigits_ne_nil _)]
      exact ih (n / 10) (by omega) (by omega)

/-- Folding the digit value from a given prefix value. -/
theorem digitsToNat_from (ds : List Char) (a : Nat) :
    ds.foldl (fun a c => 10 * a + digitVal c) a =
      a * 10 ^ ds.length + digitsToNat ds := by
  induction ds generalizing a with
  | nil => simp [digitsToNat]
  | cons c tl ih =>
    simp only [List.foldl_cons, digitsToNat]
    rw [ih (10 * a + digitVal c), ih (10 * 0 + digitVal c)]
    simp [List.length_cons, pow_succ]
    ring

/-- Appending digit strings multiplies the prefix by the right power. -/
theorem digitsToNat_append (a b : List Char) :
    digitsToNat (a ++ b) = digitsToNat a * 10 ^ b.length + digitsToNat b := by
  simp only [digitsToNat, List.foldl_append]
  rw [digitsToNat_from]
  rfl

/-- The round trip of decimal renderings. -/
theorem digitsToNat_natDigits (n : Nat) : digitsToNat (natDigits n) = n := by
  induction n using Nat.strong_induction_on with
  | _ n ih =>
    by_cases h : n < 10
    · rw [natDigits_small n h]
      simp [digitsToNat, digitVal_digitChar n h]
    · rw [natDigits_split n (by omega), digitsToNat_append,
        ih (n / 10) (by omega)]
      simp [digitsToNat, digitVal_digitChar (n % 10) (by omega)]
      omega

/-! ## Round-trip machinery, layer 2: numeric tokens -/

/-- The first character, when there is one, is not a digit. -/
def headNotDigit (cs : List Char) : Bool :=
  match cs with
  | [] => true
  | c :: _ => !c.isDigit

/-- A digit character is not a minus sign. -/
theorem isDigit_ne_neg {c : Char} (h : c.isDigit = true) : c ≠ '-' := by
  intro hc
  subst hc
  exact absurd h (by decide)

/-- A digit character is not a quote. -/
theorem isDigit_ne_quote {c : Char} (h : c.isDigit = true) : c ≠ '"' := by
  intro hc
  subst hc
  exact absurd h (by decide)

/-- Sign stripping leaves a token that does not start with `-` alone. -/
theorem stripNeg_eq (cs : List Char) (h : cs.head? ≠ some '-') :
    stripNeg cs = (false, cs) := by
  unfold stripNeg
  split
  · simp at h
  · rfl

/-- Digit spans split exactly at the first non-digit. -/
theorem spanDigits_append (ds rest : List Char) (h1 : ds.all Char.isDigit = true)
    (h2 : headNotDigit rest = true) : spanDigits (ds ++ rest) = (ds, rest) := by
  induction ds with
  | nil =>
    cases rest with
    | nil => rfl
    | cons c r =>
      simp only [headNotDigit, Bool.not_eq_true'] at h2
      simp [spanDigits, h2]
  | cons c tl ih =>
    simp only [List.all_cons, Bool.and_eq_true] at h1
    have h3 := ih h1.2
    simp only [spanDigits, Prod.mk.injEq] at h3 ⊢
    simp [List.takeWhile_cons, List.dropWhile_cons, h1.1, h3.1, h3.2]

/-- `numParseCore` on a rendering with an optional fraction part. -/
theorem numParseCore_digits_tail (neg : Bool) (a : Nat) (tail : List Char)
    (ht : tail = [] ∨ ∃ fds, tail = '.' :: fds ∧ fds ≠ [] ∧ fds.all Char.isDigit = true) :
    numParseCore neg (natDigits a ++ tail) = some ⟨neg, natDigits a,
      (match tail with | '.' :: fds => fds | _ => []), false, false, []⟩ := by
  have hall := natDigits_all_digits a
  have hne := natDigits_ne_nil a
  have htail : headNotDigit tail = true := by
    rcases ht with h | ⟨fds, h, _, _⟩ <;> simp [h, headNotDigit]
  unfold numParseCore
  cases hd : natDigits a with
  | nil => exact absurd hd hne
  | cons c r =>
    rw [hd] at hall
    simp only [List.all_cons, Bool.and_eq_true] at hall
    simp only [List.cons_append]
    simp only [hall.1, if_true]
    by_cases hc : c = '0'
    · have ha : a = 0 := by
        by_contra hne0
        exact natDigits_head_ne_zero a hne0 (by rw [hd, hc]; rfl)
      have hsing : natDigits a = ['0'] := by rw [natDigits_small a (by omega), ha]; rfl
      rw [hd] at hsing
      cases hsing
      simp only [if_pos rfl, List.nil_append]
      rcases ht with h | ⟨fds, h, hfne, hfall⟩
      · subst h
        simp [numParseExp]
      · subst h
        have hsp := spanDigits_append fds [] hfall (by rfl)
        simp only [List.append_nil] at hsp
        simp [hsp, hfne, numParseExp]
    · simp only [hc, if_false]
      have hsp := spanDigits_append r tail hall.2 htail
      simp only [hsp]
      rcases ht with h | ⟨fds, h, hfne, hfall⟩
      · subst h
        simp [numParseExp]
      · subst h
        have hsp2 := spanDigits_append fds [] hfall (by rfl)
        simp only [List.append_nil] at hsp2
        simp [hsp2, hfne, numParseExp]

/-- A digit character differs from any non-digit character. -/
theorem isDigit_ne {c : Char} (h : c.isDigit = true) (x : Char) (hx : x.isDigit = false) :
    c ≠ x := by
  intro hc
  rw [hc, hx] at h
  exact absurd h (by simp)

/-- A list headed by a digit is not a keyword or other letter-headed list. -/
theorem digits_head_ne (cs ds : List Char) (c x : Char) (hcs : cs.head? = some c)
    (h : c.isDigit = true) (hds : ds.head? = some x) (hx : x.isDigit = false) :
    cs ≠ ds := by
  intro he
  rw [he, hds] at hcs
  cases hcs
  exact isDigit_ne h _ hx rfl

/-- The head of a rendering is a digit. -/
theorem natDigits_head_digit (n : Nat) :
    ∃ c, (natDigits n).head? = some c ∧ c.isDigit = true := by
  have hall := natDigits_all_digits n
  cases hd : natDigits n with
  | nil => exact absurd hd (natDigits_ne_nil n)
  | cons c r =>
    rw [hd] at hall
    simp only [List.all_cons, Bool.and_eq_true] at hall
    exact ⟨c, rfl, hall.1⟩

/-- Rendered integers decode back to themselves (spec §4.1 scalar shape
stability for integers). -/
theorem decodeScalar_renderInt (n : Int) : decodeScalar (renderInt n) = .int n := by
  obtain ⟨c, hhead, hdig⟩ := natDigits_head_digit n.natAbs
  by_cases hneg : n < 0
  · have hr : renderInt n = '-' :: natDigits n.natAbs := by simp [renderInt, hneg]
    rw [hr]
    have h1 : '-' :: natDigits n.natAbs ≠ ['t', 'r', 'u', 'e'] := by simp
    have h2 : '-' :: natDigits n.natAbs ≠ ['f', 'a', 'l', 's', 'e'] := by simp
    have h3 : '-' :: natDigits n.natAbs ≠ ['n', 'u', 'l', 'l'] := by simp
    have hp : numParse ('-' :: natDigits n.natAbs) =
        some ⟨true, natDigits n.natAbs, [], false, false, []⟩ := by
      unfold numParse stripNeg
      have := numParseCore_digits_tail true n.natAbs [] (Or.inl rfl)
      simpa using this
    unfold decodeScalar
    rw [if_neg h1, if_neg h2, if_neg h3, hp]
    simp only [digitsToNat_natDigits]
    show Value.int (-(n.natAbs : Int)) = Value.int n
    congr 1
    omega
  · have hr : renderInt n = natDigits n.natAbs := by simp [renderInt, hneg]
    rw [hr]
    have h1 : natDigits n.natAbs ≠ ['t', 'r', 'u', 'e'] :=
      digits_head_ne _ _ _ 't' hhead hdig rfl (by decide)
    have h2 : natDigits n.natAbs ≠ ['f', 'a', 'l', 's', 'e'] :=
      digits_head_ne _ _ _ 'f' hhead hdig rfl (by decide)
    have h3 : natDigits n.natAbs ≠ ['n', 'u', 'l', 'l'] :=
      digits_head_ne _ _ _ 'n' hhead hdig rfl (by decide)
    have hp : numParse (natDigits n.natAbs) =
        some ⟨false, natDigits n.natAbs, [], false, false, []⟩ := by
      unfold numParse
      rw [stripNeg_eq _ (by rw [hhead]; exact fun he => isDigit_ne hdig '-' (by decide) (by injection he))]
      have := numParseCore_digits_tail false n.natAbs [] (Or.inl rfl)
      simpa using this
    unfold decodeScalar
    rw [if_neg h1, if_neg h2, if_neg h3, hp]
    simp only [digitsToNat_natDigits]
    show Value.int ((n.natAbs : Int)) = Value.int n
    congr 1
    omega

/-- Renderings of bounded numbers are short. -/
theorem natDigits_length_le : ∀ (k n : Nat), 1 ≤ k → n < 10 ^ k →
    (natDigits n).length ≤ k := by
  intro k
  induction k with
  | zero => omega
  | succ k ih =>
    intro n hk hn
    by_cases h10 : n < 10
    · rw [natDigits_small n h10]
      simp
    · have hk1 : 1 ≤ k := by
        by_contra hk0
        have : k = 0 := by omega
        subst this
        simp at hn
        omega
      rw [natDigits_split n (by omega)]
      have := ih (n / 10) hk1 (by
        have : 10 ^ (k + 1) = 10 ^ k * 10 := by ring
        omega)
      simp only [List.length_append, List.length_cons, List.length_nil]
      omega

/-- Leading zeros contribute nothing to the value. -/
theorem digitsToNat_replicate_zero (m : Nat) :
    digitsToNat (List.replicate m '0') = 0 := by
  induction m with
  | zero => rfl
  | succ m ih =>
    have : List.replicate (m + 1) '0' = '0' :: List.replicate m '0' := rfl
    rw [this]
    simp only [digitsToNat, List.foldl_cons] at ih ⊢
    have hz : 10 * 0 + digitVal '0' = 0 := rfl
    rw [hz]
    exact ih

/-- The padded fraction field: all digits, non-empty, width `k`, value `fp`. -/
theorem padDigits_spec (k fp : Nat) (hk : 1 ≤ k) (hfp : fp < 10 ^ k) :
    (padDigits k fp).all Char.isDigit = true ∧ padDigits k fp ≠ [] ∧
      (padDigits k fp).length = k ∧ digitsToNat (padDigits k fp) = fp := by
  have hlen := natDigits_length_le k fp hk hfp
  refine ⟨?_, ?_, ?_, ?_⟩
  · rw [padDigits, List.all_append]
    rw [natDigits_all_digits]
    have hrep : (List.replicate (k - (natDigits fp).length) '0').all Char.isDigit = true := by
      rw [List.all_eq_true]
      intro c hc
      rw [List.eq_of_mem_replicate hc]
      rfl
    rw [hrep]
    rfl
  · rw [padDigits]
    intro hcontra
    rcases List.append_eq_nil.mp hcontra with ⟨_, h2⟩
    exact natDigits_ne_nil fp h2
  · rw [padDigits, List.length_append, List.length_replicate]
    omega
  · rw [padDigits, digitsToNat_append, digitsToNat_replicate_zero,
      digitsToNat_natDigits]
    simp

/-- A list cannot equal lists with distinct heads. -/
theorem head_ne_of_ne (cs ds : List Char) (a b : Char) (h1 : cs.head? = some a)
    (h2 : ds.head? = some b) (h : a ≠ b) : cs ≠ ds := by
  intro he
  rw [he, h2] at h1
  cases h1
  exact h rfl

/-- Rendered non-integral floats decode back to themselves exactly
(spec §4.1 scalar shape stability for floats). -/
theorem decodeScalar_renderFloat (f : FloatV) (h : f.isIntegral = false) :
    decodeScalar (renderFloat f) = .float f := by
  obtain ⟨neg, m, e⟩ := f
  have hIntF : FloatV.isIntegral ⟨neg, m, e⟩ = false := h
  simp only [FloatV.isIntegral, Bool.or_eq_false_iff, decide_eq_false_iff_not] at h
  obtain ⟨he, hdvd⟩ := h
  have hek : 1 ≤ e.natAbs := by omega
  set k := e.natAbs with hk
  have hfp : m % 10 ^ k < 10 ^ k := Nat.mod_lt _ (by positivity)
  obtain ⟨hpall, hpne, hplen, hpval⟩ := padDigits_spec k (m % 10 ^ k) hek hfp
  have hrf : renderFloat ⟨neg, m, e⟩ =
      (if neg then ['-'] else []) ++
        (natDigits (m / 10 ^ k) ++ '.' :: padDigits k (m % 10 ^ k)) := by
    rw [renderFloat, hIntF]
    simp
  have hcore : numParseCore neg (natDigits (m / 10 ^ k) ++ '.' :: padDigits k (m % 10 ^ k)) =
      some ⟨neg, natDigits (m / 10 ^ k), padDigits k (m % 10 ^ k), false, false, []⟩ := by
    have := numParseCore_digits_tail neg (m / 10 ^ k) ('.' :: padDigits k (m % 10 ^ k))
      (Or.inr ⟨padDigits k (m % 10 ^ k), rfl, hpne, hpall⟩)
    simpa using this
  obtain ⟨c, hhead, hdig⟩ := natDigits_head_digit (m / 10 ^ k)
  obtain ⟨r, hr⟩ : ∃ r, natDigits (m / 10 ^ k) = c :: r := by
    cases hd : natDigits (m / 10 ^ k) with
    | nil => exact absurd hd (natDigits_ne_nil _)
    | cons a r =>
      rw [hd] at hhead
      cases hhead
      exact ⟨r, rfl⟩
  have hrhead : (renderFloat ⟨neg, m, e⟩).head? = some (if neg then '-' else c) := by
    rw [hrf, hr]
    cases neg <;> rfl
  have hbody : numParse (renderFloat ⟨neg, m, e⟩) =
      some ⟨neg, natDigits (m / 10 ^ k), padDigits k (m % 10 ^ k), false, false, []⟩ := by
    rw [hrf]
    cases neg with
    | true =>
      show numParse ('-' :: (natDigits (m / 10 ^ k) ++ '.' :: padDigits k (m % 10 ^ k))) =
        some ⟨true, natDigits (m / 10 ^ k), padDigits k (m % 10 ^ k), false, false, []⟩
      unfold numParse stripNeg
      simpa using hcore
    | false =>
      show numParse (natDigits (m / 10 ^ k) ++ '.' :: padDigits k (m % 10 ^ k)) =
        some ⟨false, natDigits (m / 10 ^ k), padDigits k (m % 10 ^ k), false, false, []⟩
      unfold numParse
      rw [stripNeg_eq _ (by
        rw [hr]
        show (c :: (r ++ '.' :: padDigits k (m % 10 ^ k))).head? ≠ some '-'
        simpa using isDigit_ne hdig '-' (by decide))]
      exact hcore
  have hnkw : ∀ (x : Char) (xs : List Char), x ≠ '-' → x.isDigit = false →
      renderFloat ⟨neg, m, e⟩ ≠ x :: xs := by
    intro x xs hxm hx
    apply head_ne_of_ne _ (x :: xs) (if neg then '-' else c) x hrhead rfl
    cases neg with
    | true => exact fun hh => hxm hh.symm
    | false =>
      intro hh
      rw [show (if false then '-' else c) = c from rfl] at hh
      rw [hh] at hdig
      simp [hx] at hdig
  unfold decodeScalar
  rw [if_neg (hnkw 't' _ (by decide) (by decide)),
    if_neg (hnkw 'f' _ (by decide) (by decide)),
    if_neg (hnkw 'n' _ (by decide) (by decide)), hbody]
  have hemp : (padDigits k (m % 10 ^ k)).isEmpty = false := by
    cases hp : padDigits k (m % 10 ^ k) with
    | nil => exact absurd hp hpne
    | cons a b => rfl
  simp only [hemp, Bool.false_and, Bool.not_false, if_false]
  show Value.float ⟨neg, digitsToNat (natDigits (m / 10 ^ k) ++ padDigits k (m % 10 ^ k)),
      (digitsToNat [] : Int) - (padDigits k (m % 10 ^ k)).length⟩ = Value.float ⟨neg, m, e⟩
  simp only [Value.float.injEq, FloatV.mk.injEq]
  refine ⟨trivial, ?_, ?_⟩
  · rw [digitsToNat_append, digitsToNat_natDigits, hpval, hplen, Nat.mul_comm]
    exact Nat.div_add_mod m (10 ^ k)
  · rw [hplen]
    show (0 : Int) - k = e
    omega

/-! ## Round-trip machinery, layer 3: strings and escapes -/

/-- `unquote` past an ordinary character. -/
theorem unquote_cons_other (c : Char) (r : List Char) (h1 : c ≠ '"') (h2 : c ≠ '\\') :
    unquote (c :: r) = (fun p => (c :: p.1, p.2)) <$> unquote r := by
  rw [unquote.eq_def]
  split
  · rename_i heq
    cases heq
  · rename_i heq
    injection heq with ha _
    exact absurd ha h1
  · rename_i heq
    injection heq with ha _
    exact absurd ha h2
  · rename_i heq
    injection heq with ha _
    exact absurd ha h2
  · rename_i heq
    injection heq with ha hb
    rw [ha, hb]

/-- Unescaping inverts escaping, up to the closing quote. -/
theorem unquote_escChars : ∀ (s rest : List Char),
    unquote (escChars s ++ '"' :: rest) = .ok (s, rest) := by
  intro s
  induction s with
  | nil => intro rest; rfl
  | cons c cs ih =>
    intro rest
    show unquote ((escCharMap c ++ escChars cs) ++ '"' :: rest) = _
    rw [List.append_assoc]
    by_cases h1 : c = '\\'
    · subst h1
      show unquote ('\\' :: '\\' :: (escChars cs ++ '"' :: rest)) = _
      rw [unquote.eq_def]
      simp [ih]
    · by_cases h2 : c = '"'
      · subst h2
        show unquote ('\\' :: '"' :: (escChars cs ++ '"' :: rest)) = _
        rw [unquote.eq_def]
        simp [ih]
      · by_cases h3 : c = '\n'
        · subst h3
          show unquote ('\\' :: 'n' :: (escChars cs ++ '"' :: rest)) = _
          rw [unquote.eq_def]
          simp [ih]
        · by_cases h4 : c = '\r'
          · subst h4
            show unquote ('\\' :: 'r' :: (escChars cs ++ '"' :: rest)) = _
            rw [unquote.eq_def]
            simp [ih]
          · by_cases h5 : c = '\t'
            · subst h5
              show unquote ('\\' :: 't' :: (escChars cs ++ '"' :: rest)) = _
              rw [unquote.eq_def]
              simp [ih]
            · have hm : escCharMap c = [c] := by
                unfold escCharMap
                rw [if_neg h1, if_neg h2, if_neg h3, if_neg h4, if_neg h5]
              rw [hm]
              show unquote (c :: (escChars cs ++ '"' :: rest)) = _
              rw [unquote_cons_other c _ h2 h1, ih]
              rfl

/-- `parseCellValue` past an unquoted first character. -/
theorem parseCellValue_cons_other (c : Char) (r : List Char) (h1 : c ≠ '"') :
    parseCellValue (c :: r) = .ok (decodeScalar (c :: r)) := by
  rw [parseCellValue.eq_def]
  split
  · rename_i heq
    injection heq with ha _
    exact absurd ha h1
  · rfl

/-- Quoted strings read back exactly. -/
theorem parseCellValue_quoteWrap (s : List Char) :
    parseCellValue (quoteWrap s) = .ok (.str (String.mk s)) := by
  show parseCellValue ('"' :: (escChars s ++ ['"'])) = _
  rw [parseCellValue.eq_def]
  simp only []
  rw [show escChars s ++ ['"'] = escChars s ++ '"' :: [] from rfl, unquote_escChars]
  rfl

/-- A bare token with no quoting trigger decodes as the same string. -/
theorem decodeScalar_bare (cs : List Char) (d : Char) (h : quoteTrigger cs d = false) :
    decodeScalar cs = .str (String.mk cs) := by
  unfold quoteTrigger at h
  simp only [Bool.or_eq_false_iff] at h
  unfold decodeScalar
  rw [if_neg ?_, if_neg ?_, if_neg ?_]
  · have hnum : isNumericTok cs = false := h.1.1.1.1.1.1.1.2
    unfold isNumericTok at hnum
    cases hnp : numParse cs with
    | some p =>
      rw [hnp] at hnum
      simp at hnum
    | none => rfl
  · have := h.1.1.1.1.1.1.1.1.2
    simp only [decide_eq_false_iff_not] at this
    exact this
  · have := h.1.1.1.1.1.1.1.1.1.2
    simp only [decide_eq_false_iff_not] at this
    exact this
  · have := h.1.1.1.1.1.1.1.1.1.1.2
    simp only [decide_eq_false_iff_not] at this
    exact this

/-! ## Round-trip machinery, layer 4: scalar cells -/

/-- Any cell not starting with a quote goes to `decodeScalar`. -/
theorem parseCellValue_ne_quote (cs : List Char) (h : cs.head? ≠ some '"') :
    parseCellValue cs = .ok (decodeScalar cs) := by
  cases cs with
  | nil => rfl
  | cons c r =>
    exact parseCellValue_cons_other c r (fun hc => h (by simp [hc]))

/-- An optional minus sign in front of a quote-free list keeps the head off `"`. -/
theorem head_append_sign (p : Prop) [inst : Decidable p] (l : List Char)
    (hl : l.head? ≠ some '"') :
    ((if p then ['-'] else []) ++ l).head? ≠ some '"' := by
  by_cases hp : p
  · simp [hp]
  · simpa [hp] using hl

/-- Decimal digit runs start with a digit even with a suffix appended. -/
theorem natDigits_append_head (n : Nat) (t : List Char) :
    ∃ c, (natDigits n ++ t).head? = some c ∧ c.isDigit = true := by
  obtain ⟨c, hh, hd⟩ := natDigits_head_digit n
  cases he : natDigits n with
  | nil => exact absurd he (natDigits_ne_nil n)
  | cons a r =>
    rw [he] at hh
    injection hh with hh
    exact ⟨a, by simp [he], by rw [hh]; exact hd⟩

/-- Digit runs do not start with a quote. -/
theorem natDigits_head_ne_quote (n : Nat) (t : List Char) :
    (natDigits n ++ t).head? ≠ some '"' := by
  obtain ⟨c, hh, hd⟩ := natDigits_append_head n t
  rw [hh]
  intro hx
  injection hx with hx
  exact isDigit_ne_quote hd hx

/-- Rendered integers do not start with a quote. -/
theorem renderInt_head_ne_quote (n : Int) : (renderInt n).head? ≠ some '"' := by
  unfold renderInt
  refine head_append_sign _ _ ?_
  have := natDigits_head_ne_quote n.natAbs []
  simpa using this

/-- Rendered floats do not start with a quote. -/
theorem renderFloat_head_ne_quote (f : FloatV) : (renderFloat f).head? ≠ some '"' := by
  unfold renderFloat
  split
  · simp only []
    refine head_append_sign _ _ ?_
    simpa using natDigits_head_ne_quote _ []
  · simp only []
    rw [List.append_assoc]
    exact head_append_sign _ _ (natDigits_head_ne_quote _ _)

/-- Rebuilding a string from its character list is the identity. -/
theorem strMk_toList (s : String) : String.mk s.toList = s := rfl

/-- A list that does not contain `c` does not start with `c`. -/
theorem head_ne_of_not_contains (cs : List Char) (c : Char) (h : cs.contains c = false) :
    cs.head? ≠ some c := by
  cases cs with
  | nil => simp
  | cons a r =>
    intro hh
    injection hh with hh
    rw [hh] at h
    simp at h

/-- Facts available about a bare-emitted token. -/
theorem quoteTrigger_false_facts (cs : List Char) (d : Char) (h : quoteTrigger cs d = false) :
    cs ≠ [] ∧ cs.contains '"' = false ∧ cs.contains '\\' = false ∧
      cs.contains d = false ∧ cs.contains ':' = false := by
  unfold quoteTrigger at h
  simp only [Bool.or_eq_false_iff] at h
  refine ⟨?_, h.1.1.1.1.1.2, h.1.1.1.1.2, h.1.1.2, h.1.1.1.2⟩
  have h13 := h.1.1.1.1.1.1.1.1.1.1.1.1.1
  intro he
  rw [he] at h13
  exact absurd h13 (by decide)

/-- Every primitive scalar whose rendering is bare or quoted by `scalarTxt`
reads back exactly through `parseCellValue` (non-integral floats). -/
theorem parseCellValue_scalarTxt (d : Char) (v : Value)
    (hp : v.isPrim = true)
    (hf : ∀ f, v = .float f → f.isIntegral = false) :
    parseCellValue (scalarTxt d false v) = .ok v := by
  cases v with
  | null => rfl
  | bool b => cases b <;> rfl
  | int n =>
    rw [show scalarTxt d false (.int n) = renderInt n from rfl,
        parseCellValue_ne_quote _ (renderInt_head_ne_quote n), decodeScalar_renderInt]
  | float f =>
    have hnf := hf f rfl
    rw [show scalarTxt d false (.float f) = renderFloat f from rfl,
        parseCellValue_ne_quote _ (renderFloat_head_ne_quote f),
        decodeScalar_renderFloat f hnf]
  | str s =>
    show parseCellValue (encodeStr s d false) = _
    unfold encodeStr
    cases hq : needsQuotes s.toList d false with
    | true =>
      simp only [if_true]
      rw [parseCellValue_quoteWrap, strMk_toList]
    | false =>
      simp only [Bool.false_eq_true, if_false]
      have htr : quoteTrigger s.toList d = false := by
        unfold needsQuotes at hq
        simpa using hq
      obtain ⟨hne, hq2, _, _, _⟩ := quoteTrigger_false_facts _ _ htr
      rw [parseCellValue_ne_quote _ (head_ne_of_not_contains _ _ hq2),
          decodeScalar_bare _ d htr, strMk_toList]
  | arr l => simp [Value.isPrim] at hp
  | obj l => simp [Value.isPrim] at hp

/-! ## Round-trip machinery, layer 5: inline cell splitting -/

/-- Prepend a run of characters onto the current (first) cell. -/
def consAll (cs : List Char) (cells : List (List Char)) : List (List Char) :=
  cs.foldr consCur cells

/-- `consAll` on a nonempty cell list appends into the head cell. -/
theorem consAll_cons (cs x : List Char) (xs : List (List Char)) :
    consAll cs (x :: xs) = (cs ++ x) :: xs := by
  induction cs with
  | nil => rfl
  | cons c r ih =>
    show consCur c (consAll r (x :: xs)) = _
    rw [ih]
    rfl

/-- Characters that may appear in a rendered number. -/
def numChar (c : Char) : Bool := c.isDigit || c = '-' || c = '.'

/-- Digit-only lists are made of number characters. -/
theorem all_numChar_of_digits (cs : List Char) (h : cs.all Char.isDigit = true) :
    cs.all numChar = true := by
  rw [List.all_eq_true] at h ⊢
  intro c hc
  rw [show numChar c = (c.isDigit || c = '-' || c = '.') from rfl, h c hc]
  rfl

/-- A list of characters all satisfying `p` cannot contain a non-`p` character. -/
theorem not_contains_of_all (cs : List Char) (p : Char → Bool) (h : cs.all p = true)
    (x : Char) (hx : p x = false) : cs.contains x = false := by
  rw [List.all_eq_true] at h
  cases hc : cs.contains x with
  | false => rfl
  | true =>
    have hmem : x ∈ cs := by simpa using hc
    rw [h x hmem] at hx
    cases hx

/-- Zero-padded fraction digits are all digits. -/
theorem padDigits_all_digits (k fp : Nat) : (padDigits k fp).all Char.isDigit = true := by
  rw [padDigits, List.all_append, natDigits_all_digits, Bool.and_true]
  rw [List.all_eq_true]
  intro c hc
  rw [List.eq_of_mem_replicate hc]
  rfl

/-- Rendered integers use only number characters. -/
theorem renderInt_all (n : Int) : (renderInt n).all numChar = true := by
  rw [renderInt, List.all_append, all_numChar_of_digits _ (natDigits_all_digits _),
    Bool.and_true]
  by_cases h : n < 0
  · rw [if_pos h]
    rfl
  · rw [if_neg h]
    rfl

/-- Rendered floats use only number characters. -/
theorem renderFloat_all (f : FloatV) : (renderFloat f).all numChar = true := by
  rw [renderFloat]
  split
  · simp only []
    rw [List.all_append, all_numChar_of_digits _ (natDigits_all_digits _), Bool.and_true]
    split <;> split <;> rfl
  · simp only []
    rw [List.all_append, List.all_append,
      all_numChar_of_digits _ (natDigits_all_digits _), List.all_cons,
      all_numChar_of_digits _ (padDigits_all_digits _ _)]
    rw [show numChar '.' = true from rfl]
    split
    · rfl
    · rfl

/-- Unfolding a negative `contains` over a cons cell. -/
theorem contains_cons_false (c x : Char) (r : List Char) (h : (c :: r).contains x = false) :
    c ≠ x ∧ r.contains x = false := by
  simp only [List.contains_cons, Bool.or_eq_false_iff, beq_eq_false_iff_ne] at h
  exact ⟨fun he => h.1 he.symm, h.2⟩

/-- The cell splitter scans a quote- and delimiter-free run into the current
cell. -/
theorem splitCellsSM_bare (d : Char) :
    ∀ (cs : List Char), cs.contains '"' = false → cs.contains d = false →
    ∀ (rest : List Char) (cells : List (List Char)),
    splitCellsSM d false false rest = .ok cells →
    splitCellsSM d false false (cs ++ rest) = .ok (consAll cs cells) := by
  intro cs
  induction cs with
  | nil =>
    intro _ _ rest cells h
    exact h
  | cons c r ih =>
    intro hq hd rest cells h
    obtain ⟨hcq, hrq⟩ := contains_cons_false c '"' r hq
    obtain ⟨hcd, hrd⟩ := contains_cons_false c d r hd
    show splitCellsSM d false false (c :: (r ++ rest)) = _
    rw [show splitCellsSM d false false (c :: (r ++ rest)) =
      (if c = d then (fun cells => [] :: cells) <$> splitCellsSM d false false (r ++ rest)
       else if c = '"' then consCur c <$> splitCellsSM d true false (r ++ rest)
       else consCur c <$> splitCellsSM d false false (r ++ rest)) from rfl]
    rw [if_neg hcd, if_neg hcq, ih hrq hrd rest cells h]
    rfl

/-- Inside a quoted cell, escaped text is scanned verbatim up to the closing
quote. -/
theorem splitCellsSM_inq (d : Char) :
    ∀ (s : List Char) (rest : List Char) (cells : List (List Char)),
    splitCellsSM d false false rest = .ok cells →
    splitCellsSM d true false (escChars s ++ '"' :: rest) =
      .ok (consAll (escChars s ++ ['"']) cells) := by
  intro s
  induction s with
  | nil =>
    intro rest cells h
    show splitCellsSM d true false ('"' :: rest) = _
    rw [show splitCellsSM d true false ('"' :: rest) =
      (if '"' = '\\' then consCur '"' <$> splitCellsSM d true true rest
       else if '"' = '"' then consCur '"' <$> splitCellsSM d false false rest
       else consCur '"' <$> splitCellsSM d true false rest) from rfl]
    rw [if_neg (by decide), if_pos rfl, h]
    rfl
  | cons c cs ih =>
    intro rest cells h
    show splitCellsSM d true false ((escCharMap c ++ escChars cs) ++ '"' :: rest) = _
    rw [List.append_assoc]
    by_cases h1 : c = '\\'
    · subst h1
      show splitCellsSM d true false ('\\' :: '\\' :: (escChars cs ++ '"' :: rest)) = _
      rw [show splitCellsSM d true false ('\\' :: '\\' :: (escChars cs ++ '"' :: rest)) =
        consCur '\\' <$> splitCellsSM d true true ('\\' :: (escChars cs ++ '"' :: rest))
        from rfl]
      rw [show splitCellsSM d true true ('\\' :: (escChars cs ++ '"' :: rest)) =
        consCur '\\' <$> splitCellsSM d true false (escChars cs ++ '"' :: rest) from rfl]
      rw [ih rest cells h]
      rfl
    · by_cases h2 : c = '"'
      · subst h2
        show splitCellsSM d true false ('\\' :: '"' :: (escChars cs ++ '"' :: rest)) = _
        rw [show splitCellsSM d true false ('\\' :: '"' :: (escChars cs ++ '"' :: rest)) =
          consCur '\\' <$> splitCellsSM d true true ('"' :: (escChars cs ++ '"' :: rest))
          from rfl]
        rw [show splitCellsSM d true true ('"' :: (escChars cs ++ '"' :: rest)) =
          consCur '"' <$> splitCellsSM d true false (escChars cs ++ '"' :: rest) from rfl]
        rw [ih rest cells h]
        rfl
      · by_cases h3 : c = '\n'
        · subst h3
          show splitCellsSM d true false ('\\' :: 'n' :: (escChars cs ++ '"' :: rest)) = _
          rw [show splitCellsSM d true false ('\\' :: 'n' :: (escChars cs ++ '"' :: rest)) =
            consCur '\\' <$> splitCellsSM d true true ('n' :: (escChars cs ++ '"' :: rest))
            from rfl]
          rw [show splitCellsSM d true true ('n' :: (escChars cs ++ '"' :: rest)) =
            consCur 'n' <$> splitCellsSM d true false (escChars cs ++ '"' :: rest) from rfl]
          rw [ih rest cells h]
          rfl
        · by_cases h4 : c = '\r'
          · subst h4
            show splitCellsSM d true false ('\\' :: 'r' :: (escChars cs ++ '"' :: rest)) = _
            rw [show splitCellsSM d true false ('\\' :: 'r' :: (escChars cs ++ '"' :: rest)) =
              consCur '\\' <$> splitCellsSM d true true ('r' :: (escChars cs ++ '"' :: rest))
              from rfl]
            rw [show splitCellsSM d true true ('r' :: (escChars cs ++ '"' :: rest)) =
              consCur 'r' <$> splitCellsSM d true false (escChars cs ++ '"' :: rest) from rfl]
            rw [ih rest cells h]
            rfl
          · by_cases h5 : c = '\t'
            · subst h5
              show splitCellsSM d true false ('\\' :: 't' :: (escChars cs ++ '"' :: rest)) = _
              rw [show splitCellsSM d true false ('\\' :: 't' :: (escChars cs ++ '"' :: rest)) =
                consCur '\\' <$> splitCellsSM d true true ('t' :: (escChars cs ++ '"' :: rest))
                from rfl]
              rw [show splitCellsSM d true true ('t' :: (escChars cs ++ '"' :: rest)) =
                consCur 't' <$> splitCellsSM d true false (escChars cs ++ '"' :: rest) from rfl]
              rw [ih rest cells h]
              rfl
            · have hm : escCharMap c = [c] := by
                unfold escCharMap
                rw [if_neg h1, if_neg h2, if_neg h3, if_neg h4, if_neg h5]
              rw [hm]
              show splitCellsSM d true false (c :: (escChars cs ++ '"' :: rest)) = _
              rw [show splitCellsSM d true false (c :: (escChars cs ++ '"' :: rest)) =
                (if c = '\\' then consCur c <$> splitCellsSM d true true (escChars cs ++ '"' :: rest)
                 else if c = '"' then consCur c <$> splitCellsSM d false false (escChars cs ++ '"' :: rest)
                 else consCur c <$> splitCellsSM d true false (escChars cs ++ '"' :: rest)) from rfl]
              rw [if_neg h1, if_neg h2, ih rest cells h]
              show Except.ok (consCur c (consAll (escChars cs ++ ['"']) cells)) =
                Except.ok (consAll (escChars (c :: cs) ++ ['"']) cells)
              rw [show escChars (c :: cs) = escCharMap c ++ escChars cs from rfl, hm]
              rfl

/-- A quoted cell is scanned whole into the current cell. -/
theorem splitCellsSM_quoted (d : Char) (hd : d ≠ '"') (s : List Char) :
    ∀ (rest : List Char) (cells : List (List Char)),
    splitCellsSM d false false rest = .ok cells →
    splitCellsSM d false false (quoteWrap s ++ rest) = .ok (consAll (quoteWrap s) cells) := by
  intro rest cells h
  show splitCellsSM d false false ('"' :: ((escChars s ++ ['"']) ++ rest)) = _
  rw [List.append_assoc]
  show splitCellsSM d false false ('"' :: (escChars s ++ '"' :: rest)) = _
  rw [show splitCellsSM d false false ('"' :: (escChars s ++ '"' :: rest)) =
    (if '"' = d then (fun cells => [] :: cells) <$>
        splitCellsSM d false false (escChars s ++ '"' :: rest)
     else if '"' = '"' then consCur '"' <$>
        splitCellsSM d true false (escChars s ++ '"' :: rest)
     else consCur '"' <$> splitCellsSM d false false (escChars s ++ '"' :: rest)) from rfl]
  rw [if_neg (fun he => hd he.symm), if_pos rfl]
  rw [splitCellsSM_inq d s rest cells h]
  rfl

/-- No delimiter character is a number character. -/
theorem delim_not_numChar (d : Delim) : numChar d.char = false := by
  cases d <;> decide

/-- No delimiter character is a double quote. -/
theorem delim_ne_quote (d : Delim) : d.char ≠ '"' := by
  cases d <;> decide

/-- One rendered primitive cell is scanned as one unit, whatever follows. -/
theorem splitCellsSM_scalar (d : Delim) (v : Value) (hp : v.isPrim = true) :
    ∀ (rest : List Char) (cells : List (List Char)),
    splitCellsSM d.char false false rest = .ok cells →
    splitCellsSM d.char false false (scalarTxt d.char false v ++ rest) =
      .ok (consAll (scalarTxt d.char false v) cells) := by
  intro rest cells h
  cases v with
  | null =>
    exact splitCellsSM_bare d.char ['n', 'u', 'l', 'l'] (by decide)
      (by cases d <;> decide) rest cells h
  | bool b =>
    cases b with
    | true =>
      exact splitCellsSM_bare d.char ['t', 'r', 'u', 'e'] (by decide)
        (by cases d <;> decide) rest cells h
    | false =>
      exact splitCellsSM_bare d.char ['f', 'a', 'l', 's', 'e'] (by decide)
        (by cases d <;> decide) rest cells h
  | int n =>
    exact splitCellsSM_bare d.char (renderInt n)
      (not_contains_of_all _ numChar (renderInt_all n) '"' (by decide))
      (not_contains_of_all _ numChar (renderInt_all n) d.char (delim_not_numChar d))
      rest cells h
  | float f =>
    exact splitCellsSM_bare d.char (renderFloat f)
      (not_contains_of_all _ numChar (renderFloat_all f) '"' (by decide))
      (not_contains_of_all _ numChar (renderFloat_all f) d.char (delim_not_numChar d))
      rest cells h
  | str s =>
    show splitCellsSM d.char false false (encodeStr s d.char false ++ rest) =
      .ok (consAll (encodeStr s d.char false) cells)
    unfold encodeStr
    cases hq : needsQuotes s.toList d.char false with
    | true =>
      simp only [if_true]
      exact splitCellsSM_quoted d.char (delim_ne_quote d) s.toList rest cells h
    | false =>
      simp only [Bool.false_eq_true, if_false]
      have htr : quoteTrigger s.toList d.char = false := by
        unfold needsQuotes at hq
        simpa using hq
      obtain ⟨_, hq2, _, hd2, _⟩ := quoteTrigger_false_facts _ _ htr
      exact splitCellsSM_bare d.char s.toList hq2 hd2 rest cells h
  | arr l => simp [Value.isPrim] at hp
  | obj l => simp [Value.isPrim] at hp

/-- The rendered cells of an all-primitive list, one per element. -/
def cellsOf (d : Char) : VList → List (List Char)
  | .nil => []
  | .cons v tl => scalarTxt d false v :: cellsOf d tl

/-- Splitting the joined cells of a nonempty all-primitive list recovers each
rendered cell. -/
theorem splitCells_cellsTxt (d : Delim) : ∀ (l : VList), l.allPrim = true →
    l ≠ .nil → splitCells d.char (cellsTxt d.char l) = .ok (cellsOf d.char l)
  | .nil, _, hne => absurd rfl hne
  | .cons v .nil, hl, _ => by
    have hl2 : v.isPrim = true := by
      rw [show VList.allPrim (.cons v .nil) = (v.isPrim && true) from rfl] at hl
      exact (Bool.and_eq_true_iff.mp hl).1
    show splitCellsSM d.char false false (scalarTxt d.char false v) = _
    have hstep := splitCellsSM_scalar d v hl2 [] [[]] rfl
    rw [List.append_nil] at hstep
    rw [hstep]
    rw [show cellsOf d.char (.cons v .nil) = [scalarTxt d.char false v] from rfl]
    rw [show ([[]] : List (List Char)) = [] :: [] from rfl, consAll_cons, List.append_nil]
  | .cons v (.cons w tl2), hl, _ => by
    have hl2 : v.isPrim = true ∧ VList.allPrim (.cons w tl2) = true := by
      rw [show VList.allPrim (.cons v (.cons w tl2)) =
        (v.isPrim && VList.allPrim (.cons w tl2)) from rfl] at hl
      exact Bool.and_eq_true_iff.mp hl
    show splitCellsSM d.char false false
      (scalarTxt d.char false v ++ d.char :: cellsTxt d.char (.cons w tl2)) = _
    have hrest : splitCellsSM d.char false false
        (d.char :: cellsTxt d.char (.cons w tl2)) =
        .ok ([] :: cellsOf d.char (.cons w tl2)) := by
      rw [show splitCellsSM d.char false false
          (d.char :: cellsTxt d.char (.cons w tl2)) =
        (if d.char = d.char then (fun cells => [] :: cells) <$>
            splitCellsSM d.char false false (cellsTxt d.char (.cons w tl2))
         else if d.char = '"' then consCur d.char <$>
            splitCellsSM d.char true false (cellsTxt d.char (.cons w tl2))
         else consCur d.char <$>
            splitCellsSM d.char false false (cellsTxt d.char (.cons w tl2))) from rfl]
      rw [if_pos rfl]
      rw [show splitCellsSM d.char false false (cellsTxt d.char (.cons w tl2)) =
        splitCells d.char (cellsTxt d.char (.cons w tl2)) from rfl]
      rw [splitCells_cellsTxt d (.cons w tl2) hl2.2
        (by intro hx; exact VList.noConfusion hx)]
      rfl
    rw [splitCellsSM_scalar d v hl2.1 _ _ hrest, consAll_cons]
    rw [show cellsOf d.char (.cons v (.cons w tl2)) =
      scalarTxt d.char false v :: cellsOf d.char (.cons w tl2) from rfl]
    rw [List.append_nil]

/-! ## Round-trip machinery, layer 6: physical-line plumbing -/

/-- A well-formed content text: nonempty, no raw newline, and a head that
cannot be mistaken for indentation. -/
def goodTxt (t : List Char) : Bool :=
  match t with
  | [] => false
  | c :: _ => !(c = ' ') && !(c = '\t') && !t.contains '\n'

/-- Splitting a newline-free run yields that single line. -/
theorem splitNl_no_nl : ∀ (cs : List Char), cs.contains '\n' = false →
    splitNl cs = [cs] := by
  intro cs
  induction cs with
  | nil => intro _; rfl
  | cons c r ih =>
    intro h
    obtain ⟨hc, hr⟩ := contains_cons_false c '\n' r h
    rw [splitNl.eq_def]
    split
    · rename_i heq
      cases heq
    · rename_i heq
      injection heq with ha _
      exact absurd ha hc
    · rename_i x c2 r2 hne heq2
      injection heq2 with ha hb
      subst ha
      subst hb
      rw [ih hr]

/-- Splitting past a newline-free prefix peels exactly one line. -/
theorem splitNl_cons_nl : ∀ (cs : List Char), cs.contains '\n' = false →
    ∀ (r : List Char), splitNl (cs ++ '\n' :: r) = cs :: splitNl r := by
  intro cs
  induction cs with
  | nil =>
    intro _ r
    rfl
  | cons c t ih =>
    intro h r
    obtain ⟨hc, ht⟩ := contains_cons_false c '\n' t h
    show splitNl (c :: (t ++ '\n' :: r)) = _
    rw [splitNl.eq_def]
    split
    · rename_i heq
      cases heq
    · rename_i heq
      injection heq with ha _
      exact absurd ha hc
    · rename_i x c2 r2 hne heq2
      injection heq2 with ha hb
      subst ha
      subst hb
      rw [ih ht r]

/-- A no-blank line list keeps all its rendered lines after the trailing-empty
drop. -/
theorem dropLastEmpty_nonempty : ∀ (xs : List (List Char)),
    (∀ x ∈ xs, x ≠ []) → dropLastEmpty xs = xs := by
  intro xs
  induction xs with
  | nil => intro _; rfl
  | cons x tl ih =>
    intro h
    cases tl with
    | nil =>
      cases hx : x with
      | nil => exact absurd hx (h x (by simp))
      | cons a b =>
        subst hx
        rfl
    | cons y tl2 =>
      have hstep : dropLastEmpty (x :: y :: tl2) = x :: dropLastEmpty (y :: tl2) := by
        cases x <;> rfl
      rw [hstep, ih (fun z hz => h z (by simp [hz]))]

/-- Rendering then analyzing a well-formed line is the identity. -/
theorem analyzeLine_render (l : Line) (h : goodTxt l.txt = true) :
    analyzeLine l.render = .ok l := by
  obtain ⟨c, t⟩ := l
  cases t with
  | nil => exact absurd h (by simp [goodTxt])
  | cons a b =>
    simp only [goodTxt, Bool.and_eq_true, Bool.not_eq_true', decide_eq_false_iff_not] at h
    show analyzeLine (List.replicate c ' ' ++ a :: b) = _
    have hdrop : (List.replicate c ' ' ++ a :: b).dropWhile (fun c => c = ' ') = a :: b := by
      rw [List.dropWhile_append]
      simp only [List.dropWhile_replicate]
      simp [List.dropWhile_cons, h.1.1]
    have htake : (List.replicate c ' ' ++ a :: b).takeWhile (fun c => c = ' ') =
        List.replicate c ' ' := by
      rw [List.takeWhile_append]
      simp only [List.takeWhile_replicate]
      simp [List.takeWhile_cons, h.1.1]
    unfold analyzeLine
    simp only []
    rw [hdrop, htake]
    have hna : a ≠ '\t' := h.1.2
    cases ha : a with
    | mk v hv =>
      rw [show (List.replicate c ' ').length = c from List.length_replicate c ' ']
      split
      · rename_i heq
        rw [← ha] at heq
        injection heq with hx _
        exact absurd hx (by rw [ha]; rw [ha] at hna; exact hna)
      · rw [← ha]

/-- Rendering then analyzing a list of well-formed lines is the identity. -/
theorem mapLines_renders : ∀ (L : List Line), (∀ l ∈ L, goodTxt l.txt = true) →
    mapLines (L.map Line.render) = .ok L := by
  intro L
  induction L with
  | nil => intro _; rfl
  | cons l tl ih =>
    intro h
    show mapLines (l.render :: tl.map Line.render) = _
    rw [show mapLines (l.render :: tl.map Line.render) =
      (match analyzeLine l.render, mapLines (tl.map Line.render) with
       | .error e, _ => .error e
       | _, .error e => .error e
       | .ok l, .ok ls => .ok (l :: ls)) from rfl]
    rw [analyzeLine_render l (h l (by simp)), ih (fun z hz => h z (by simp [hz]))]

/-- Joined well-formed lines split back into exactly their renders. -/
theorem splitNl_joinLines : ∀ (L : List Line), L ≠ [] →
    (∀ l ∈ L, goodTxt l.txt = true) →
    splitNl (joinLines L) = L.map Line.render := by
  intro L
  induction L with
  | nil => intro h _; exact absurd rfl h
  | cons l tl ih =>
    intro _ h
    have hgood : goodTxt l.txt = true := h l (by simp)
    have hrku : l.render.contains '\n' = false := by
      obtain ⟨c, t⟩ := l
      cases t with
      | nil => exact absurd hgood (by simp [goodTxt])
      | cons a b =>
        simp only [goodTxt, Bool.and_eq_true, Bool.not_eq_true', decide_eq_false_iff_not]
          at hgood
        show (List.replicate c ' ' ++ a :: b).contains '\n' = false
        cases hx : (List.replicate c ' ' ++ a :: b).contains '\n' with
        | false => rfl
        | true =>
          have hmem : '\n' ∈ List.replicate c ' ' ++ a :: b := by simpa using hx
          rw [List.mem_append] at hmem
          cases hmem with
          | inl hm =>
            have := List.eq_of_mem_replicate hm
            cases this
          | inr hm =>
            have hcon : (a :: b).contains '\n' = true := by simpa using hm
            rw [hcon] at hgood
            exact absurd hgood.2 (by simp)
    cases tl with
    | nil =>
      show splitNl l.render = [l.render]
      exact splitNl_no_nl l.render hrku
    | cons l2 tl2 =>
      show splitNl (l.render ++ '\n' :: joinLines (l2 :: tl2)) = _
      rw [splitNl_cons_nl l.render hrku]
      rw [ih (by intro hx; exact List.noConfusion hx) (fun z hz => h z (by simp [hz]))]
      rfl

/-- The decoder's whole physical-line pipeline is the identity on rendered
well-formed lines. -/
theorem mapLines_pipeline (L : List Line) (hne : L ≠ [])
    (hgood : ∀ l ∈ L, goodTxt l.txt = true) :
    mapLines (dropLastEmpty (splitNl (joinLines L))) = .ok L := by
  rw [splitNl_joinLines L hne hgood]
  rw [dropLastEmpty_nonempty _ ?_]
  · exact mapLines_renders L hgood
  · intro x hx
    rw [List.mem_map] at hx
    obtain ⟨l, hl, hxl⟩ := hx
    have hg := hgood l hl
    obtain ⟨c, t⟩ := l
    cases t with
    | nil => exact absurd hg (by simp [goodTxt])
    | cons a b =>
      rw [← hxl]
      show List.replicate c ' ' ++ a :: b ≠ []
      simp

/-! ## Round-trip machinery, layer 7: unquoted-colon scans -/

/-- The colon scan past an ordinary character. -/
theorem hSM_step (c : Char) (h1 : c ≠ ':') (h2 : c ≠ '"') (r : List Char) :
    hasUnquotedColonSM false false (c :: r) = hasUnquotedColonSM false false r := by
  rw [show hasUnquotedColonSM false false (c :: r) =
    (if c = ':' then true
     else if c = '"' then hasUnquotedColonSM true false r
     else hasUnquotedColonSM false false r) from rfl]
  rw [if_neg h1, if_neg h2]

/-- The colon scan through a colon- and quote-free run. -/
theorem hSM_bare : ∀ (cs : List Char), cs.contains ':' = false →
    cs.contains '"' = false → ∀ (r : List Char),
    hasUnquotedColonSM false false (cs ++ r) = hasUnquotedColonSM false false r := by
  intro cs
  induction cs with
  | nil => intro _ _ r; rfl
  | cons c t ih =>
    intro hc hq r
    obtain ⟨hc1, hc2⟩ := contains_cons_false c ':' t hc
    obtain ⟨hq1, hq2⟩ := contains_cons_false c '"' t hq
    show hasUnquotedColonSM false false (c :: (t ++ r)) = _
    rw [hSM_step c hc1 hq1, ih hc2 hq2 r]

/-- The colon scan through the inside of a quoted literal. -/
theorem hSM_inq : ∀ (s : List Char) (r : List Char),
    hasUnquotedColonSM true false (escChars s ++ '"' :: r) =
      hasUnquotedColonSM false false r := by
  intro s
  induction s with
  | nil =>
    intro r
    show hasUnquotedColonSM true false ('"' :: r) = _
    rw [show hasUnquotedColonSM true false ('"' :: r) =
      (if '"' = '\\' then hasUnquotedColonSM true true r
       else if '"' = '"' then hasUnquotedColonSM false false r
       else hasUnquotedColonSM true false r) from rfl]
    rw [if_neg (by decide), if_pos rfl]
  | cons c cs ih =>
    intro r
    show hasUnquotedColonSM true false ((escCharMap c ++ escChars cs) ++ '"' :: r) = _
    rw [List.append_assoc]
    by_cases h1 : c = '\\'
    · subst h1
      show hasUnquotedColonSM true false ('\\' :: '\\' :: (escChars cs ++ '"' :: r)) = _
      rw [show hasUnquotedColonSM true false ('\\' :: '\\' :: (escChars cs ++ '"' :: r)) =
        hasUnquotedColonSM true true ('\\' :: (escChars cs ++ '"' :: r)) from rfl]
      rw [show hasUnquotedColonSM true true ('\\' :: (escChars cs ++ '"' :: r)) =
        hasUnquotedColonSM true false (escChars cs ++ '"' :: r) from rfl]
      exact ih r
    · by_cases h2 : c = '"'
      · subst h2
        show hasUnquotedColonSM true false ('\\' :: '"' :: (escChars cs ++ '"' :: r)) = _
        rw [show hasUnquotedColonSM true false ('\\' :: '"' :: (escChars cs ++ '"' :: r)) =
          hasUnquotedColonSM true false (escChars cs ++ '"' :: r) from rfl]
        exact ih r
      · by_cases h3 : c = '\n'
        · subst h3
          show hasUnquotedColonSM true false ('\\' :: 'n' :: (escChars cs ++ '"' :: r)) = _
          rw [show hasUnquotedColonSM true false ('\\' :: 'n' :: (escChars cs ++ '"' :: r)) =
            hasUnquotedColonSM true false (escChars cs ++ '"' :: r) from rfl]
          exact ih r
        · by_cases h4 : c = '\r'
          · subst h4
            show hasUnquotedColonSM true false ('\\' :: 'r' :: (escChars cs ++ '"' :: r)) = _
            rw [show hasUnquotedColonSM true false
                ('\\' :: 'r' :: (escChars cs ++ '"' :: r)) =
              hasUnquotedColonSM true false (escChars cs ++ '"' :: r) from rfl]
            exact ih r
          · by_cases h5 : c = '\t'
            · subst h5
              show hasUnquotedColonSM true false ('\\' :: 't' :: (escChars cs ++ '"' :: r)) = _
              rw [show hasUnquotedColonSM true false
                  ('\\' :: 't' :: (escChars cs ++ '"' :: r)) =
                hasUnquotedColonSM true false (escChars cs ++ '"' :: r) from rfl]
              exact ih r
            · have hm : escCharMap c = [c] := by
                unfold escCharMap
                rw [if_neg h1, if_neg h2, if_neg h3, if_neg h4, if_neg h5]
              rw [hm]
              show hasUnquotedColonSM true false (c :: (escChars cs ++ '"' :: r)) = _
              rw [show hasUnquotedColonSM true false (c :: (escChars cs ++ '"' :: r)) =
                (if c = '\\' then hasUnquotedColonSM true true (escChars cs ++ '"' :: r)
                 else if c = '"' then hasUnquotedColonSM false false (escChars cs ++ '"' :: r)
                 else hasUnquotedColonSM true false (escChars cs ++ '"' :: r)) from rfl]
              rw [if_neg h1, if_neg h2]
              exact ih r

/-- The colon scan through a whole quoted literal. -/
theorem hSM_quoted (s : List Char) (r : List Char) :
    hasUnquotedColonSM false false (quoteWrap s ++ r) =
      hasUnquotedColonSM false false r := by
  show hasUnquotedColonSM false false ('"' :: ((escChars s ++ ['"']) ++ r)) = _
  rw [List.append_assoc]
  show hasUnquotedColonSM false false ('"' :: (escChars s ++ '"' :: r)) = _
  rw [show hasUnquotedColonSM false false ('"' :: (escChars s ++ '"' :: r)) =
    (if '"' = ':' then true
     else if '"' = '"' then hasUnquotedColonSM true false (escChars s ++ '"' :: r)
     else hasUnquotedColonSM false false (escChars s ++ '"' :: r)) from rfl]
  rw [if_neg (by decide), if_pos rfl]
  exact hSM_inq s r

/-- Characters allowed in a bare key. -/
def kChar (c : Char) : Bool := c.isAlphanum || c = '_' || c = '.'

/-- Every character of a valid bare key is a key character. -/
theorem bareKeyOk_all (cs : List Char) (h : bareKeyOk cs = true) :
    cs.all kChar = true := by
  cases cs with
  | nil => exact absurd h (by simp [bareKeyOk])
  | cons c r =>
    simp only [bareKeyOk, Bool.and_eq_true] at h
    rw [List.all_cons, Bool.and_eq_true]
    constructor
    · rcases Bool.or_eq_true_iff.mp h.1 with ha | ha
      · simp only [kChar, Char.isAlphanum, ha]
        rfl
      · simp only [kChar, ha]
        simp
    · rw [List.all_eq_true]
      intro x hx
      have := (List.all_eq_true.mp h.2) x hx
      simp only [Bool.or_eq_true_iff] at this
      simp only [kChar, Bool.or_eq_true_iff]
      rcases this with (ha | ha) | ha
      · exact Or.inl (Or.inl ha)
      · exact Or.inl (Or.inr ha)
      · exact Or.inr ha

/-- The colon scan through an emitted key. -/
theorem hSM_encodeKey (k : String) (r : List Char) :
    hasUnquotedColonSM false false (encodeKey k ++ r) =
      hasUnquotedColonSM false false r := by
  unfold encodeKey
  by_cases hb : bareKeyOk k.toList = true
  · rw [if_pos hb]
    have hall := bareKeyOk_all k.toList hb
    exact hSM_bare k.toList
      (not_contains_of_all _ kChar hall ':' (by decide))
      (not_contains_of_all _ kChar hall '"' (by decide)) r
  · rw [if_neg hb]
    exact hSM_quoted k.toList r

/-- A colon heads the scan to success. -/
theorem hSM_colon (r : List Char) : hasUnquotedColonSM false false (':' :: r) = true := by
  rw [show hasUnquotedColonSM false false (':' :: r) =
    (if ':' = ':' then true
     else if ':' = '"' then hasUnquotedColonSM true false r
     else hasUnquotedColonSM false false r) from rfl]
  rw [if_pos rfl]

/-- Every primitive field line carries an unquoted colon. -/
theorem hasUnquotedColon_field (k : String) (rest : List Char) :
    hasUnquotedColon (encodeKey k ++ ':' :: rest) = true := by
  unfold hasUnquotedColon
  rw [hSM_encodeKey k (':' :: rest), hSM_colon]

/-- The colon scan through a rendered scalar never finds an unquoted colon. -/
theorem hasUnquotedColon_scalar (d : Char) (root : Bool) (v : Value)
    (hp : v.isPrim = true) : hasUnquotedColon (scalarTxt d root v) = false := by
  cases v with
  | null => rfl
  | bool b => cases b <;> rfl
  | int n =>
    show hasUnquotedColonSM false false (renderInt n) = false
    rw [show renderInt n = renderInt n ++ [] from (List.append_nil _).symm]
    rw [hSM_bare (renderInt n)
      (not_contains_of_all _ numChar (renderInt_all n) ':' (by decide))
      (not_contains_of_all _ numChar (renderInt_all n) '"' (by decide)) []]
    rfl
  | float f =>
    show hasUnquotedColonSM false false (renderFloat f) = false
    rw [show renderFloat f = renderFloat f ++ [] from (List.append_nil _).symm]
    rw [hSM_bare (renderFloat f)
      (not_contains_of_all _ numChar (renderFloat_all f) ':' (by decide))
      (not_contains_of_all _ numChar (renderFloat_all f) '"' (by decide)) []]
    rfl
  | str s =>
    show hasUnquotedColon (encodeStr s d root) = false
    unfold encodeStr
    cases hq : needsQuotes s.toList d root with
    | true =>
      simp only [if_true]
      unfold hasUnquotedColon
      rw [show quoteWrap s.toList = quoteWrap s.toList ++ [] from (List.append_nil _).symm]
      rw [hSM_quoted]
      rfl
    | false =>
      simp only [Bool.false_eq_true, if_false]
      have htr : quoteTrigger s.toList d = false := by
        unfold needsQuotes at hq
        simp only [Bool.or_eq_false_iff] at hq
        exact hq.1
      obtain ⟨_, hq2, _, _, hc2⟩ := quoteTrigger_false_facts _ _ htr
      unfold hasUnquotedColon
      rw [show s.toList = s.toList ++ [] from (List.append_nil _).symm]
      rw [hSM_bare s.toList hc2 hq2 []]
      rfl
  | arr l => simp [Value.isPrim] at hp
  | obj l => simp [Value.isPrim] at hp

/-- Delimiter characters are not colons. -/
theorem delim_ne_colon (d : Delim) : d.char ≠ ':' := by
  cases d <;> decide

/-- The colon scan through the keys of a tabular header block. -/
theorem hSM_keysTxt (d : Delim) : ∀ (fs : List String) (r : List Char),
    hasUnquotedColonSM false false (keysTxt d.char fs ++ r) =
      hasUnquotedColonSM false false r := by
  intro fs
  induction fs with
  | nil => intro r; rfl
  | cons k ks ih =>
    intro r
    cases ks with
    | nil =>
      show hasUnquotedColonSM false false (encodeKey k ++ r) = _
      exact hSM_encodeKey k r
    | cons k2 ks2 =>
      show hasUnquotedColonSM false false
        ((encodeKey k ++ d.char :: keysTxt d.char (k2 :: ks2)) ++ r) = _
      rw [List.append_assoc, hSM_encodeKey]
      show hasUnquotedColonSM false false
        (d.char :: (keysTxt d.char (k2 :: ks2) ++ r)) = _
      rw [hSM_step d.char (delim_ne_colon d) (delim_ne_quote d), ih r]

/-- Every array-header line carries an unquoted colon. -/
theorem hasUnquotedColon_mkHeader (k : Option String) (n : Nat) (d : Delim)
    (fields : Option (List String)) (tail : Option (List Char)) :
    hasUnquotedColon (mkHeader k n d fields tail) = true := by
  unfold hasUnquotedColon mkHeader
  have hkey : ∀ r, hasUnquotedColonSM false false
      ((match k with | some k => encodeKey k | none => []) ++ r) =
      hasUnquotedColonSM false false r := by
    intro r
    cases k with
    | some k => exact hSM_encodeKey k r
    | none => rfl
  rw [List.append_assoc, List.append_assoc, List.append_assoc, hkey]
  show hasUnquotedColonSM false false
    ('[' :: (natDigits n ++ ((if d = .comma then [] else [d.char]) ++
      ((']' :: (match fields with
        | some fs => '\x7b' :: keysTxt d.char fs ++ ['\x7d']
        | none => [])) ++
        ':' :: (match tail with | some t => ' ' :: t | none => []))))) = true
  rw [hSM_step '[' (by decide) (by decide)]
  rw [hSM_bare (natDigits n)
    (not_contains_of_all _ numChar (all_numChar_of_digits _ (natDigits_all_digits n))
      ':' (by decide))
    (not_contains_of_all _ numChar (all_numChar_of_digits _ (natDigits_all_digits n))
      '"' (by decide))]
  have hrest : hasUnquotedColonSM false false
      ((']' :: (match fields with
        | some fs => '\x7b' :: keysTxt d.char fs ++ ['\x7d']
        | none => [])) ++
        ':' :: (match tail with | some t => ' ' :: t | none => [])) = true := by
    show hasUnquotedColonSM false false
      (']' :: ((match fields with
        | some fs => '\x7b' :: keysTxt d.char fs ++ ['\x7d']
        | none => []) ++
        ':' :: (match tail with | some t => ' ' :: t | none => []))) = true
    rw [hSM_step ']' (by decide) (by decide)]
    cases fields with
    | some fs =>
      show hasUnquotedColonSM false false
        ('\x7b' :: ((keysTxt d.char fs ++ ['\x7d']) ++
          ':' :: (match tail with | some t => ' ' :: t | none => []))) = true
      rw [hSM_step '\x7b' (by decide) (by decide), List.append_assoc, hSM_keysTxt]
      show hasUnquotedColonSM false false ('\x7d' :: (':' ::
        (match tail with | some t => ' ' :: t | none => []))) = true
      rw [hSM_step '\x7d' (by decide) (by decide), hSM_colon]
    | none =>
      show hasUnquotedColonSM false false ((':' ::
        (match tail with | some t => ' ' :: t | none => []))) = true
      rw [hSM_colon]
  cases hd : decide (d = Delim.comma) with
  | true =>
    simp only [decide_eq_true_eq] at hd
    rw [if_pos hd]
    exact hrest
  | false =>
    simp only [decide_eq_false_iff_not] at hd
    rw [if_neg hd]
    show hasUnquotedColonSM false false (d.char :: _) = true
    rw [hSM_step d.char (delim_ne_colon d) (delim_ne_quote d)]
    exact hrest

/-! ## Round-trip machinery, layer 8: keys, brackets, header lines -/

/-- `takeWhile` splits exactly at the first failing head. -/
theorem takeWhile_app (P : Char → Bool) : ∀ (cs : List Char) (c : Char) (r : List Char),
    cs.all P = true → P c = false → (cs ++ c :: r).takeWhile P = cs := by
  intro cs
  induction cs with
  | nil =>
    intro c r _ hc
    simp [List.takeWhile_cons, hc]
  | cons a t ih =>
    intro c r hall hc
    rw [List.all_cons, Bool.and_eq_true] at hall
    show (a :: (t ++ c :: r)).takeWhile P = _
    rw [List.takeWhile_cons, hall.1, if_pos rfl]
    rw [ih c r hall.2 hc]

/-- `dropWhile` splits exactly at the first failing head. -/
theorem dropWhile_app (P : Char → Bool) : ∀ (cs : List Char) (c : Char) (r : List Char),
    cs.all P = true → P c = false → (cs ++ c :: r).dropWhile P = c :: r := by
  intro cs
  induction cs with
  | nil =>
    intro c r _ hc
    simp [List.dropWhile_cons, hc]
  | cons a t ih =>
    intro c r hall hc
    rw [List.all_cons, Bool.and_eq_true] at hall
    show (a :: (t ++ c :: r)).dropWhile P = _
    rw [List.dropWhile_cons, hall.1, if_pos rfl]
    exact ih c r hall.2 hc

/-- A valid bare key neither starts with a quote nor with a bracket. -/
theorem bareKey_head (cs : List Char) (h : bareKeyOk cs = true) :
    cs.head? ≠ some '"' ∧ cs.head? ≠ some '[' := by
  cases cs with
  | nil => exact absurd h (by simp [bareKeyOk])
  | cons c r =>
    simp only [bareKeyOk, Bool.and_eq_true] at h
    constructor
    · intro hx
      injection hx with hx
      rw [hx] at h
      rcases Bool.or_eq_true_iff.mp h.1 with ha | ha
      · exact absurd ha (by decide)
      · exact absurd ha (by decide)
    · intro hx
      injection hx with hx
      rw [hx] at h
      rcases Bool.or_eq_true_iff.mp h.1 with ha | ha
      · exact absurd ha (by decide)
      · exact absurd ha (by decide)

/-- `parseCellKey` of a cell not starting with a quote. -/
theorem parseCellKey_other (cs : List Char) (h : cs.head? ≠ some '"') :
    parseCellKey cs = .ok (String.mk cs) := by
  cases cs with
  | nil => rfl
  | cons c r =>
    rw [parseCellKey.eq_def]
    split
    · rename_i heq
      injection heq with ha _
      exact absurd (by simp [ha]) h
    · rfl

/-- An emitted key cell reads back as the same key. -/
theorem parseCellKey_encodeKey (k : String) : parseCellKey (encodeKey k) = .ok k := by
  unfold encodeKey
  by_cases hb : bareKeyOk k.toList = true
  · rw [if_pos hb]
    rw [parseCellKey_other k.toList (bareKey_head k.toList hb).1, strMk_toList]
  · rw [if_neg hb]
    show parseCellKey ('"' :: (escChars k.toList ++ ['"'])) = _
    rw [parseCellKey.eq_def]
    simp only []
    rw [show escChars k.toList ++ ['"'] = escChars k.toList ++ '"' :: [] from rfl,
      unquote_escChars]
    rw [show (fun p => String.mk p.1) <$>
      (Except.ok (k.toList, ([] : List Char)) : Except Err (List Char × List Char)) =
      Except.ok (String.mk k.toList) from rfl, strMk_toList]

/-- `parseFieldLine` on a line with neither a quoted key nor a bracket head. -/
theorem parseFieldLine_other (cs : List Char) (h1 : cs.head? ≠ some '"')
    (h2 : cs.head? ≠ some '[') :
    parseFieldLine cs = parseAfterKey
      (some (String.mk (cs.takeWhile (fun c => !(c = ':') && !(c = '[')))))
      (cs.dropWhile (fun c => !(c = ':') && !(c = '['))) := by
  rw [parseFieldLine.eq_def]
  split
  · exact absurd rfl h1
  · exact absurd rfl h2
  · rfl

/-- `parseBracket` of a list not led by the hash marker. -/
theorem parseBracket_noHash (cs : List Char) (h : cs.head? ≠ some '#') :
    parseBracket cs = parseBracketCore cs := by
  rw [parseBracket.eq_def]
  split
  · exact absurd rfl h
  · rfl

/-- The field-block scanner past an ordinary run of characters. -/
theorem sfSM_bare (d : Char) : ∀ (cs : List Char), cs.contains '"' = false →
    cs.contains d = false → cs.contains '\x7d' = false → ∀ (r : List Char),
    splitFieldsSM d false false (cs ++ r) =
      (fun p => (consAll cs p.1, p.2)) <$> splitFieldsSM d false false r := by
  intro cs
  induction cs with
  | nil =>
    intro _ _ _ r
    rw [List.nil_append]
    cases h : splitFieldsSM d false false r with
    | none => rfl
    | some p => rfl
  | cons c t ih =>
    intro hq hd hb r
    obtain ⟨hq1, hq2⟩ := contains_cons_false c '"' t hq
    obtain ⟨hd1, hd2⟩ := contains_cons_false c d t hd
    obtain ⟨hb1, hb2⟩ := contains_cons_false c '\x7d' t hb
    show splitFieldsSM d false false (c :: (t ++ r)) = _
    rw [show splitFieldsSM d false false (c :: (t ++ r)) =
      (if c = '\x7d' then some ([[]], t ++ r)
       else if c = d then (fun p => ([] :: p.1, p.2)) <$> splitFieldsSM d false false (t ++ r)
       else if c = '"' then (fun p => (consCur c p.1, p.2)) <$>
         splitFieldsSM d true false (t ++ r)
       else (fun p => (consCur c p.1, p.2)) <$> splitFieldsSM d false false (t ++ r))
      from rfl]
    rw [if_neg hb1, if_neg hd1, if_neg hq1, ih hq2 hd2 hb2 r]
    cases h : splitFieldsSM d false false r with
    | none => rfl
    | some p => rfl

/-- The field-block scanner through the inside of a quoted key. -/
theorem sfSM_inq (d : Char) : ∀ (s : List Char) (r : List Char),
    splitFieldsSM d true false (escChars s ++ '"' :: r) =
      (fun p => (consAll (escChars s ++ ['"']) p.1, p.2)) <$>
        splitFieldsSM d false false r := by
  intro s
  induction s with
  | nil =>
    intro r
    show splitFieldsSM d true false ('"' :: r) = _
    rw [show splitFieldsSM d true false ('"' :: r) =
      (if '"' = '\\' then (fun p => (consCur '"' p.1, p.2)) <$> splitFieldsSM d true true r
       else if '"' = '"' then (fun p => (consCur '"' p.1, p.2)) <$>
         splitFieldsSM d false false r
       else (fun p => (consCur '"' p.1, p.2)) <$> splitFieldsSM d true false r) from rfl]
    rw [if_neg (by decide), if_pos rfl]
    cases h : splitFieldsSM d false false r with
    | none => rfl
    | some p => rfl
  | cons c cs ih =>
    intro r
    show splitFieldsSM d true false ((escCharMap c ++ escChars cs) ++ '"' :: r) = _
    rw [List.append_assoc]
    have hstep2 : ∀ (x : Char) (rr : List Char),
        splitFieldsSM d true true (x :: rr) =
          (fun p => (consCur x p.1, p.2)) <$> splitFieldsSM d true false rr :=
      fun x rr => rfl
    by_cases h1 : c = '\\'
    · subst h1
      show splitFieldsSM d true false ('\\' :: '\\' :: (escChars cs ++ '"' :: r)) = _
      rw [show splitFieldsSM d true false ('\\' :: '\\' :: (escChars cs ++ '"' :: r)) =
        (fun p => (consCur '\\' p.1, p.2)) <$>
          splitFieldsSM d true true ('\\' :: (escChars cs ++ '"' :: r)) from rfl]
      rw [hstep2, ih r]
      cases h : splitFieldsSM d false false r with
      | none => rfl
      | some p => rfl
    · by_cases h2 : c = '"'
      · subst h2
        show splitFieldsSM d true false ('\\' :: '"' :: (escChars cs ++ '"' :: r)) = _
        rw [show splitFieldsSM d true false ('\\' :: '"' :: (escChars cs ++ '"' :: r)) =
          (fun p => (consCur '\\' p.1, p.2)) <$>
            splitFieldsSM d true true ('"' :: (escChars cs ++ '"' :: r)) from rfl]
        rw [hstep2, ih r]
        cases h : splitFieldsSM d false false r with
        | none => rfl
        | some p => rfl
      · by_cases h3 : c = '\n'
        · subst h3
          show splitFieldsSM d true false ('\\' :: 'n' :: (escChars cs ++ '"' :: r)) = _
          rw [show splitFieldsSM d true false ('\\' :: 'n' :: (escChars cs ++ '"' :: r)) =
            (fun p => (consCur '\\' p.1, p.2)) <$>
              splitFieldsSM d true true ('n' :: (escChars cs ++ '"' :: r)) from rfl]
          rw [hstep2, ih r]
          cases h : splitFieldsSM d false false r with
          | none => rfl
          | some p => rfl
        · by_cases h4 : c = '\r'
          · subst h4
            show splitFieldsSM d true false ('\\' :: 'r' :: (escChars cs ++ '"' :: r)) = _
            rw [show splitFieldsSM d true false ('\\' :: 'r' :: (escChars cs ++ '"' :: r)) =
              (fun p => (consCur '\\' p.1, p.2)) <$>
                splitFieldsSM d true true ('r' :: (escChars cs ++ '"' :: r)) from rfl]
            rw [hstep2, ih r]
            cases h : splitFieldsSM d false false r with
            | none => rfl
            | some p => rfl
          · by_cases h5 : c = '\t'
            · subst h5
              show splitFieldsSM d true false ('\\' :: 't' :: (escChars cs ++ '"' :: r)) = _
              rw [show splitFieldsSM d true false
                  ('\\' :: 't' :: (escChars cs ++ '"' :: r)) =
                (fun p => (consCur '\\' p.1, p.2)) <$>
                  splitFieldsSM d true true ('t' :: (escChars cs ++ '"' :: r)) from rfl]
              rw [hstep2, ih r]
              cases h : splitFieldsSM d false false r with
              | none => rfl
              | some p => rfl
            · have hm : escCharMap c = [c] := by
                unfold escCharMap
                rw [if_neg h1, if_neg h2, if_neg h3, if_neg h4, if_neg h5]
              rw [hm]
              show splitFieldsSM d true false (c :: (escChars cs ++ '"' :: r)) = _
              rw [show splitFieldsSM d true false (c :: (escChars cs ++ '"' :: r)) =
                (if c = '\\' then (fun p => (consCur c p.1, p.2)) <$>
                    splitFieldsSM d true true (escChars cs ++ '"' :: r)
                 else if c = '"' then (fun p => (consCur c p.1, p.2)) <$>
                    splitFieldsSM d false false (escChars cs ++ '"' :: r)
                 else (fun p => (consCur c p.1, p.2)) <$>
                    splitFieldsSM d true false (escChars cs ++ '"' :: r)) from rfl]
              rw [if_neg h1, if_neg h2, ih r]
              cases h : splitFieldsSM d false false r with
              | none => rfl
              | some p =>
                show some ((consCur c (consAll (escChars cs ++ ['"']) p.1)), p.2) =
                  some ((consAll ((escCharMap c ++ escChars cs) ++ ['"']) p.1), p.2)
                rw [hm]
                rfl

/-- The field-block scanner through a whole quoted key. -/
theorem sfSM_quoted (d : Char) (hd : d ≠ '"') (s : List Char) (r : List Char) :
    splitFieldsSM d false false (quoteWrap s ++ r) =
      (fun p => (consAll (quoteWrap s) p.1, p.2)) <$> splitFieldsSM d false false r := by
  show splitFieldsSM d false false ('"' :: ((escChars s ++ ['"']) ++ r)) = _
  rw [List.append_assoc]
  show splitFieldsSM d false false ('"' :: (escChars s ++ '"' :: r)) = _
  rw [show splitFieldsSM d false false ('"' :: (escChars s ++ '"' :: r)) =
    (if '"' = '\x7d' then some ([[]], escChars s ++ '"' :: r)
     else if '"' = d then (fun p => ([] :: p.1, p.2)) <$>
       splitFieldsSM d false false (escChars s ++ '"' :: r)
     else if '"' = '"' then (fun p => (consCur '"' p.1, p.2)) <$>
       splitFieldsSM d true false (escChars s ++ '"' :: r)
     else (fun p => (consCur '"' p.1, p.2)) <$>
       splitFieldsSM d false false (escChars s ++ '"' :: r)) from rfl]
  rw [if_neg (by decide), if_neg (fun he => hd he.symm), if_pos rfl, sfSM_inq d s r]
  cases h : splitFieldsSM d false false r with
  | none => rfl
  | some p => rfl

/-- Head of an append with a nonempty left part. -/
theorem head_append_of_cons (c : Char) (t r : List Char) :
    ((c :: t) ++ r).head? = some c := rfl

/-- Key characters are never delimiter characters. -/
theorem delim_not_kChar (d : Delim) : kChar d.char = false := by
  cases d <;> decide

/-- The field-block scanner through an emitted key cell. -/
theorem sfSM_encodeKey (d : Delim) (k : String) (r : List Char) :
    splitFieldsSM d.char false false (encodeKey k ++ r) =
      (fun p => (consAll (encodeKey k) p.1, p.2)) <$> splitFieldsSM d.char false false r := by
  unfold encodeKey
  by_cases hb : bareKeyOk k.toList = true
  · rw [if_pos hb]
    have hall := bareKeyOk_all k.toList hb
    exact sfSM_bare d.char k.toList
      (not_contains_of_all _ kChar hall '"' (by decide))
      (not_contains_of_all _ kChar hall d.char (delim_not_kChar d))
      (not_contains_of_all _ kChar hall '\x7d' (by decide)) r
  · rw [if_neg hb]
    exact sfSM_quoted d.char (delim_ne_quote d) k.toList r

/-- The field-block scanner recovers exactly the emitted key cells. -/
theorem sfSM_keysTxt (d : Delim) : ∀ (fs : List String), fs ≠ [] → ∀ (r : List Char),
    splitFieldsSM d.char false false (keysTxt d.char fs ++ '\x7d' :: r) =
      some (fs.map encodeKey, r) := by
  intro fs
  induction fs with
  | nil => intro h _; exact absurd rfl h
  | cons k ks ih =>
    intro _ r
    cases ks with
    | nil =>
      show splitFieldsSM d.char false false (encodeKey k ++ '\x7d' :: r) = _
      rw [sfSM_encodeKey]
      rw [show splitFieldsSM d.char false false ('\x7d' :: r) = some ([[]], r) from rfl]
      show some (consAll (encodeKey k) [[]], r) = _
      rw [show ([[]] : List (List Char)) = [] :: [] from rfl, consAll_cons, List.append_nil]
      rfl
    | cons k2 ks2 =>
      show splitFieldsSM d.char false false
        ((encodeKey k ++ d.char :: keysTxt d.char (k2 :: ks2)) ++ '\x7d' :: r) = _
      rw [List.append_assoc, sfSM_encodeKey]
      rw [show (d.char :: keysTxt d.char (k2 :: ks2)) ++ '\x7d' :: r =
        d.char :: (keysTxt d.char (k2 :: ks2) ++ '\x7d' :: r) from rfl]
      rw [show splitFieldsSM d.char false false
          (d.char :: (keysTxt d.char (k2 :: ks2) ++ '\x7d' :: r)) =
        (if d.char = '\x7d' then some ([[]], keysTxt d.char (k2 :: ks2) ++ '\x7d' :: r)
         else if d.char = d.char then (fun p => ([] :: p.1, p.2)) <$>
           splitFieldsSM d.char false false (keysTxt d.char (k2 :: ks2) ++ '\x7d' :: r)
         else if d.char = '"' then (fun p => (consCur d.char p.1, p.2)) <$>
           splitFieldsSM d.char true false (keysTxt d.char (k2 :: ks2) ++ '\x7d' :: r)
         else (fun p => (consCur d.char p.1, p.2)) <$>
           splitFieldsSM d.char false false (keysTxt d.char (k2 :: ks2) ++ '\x7d' :: r))
        from rfl]
      rw [if_neg (by cases d <;> decide), if_pos rfl]
      rw [ih (by intro hx; exact List.noConfusion hx) r]
      show some (consAll (encodeKey k) ([] :: (k2 :: ks2).map encodeKey), r) = _
      rw [consAll_cons, List.append_nil]
      rfl

/-- The emitted key cells parse back to the emitted keys. -/
theorem parseKeys_map : ∀ (fs : List String), parseKeys (fs.map encodeKey) = .ok fs := by
  intro fs
  induction fs with
  | nil => rfl
  | cons k ks ih =>
    show parseKeys (encodeKey k :: ks.map encodeKey) = _
    rw [show parseKeys (encodeKey k :: ks.map encodeKey) =
      (match parseCellKey (encodeKey k), parseKeys (ks.map encodeKey) with
       | .error e, _ => .error e
       | _, .error e => .error e
       | .ok k, .ok ks => .ok (k :: ks)) from rfl]
    rw [parseCellKey_encodeKey, ih]

/-- The bracket lexer recovers count and delimiter from an emitted header. -/
theorem parseBracketCore_enc (n : Nat) (d : Delim) (r : List Char) :
    parseBracketCore (natDigits n ++
      ((if d = .comma then [] else [d.char]) ++ ']' :: r)) = some (n, d, r) := by
  have hall := natDigits_all_digits n
  have hspan1 : ∀ (c : Char) (rr : List Char), c.isDigit = false →
      spanDigits (natDigits n ++ c :: rr) = (natDigits n, c :: rr) := by
    intro c rr hc
    unfold spanDigits
    rw [takeWhile_app Char.isDigit (natDigits n) c rr hall hc,
      dropWhile_app Char.isDigit (natDigits n) c rr hall hc]
  cases d with
  | comma =>
    rw [show ((if Delim.comma = Delim.comma then ([] : List Char) else [Delim.char .comma]) ++
      ']' :: r) = ']' :: r from rfl]
    unfold parseBracketCore
    simp only []
    rw [hspan1 ']' r (by decide)]
    rw [show (natDigits n, ']' :: r).1 = natDigits n from rfl]
    rw [if_neg (by simpa using natDigits_ne_nil n)]
    rw [show (natDigits n, ']' :: r).2 = ']' :: r from rfl]
    rw [digitsToNat_natDigits]
    rfl
  | tab =>
    rw [show ((if Delim.tab = Delim.comma then ([] : List Char) else [Delim.char .tab]) ++
      ']' :: r) = '\t' :: ']' :: r from rfl]
    unfold parseBracketCore
    simp only []
    rw [hspan1 '\t' (']' :: r) (by decide)]
    rw [show (natDigits n, '\t' :: ']' :: r).1 = natDigits n from rfl]
    rw [if_neg (by simpa using natDigits_ne_nil n)]
    rw [show (natDigits n, '\t' :: ']' :: r).2 = '\t' :: ']' :: r from rfl]
    rw [digitsToNat_natDigits]
    rfl
  | pipe =>
    rw [show ((if Delim.pipe = Delim.comma then ([] : List Char) else [Delim.char .pipe]) ++
      ']' :: r) = '|' :: ']' :: r from rfl]
    unfold parseBracketCore
    simp only []
    rw [hspan1 '|' (']' :: r) (by decide)]
    rw [show (natDigits n, '|' :: ']' :: r).1 = natDigits n from rfl]
    rw [if_neg (by simpa using natDigits_ne_nil n)]
    rw [show (natDigits n, '|' :: ']' :: r).2 = '|' :: ']' :: r from rfl]
    rw [digitsToNat_natDigits]
    rfl

/-- The bracket-onward part of an emitted header line, in parse-friendly
association. -/
def mkHeaderTail (n : Nat) (d : Delim) (fields : Option (List String))
    (tail : Option (List Char)) : List Char :=
  '[' :: (natDigits n ++ ((if d = .comma then [] else [d.char]) ++
    (']' :: ((match fields with
      | some fs => '\x7b' :: keysTxt d.char fs ++ ['\x7d']
      | none => []) ++
      ':' :: (match tail with | some t => ' ' :: t | none => [])))))

/-- The emitted header splits into its key and its bracket tail. -/
theorem mkHeader_eq (k : Option String) (n : Nat) (d : Delim)
    (fields : Option (List String)) (tail : Option (List Char)) :
    mkHeader k n d fields tail =
      (match k with | some k => encodeKey k | none => []) ++ mkHeaderTail n d fields tail := by
  unfold mkHeader mkHeaderTail
  simp only [List.append_assoc, List.cons_append]

/-- Continuing a content line after its key over an emitted bracket tail
recovers the header data exactly. -/
theorem parseAfterKey_header (key : Option String) (n : Nat) (d : Delim)
    (fields : Option (List String)) (tail : Option (List Char))
    (hfs : ∀ fs, fields = some fs → fs ≠ []) :
    parseAfterKey key (mkHeaderTail n d fields tail) =
      .ok ⟨key, some ⟨n, d, fields⟩, tail⟩ := by
  show parseAfterKey key ('[' :: (natDigits n ++ _)) = _
  rw [show ∀ (x : List Char), parseAfterKey key ('[' :: x) =
    (match parseBracket x with
     | some (n, d, r2) =>
       match r2 with
       | '\x7b' :: r3 =>
         match splitFieldsSM d.char false false r3 with
         | some (fcells, r4) =>
           (match parseKeys fcells with
            | .error e => .error e
            | .ok fs =>
              match r4 with
              | ':' :: t => .ok ⟨key, some ⟨n, d, some fs⟩, parseTailOpt t⟩
              | _ => .error .missingColon)
         | none => .error .unterminatedString
       | ':' :: t => .ok ⟨key, some ⟨n, d, none⟩, parseTailOpt t⟩
       | _ => .error .missingColon
     | none => fallbackKey key ('[' :: x)) from fun x => rfl]
  rw [parseBracket_noHash _ ?_]
  · rw [parseBracketCore_enc n d]
    cases fields with
    | some fs =>
      simp only []
      rw [List.append_assoc]
      rw [show (['\x7d'] ++ ':' :: (match tail with | some t => ' ' :: t | none => [])) =
        '\x7d' :: ':' :: (match tail with | some t => ' ' :: t | none => []) from rfl]
      show (match splitFieldsSM d.char false false (keysTxt d.char fs ++ '\x7d' :: ':' ::
          (match tail with | some t => ' ' :: t | none => [])) with
        | some (fcells, r4) =>
          (match parseKeys fcells with
           | Except.error e => Except.error e
           | Except.ok fs2 =>
             (match r4 with
              | ':' :: t => Except.ok
                  (FieldLine.mk key (some (HeaderInfo.mk n d (some fs2))) (parseTailOpt t))
              | x => Except.error Err.missingColon))
        | none => (Except.error Err.unterminatedString : Except Err FieldLine)) =
        Except.ok (FieldLine.mk key (some (HeaderInfo.mk n d (some fs))) tail)
      rw [sfSM_keysTxt d fs (hfs fs rfl)]
      show (match parseKeys (fs.map encodeKey) with
         | Except.error e => Except.error e
         | Except.ok fs2 =>
           (match (':' :: (match tail with | some t => ' ' :: t | none => []) : List Char) with
            | ':' :: t => Except.ok
                (FieldLine.mk key (some (HeaderInfo.mk n d (some fs2))) (parseTailOpt t))
            | x => Except.error Err.missingColon)) =
        Except.ok (FieldLine.mk key (some (HeaderInfo.mk n d (some fs))) tail)
      rw [parseKeys_map]
      cases tail with
      | some t => rfl
      | none => rfl
    | none =>
      cases tail with
      | some t => rfl
      | none => rfl
  · obtain ⟨c, hh, hd⟩ := natDigits_append_head n _
    rw [hh]
    intro hx
    injection hx with hx
    exact absurd hx (isDigit_ne hd '#' (by decide))

/-- Key characters survive the key-scan predicate. -/
theorem kChar_scanP (cs : List Char) (h : cs.all kChar = true) :
    cs.all (fun c => !(c = ':') && !(c = '[')) = true := by
  rw [List.all_eq_true] at h ⊢
  intro c hc
  have hk := h c hc
  simp only [Bool.and_eq_true, Bool.not_eq_true', decide_eq_false_iff_not]
  constructor
  · intro he
    rw [he] at hk
    exact absurd hk (by decide)
  · intro he
    rw [he] at hk
    exact absurd hk (by decide)

/-- Parsing the anatomy of a line made of an emitted key and its continuation. -/
theorem parseFieldLine_keyed (k : String) (c0 : Char) (rr : List Char)
    (hc0 : c0 = ':' ∨ c0 = '[') :
    parseFieldLine (encodeKey k ++ c0 :: rr) = parseAfterKey (some k) (c0 :: rr) := by
  have hP : (fun c => !(c = ':') && !(c = '[')) c0 = false := by
    rcases hc0 with h | h <;> rw [h] <;> rfl
  unfold encodeKey
  by_cases hb : bareKeyOk k.toList = true
  · rw [if_pos hb]
    have hhead := bareKey_head k.toList hb
    have hall := kChar_scanP k.toList (bareKeyOk_all k.toList hb)
    rw [parseFieldLine_other (k.toList ++ c0 :: rr) ?_ ?_]
    · rw [takeWhile_app _ k.toList c0 rr hall hP,
        dropWhile_app _ k.toList c0 rr hall hP, strMk_toList]
    · intro hx
      cases he : k.toList with
      | nil =>
        rw [he] at hb
        simp [bareKeyOk] at hb
      | cons a t =>
        rw [he] at hx hhead
        exact hhead.1 hx
    · intro hx
      cases he : k.toList with
      | nil =>
        rw [he] at hb
        simp [bareKeyOk] at hb
      | cons a t =>
        rw [he] at hx hhead
        exact hhead.2 hx
  · rw [if_neg hb]
    show parseFieldLine ('"' :: ((escChars k.toList ++ ['"']) ++ c0 :: rr)) = _
    rw [List.append_assoc]
    show parseFieldLine ('"' :: (escChars k.toList ++ '"' :: (c0 :: rr))) = _
    rw [show parseFieldLine ('"' :: (escChars k.toList ++ '"' :: (c0 :: rr))) =
      (match unquote (escChars k.toList ++ '"' :: (c0 :: rr)) with
       | .error e => .error e
       | .ok (k2, rest) => parseAfterKey (some (String.mk k2)) rest) from rfl]
    rw [unquote_escChars]
    rw [show (match (Except.ok (k.toList, c0 :: rr) : Except Err (List Char × List Char)) with
       | .error e => (.error e : Except Err FieldLine)
       | .ok (k2, rest) => parseAfterKey (some (String.mk k2)) rest) =
      parseAfterKey (some (String.mk k.toList)) (c0 :: rr) from rfl]
    rw [strMk_toList]

/-- `parseFieldLine` over an emitted key, head-form hypothesis. -/
theorem parseFieldLine_keyed2 (k : String) (rest : List Char)
    (h : rest.head? = some ':' ∨ rest.head? = some '[') :
    parseFieldLine (encodeKey k ++ rest) = parseAfterKey (some k) rest := by
  cases rest with
  | nil => rcases h with h | h <;> cases h
  | cons c0 rr =>
    refine parseFieldLine_keyed k c0 rr ?_
    rcases h with h | h
    · refine Or.inl ?_
      injection h
    · refine Or.inr ?_
      injection h

/-- The anatomy of an emitted keyed header line. -/
theorem parseFieldLine_header_some (k : String) (n : Nat) (d : Delim)
    (fields : Option (List String)) (tail : Option (List Char))
    (hfs : ∀ fs, fields = some fs → fs ≠ []) :
    parseFieldLine (mkHeader (some k) n d fields tail) =
      .ok ⟨some k, some ⟨n, d, fields⟩, tail⟩ := by
  rw [mkHeader_eq]
  show parseFieldLine (encodeKey k ++ mkHeaderTail n d fields tail) = _
  rw [parseFieldLine_keyed2 k (mkHeaderTail n d fields tail) (Or.inr rfl)]
  exact parseAfterKey_header (some k) n d fields tail hfs

/-- The anatomy of an emitted keyless header line. -/
theorem parseFieldLine_header_none (n : Nat) (d : Delim)
    (fields : Option (List String)) (tail : Option (List Char))
    (hfs : ∀ fs, fields = some fs → fs ≠ []) :
    parseFieldLine (mkHeader none n d fields tail) =
      .ok ⟨none, some ⟨n, d, fields⟩, tail⟩ := by
  rw [mkHeader_eq]
  show parseFieldLine (mkHeaderTail n d fields tail) = _
  rw [show parseFieldLine (mkHeaderTail n d fields tail) =
    parseAfterKey none (mkHeaderTail n d fields tail) from rfl]
  exact parseAfterKey_header none n d fields tail hfs

/-- The anatomy of an emitted primitive field line. -/
theorem parseFieldLine_prim (k : String) (scalar : List Char) :
    parseFieldLine (encodeKey k ++ ':' :: ' ' :: scalar) =
      .ok ⟨some k, none, some scalar⟩ := by
  rw [parseFieldLine_keyed k ':' (' ' :: scalar) (Or.inl rfl)]
  rfl

/-- The anatomy of an emitted nested-object key line. -/
theorem parseFieldLine_objkey (k : String) :
    parseFieldLine (encodeKey k ++ [':']) = .ok ⟨some k, none, none⟩ := by
  rw [show encodeKey k ++ [':'] = encodeKey k ++ ':' :: [] from rfl]
  rw [parseFieldLine_keyed k ':' [] (Or.inl rfl)]
  rfl

/-! ## Round-trip domain: values whose default-options encoding reads back -/

/-- The string side-condition for array elements: a bare-emitted string must
not start with `[`, which the item parser would read as an array header. -/
def strItemOk : Value → Bool
  | .str s => !(decide (s.toList.head? = some '[')) || needsQuotes s.toList ',' false
  | _ => true

mutual

/-- Default-options round-trippable value: floats must not be integral (the
encoder renders those without a decimal point, so they read back as integers),
and container contents must be round-trippable in their position. -/
def tripV : Value → Bool
  | .null => true
  | .bool _ => true
  | .int _ => true
  | .float f => !f.isIntegral
  | .str _ => true
  | .arr l => tripVL l
  | .obj fl => tripFN fl

/-- Round-trippable array elements. -/
def tripVL : VList → Bool
  | .nil => true
  | .cons v tl => strItemOk v && tripV v && tripVL tl

/-- Round-trippable fields of a nested (non-root) object: array values are
excluded because the encoder's extra indent (see C3) breaks their geometry. -/
def tripFN : FList → Bool
  | .fnil => true
  | .fcons _ v tl =>
    (match v with | .arr _ => false | _ => true) && tripV v && tripFN tl

end

/-- Round-trippable as one array element. -/
def tripItem (v : Value) : Bool := strItemOk v && tripV v

/-- Round-trippable fields of the root object (arrays allowed there: the
extra indent does not apply at column 0). -/
def tripFR : FList → Bool
  | .fnil => true
  | .fcons _ v tl => tripV v && tripFR tl

/-- Round-trippable document root: an empty root object encodes as the empty
document, which decodes to `null`, so it is excluded. -/
def Trippable : Value → Bool
  | .obj .fnil => false
  | .obj fl => tripFR fl
  | .float f => !f.isIntegral
  | .arr l => tripVL l
  | _ => true

/-- The float side-condition that scalar decoding needs, elementwise. -/
def VList.goodPrims : VList → Bool
  | .nil => true
  | .cons v tl => (match v with | .float f => !f.isIntegral | _ => true) && tl.goodPrims

/-- Values of a field list, in order. -/
def FList.vals : FList → VList
  | .fnil => .nil
  | .fcons _ v tl => .cons v tl.vals

/-- Append two field lists. -/
def fappend : FList → FList → FList
  | .fnil, g => g
  | .fcons k v tl, g => .fcons k v (fappend tl g)

/-- Appending no fields is the identity. -/
theorem fappend_fnil : ∀ (fl : FList), fappend fl .fnil = fl
  | .fnil => rfl
  | .fcons k v tl => by
    show FList.fcons k v (fappend tl .fnil) = _
    rw [fappend_fnil tl]

/-- Destructuring a trippable element list. -/
theorem tripVL_cons (v : Value) (tl : VList) (h : tripVL (.cons v tl) = true) :
    strItemOk v = true ∧ tripV v = true ∧ tripVL tl = true := by
  rw [show tripVL (.cons v tl) = (strItemOk v && tripV v && tripVL tl) from rfl] at h
  simp only [Bool.and_eq_true] at h
  exact ⟨h.1.1, h.1.2, h.2⟩

/-- Destructuring trippable nested-object fields. -/
theorem tripFN_cons (k : String) (v : Value) (tl : FList)
    (h : tripFN (.fcons k v tl) = true) :
    tripV v = true ∧ tripFN tl = true ∧ ∀ l2, v ≠ .arr l2 := by
  cases v with
  | arr l2 =>
    rw [show tripFN (.fcons k (.arr l2) tl) =
      (false && tripV (.arr l2) && tripFN tl) from rfl] at h
    simp at h
  | null =>
    rw [show tripFN (.fcons k .null tl) = (true && tripV .null && tripFN tl) from rfl] at h
    simp only [Bool.true_and, Bool.and_eq_true] at h
    exact ⟨h.1, h.2, fun l2 hx => Value.noConfusion hx⟩
  | bool b =>
    rw [show tripFN (.fcons k (.bool b) tl) =
      (true && tripV (.bool b) && tripFN tl) from rfl] at h
    simp only [Bool.true_and, Bool.and_eq_true] at h
    exact ⟨h.1, h.2, fun l2 hx => Value.noConfusion hx⟩
  | int n =>
    rw [show tripFN (.fcons k (.int n) tl) =
      (true && tripV (.int n) && tripFN tl) from rfl] at h
    simp only [Bool.true_and, Bool.and_eq_true] at h
    exact ⟨h.1, h.2, fun l2 hx => Value.noConfusion hx⟩
  | float f =>
    rw [show tripFN (.fcons k (.float f) tl) =
      (true && tripV (.float f) && tripFN tl) from rfl] at h
    simp only [Bool.true_and, Bool.and_eq_true] at h
    exact ⟨h.1, h.2, fun l2 hx => Value.noConfusion hx⟩
  | str ss =>
    rw [show tripFN (.fcons k (.str ss) tl) =
      (true && tripV (.str ss) && tripFN tl) from rfl] at h
    simp only [Bool.true_and, Bool.and_eq_true] at h
    exact ⟨h.1, h.2, fun l2 hx => Value.noConfusion hx⟩
  | obj fl2 =>
    rw [show tripFN (.fcons k (.obj fl2) tl) =
      (true && tripV (.obj fl2) && tripFN tl) from rfl] at h
    simp only [Bool.true_and, Bool.and_eq_true] at h
    exact ⟨h.1, h.2, fun l2 hx => Value.noConfusion hx⟩

/-- Destructuring trippable root-object fields. -/
theorem tripFR_cons (k : String) (v : Value) (tl : FList)
    (h : tripFR (.fcons k v tl) = true) : tripV v = true ∧ tripFR tl = true := by
  rw [show tripFR (.fcons k v tl) = (tripV v && tripFR tl) from rfl] at h
  exact Bool.and_eq_true_iff.mp h

/-- Element conditions extracted from a trippable element. -/
theorem tripItem_float (v : Value) (h : tripV v = true) :
    ∀ f, v = .float f → f.isIntegral = false := by
  intro f hv
  subst hv
  simpa [tripV] using h

/-- Trippable elements satisfy the float side-condition. -/
theorem tripVL_goodPrims : ∀ (l : VList), tripVL l = true → l.goodPrims = true
  | .nil, _ => rfl
  | .cons v tl, h => by
    obtain ⟨hs, hv, htl⟩ := tripVL_cons v tl h
    have ih := tripVL_goodPrims tl htl
    cases v with
    | float f =>
      show (!f.isIntegral && tl.goodPrims) = true
      rw [Bool.and_eq_true]
      exact ⟨by simpa [tripV] using hv, ih⟩
    | null => show (true && tl.goodPrims) = true; simpa using ih
    | bool b => show (true && tl.goodPrims) = true; simpa using ih
    | int n => show (true && tl.goodPrims) = true; simpa using ih
    | str ss => show (true && tl.goodPrims) = true; simpa using ih
    | arr l2 => show (true && tl.goodPrims) = true; simpa using ih
    | obj fl => show (true && tl.goodPrims) = true; simpa using ih

/-- Trippable nested fields give the float side-condition on their values. -/
theorem tripFN_goodPrims : ∀ (fl : FList), tripFN fl = true → fl.vals.goodPrims = true
  | .fnil, _ => rfl
  | .fcons k v tl, h => by
    obtain ⟨hv, htl, _⟩ := tripFN_cons k v tl h
    have ih := tripFN_goodPrims tl htl
    show VList.goodPrims (.cons v tl.vals) = true
    cases v with
    | float f =>
      show (!f.isIntegral && tl.vals.goodPrims) = true
      rw [Bool.and_eq_true]
      exact ⟨by simpa [tripV] using hv, ih⟩
    | null => show (true && tl.vals.goodPrims) = true; simpa using ih
    | bool b => show (true && tl.vals.goodPrims) = true; simpa using ih
    | int n => show (true && tl.vals.goodPrims) = true; simpa using ih
    | str ss => show (true && tl.vals.goodPrims) = true; simpa using ih
    | arr l2 => show (true && tl.vals.goodPrims) = true; simpa using ih
    | obj fl2 => show (true && tl.vals.goodPrims) = true; simpa using ih

/-- An append avoiding `x` on both sides avoids `x`. -/
theorem contains_append_false (a b : List Char) (x : Char) (h1 : a.contains x = false)
    (h2 : b.contains x = false) : (a ++ b).contains x = false := by
  cases hc : (a ++ b).contains x with
  | false => rfl
  | true =>
    have hm : x ∈ a ++ b := by simpa using hc
    rw [List.mem_append] at hm
    cases hm with
    | inl hm =>
      have : a.contains x = true := by simpa using hm
      rw [this] at h1
      cases h1
    | inr hm =>
      have : b.contains x = true := by simpa using hm
      rw [this] at h2
      cases h2

/-- A cons avoiding `x` in head and tail avoids `x`. -/
theorem contains_cons_false_intro (c x : Char) (r : List Char) (h1 : c ≠ x)
    (h2 : r.contains x = false) : (c :: r).contains x = false := by
  cases hc : (c :: r).contains x with
  | false => rfl
  | true =>
    have hm : x ∈ c :: r := by simpa using hc
    rcases List.mem_cons.mp hm with hm | hm
    · exact absurd hm.symm h1
    · have : r.contains x = true := by simpa using hm
      rw [this] at h2
      cases h2

/-- Escaped text never contains a raw newline. -/
theorem escChars_no_nl : ∀ (s : List Char), (escChars s).contains '\n' = false := by
  intro s
  induction s with
  | nil => rfl
  | cons c cs ih =>
    show (escCharMap c ++ escChars cs).contains '\n' = false
    refine contains_append_false _ _ _ ?_ ih
    unfold escCharMap
    by_cases h1 : c = '\\'
    · rw [if_pos h1]; rfl
    · rw [if_neg h1]
      by_cases h2 : c = '"'
      · rw [if_pos h2]; rfl
      · rw [if_neg h2]
        by_cases h3 : c = '\n'
        · rw [if_pos h3]; rfl
        · rw [if_neg h3]
          by_cases h4 : c = '\r'
          · rw [if_pos h4]; rfl
          · rw [if_neg h4]
            by_cases h5 : c = '\t'
            · rw [if_pos h5]; rfl
            · rw [if_neg h5]
              cases hx : ([c] : List Char).contains '\n' with
              | false => rfl
              | true =>
                have : '\n' ∈ [c] := by simpa using hx
                simp at this
                exact absurd this.symm h3

/-- Rendered scalar text is a well-formed line content. -/
theorem goodTxt_scalar (d : Char) (root : Bool) (v : Value) (hp : v.isPrim = true) :
    goodTxt (scalarTxt d root v) = true := by
  have hnum : ∀ (cs : List Char), cs ≠ [] → cs.all numChar = true → goodTxt cs = true := by
    intro cs hne hall
    cases cs with
    | nil => exact absurd rfl hne
    | cons c r =>
      rw [List.all_cons, Bool.and_eq_true] at hall
      show (!(c = ' ') && !(c = '\t') && !(c :: r).contains '\n') = true
      rw [not_contains_of_all _ numChar (by rw [List.all_cons]; simp [hall.1, hall.2])
        '\n' (by decide)]
      have h1 : c ≠ ' ' := by
        intro he
        rw [he] at hall
        exact absurd hall.1 (by decide)
      have h2 : c ≠ '\t' := by
        intro he
        rw [he] at hall
        exact absurd hall.1 (by decide)
      simp [h1, h2]
  cases v with
  | null => rfl
  | bool b => cases b <;> rfl
  | int n =>
    refine hnum _ ?_ (renderInt_all n)
    show renderInt n ≠ []
    unfold renderInt
    by_cases h : n < 0
    · rw [if_pos h]; simp
    · rw [if_neg h]; simpa using natDigits_ne_nil n.natAbs
  | float f =>
    refine hnum _ ?_ (renderFloat_all f)
    show renderFloat f ≠ []
    unfold renderFloat
    split
    · simp only []
      intro hx
      exact natDigits_ne_nil _ (List.append_eq_nil.mp hx).2
    · simp only []
      intro hx
      exact List.noConfusion (List.append_eq_nil.mp hx).2
  | str s =>
    show goodTxt (encodeStr s d root) = true
    unfold encodeStr
    cases hq : needsQuotes s.toList d root with
    | true =>
      simp only [if_true]
      show goodTxt ('"' :: (escChars s.toList ++ ['"'])) = true
      show (!(('"' : Char) = ' ') && !(('"' : Char) = '\t') &&
        !('"' :: (escChars s.toList ++ ['"'])).contains '\n') = true
      rw [contains_cons_false_intro '"' '\n' _ (by decide)
        (contains_append_false _ _ _ (escChars_no_nl _) (by decide))]
      rfl
    | false =>
      simp only [Bool.false_eq_true, if_false]
      have htr : quoteTrigger s.toList d = false := by
        unfold needsQuotes at hq
        simp only [Bool.or_eq_false_iff] at hq
        exact hq.1
      unfold quoteTrigger at htr
      simp only [Bool.or_eq_false_iff] at htr
      have hniE : s.toList.isEmpty = false := htr.1.1.1.1.1.1.1.1.1.1.1.1.1
      have hnHead := htr.1.1.1.1.1.1.1.1.1.1.1.1.2
      have hnCtl : s.toList.any isCtl = false := htr.1.2
      cases he : s.toList with
      | nil =>
        rw [he] at hniE
        exact absurd hniE (by decide)
      | cons c r =>
        rw [he] at hnHead hnCtl
        show (!(c = ' ') && !(c = '\t') && !(c :: r).contains '\n') = true
        have hws : isWsA c = false := by
          rw [show (c :: r).head? = some c from rfl] at hnHead
          exact hnHead
        unfold isWsA at hws
        simp only [Bool.or_eq_false_iff, decide_eq_false_iff_not] at hws
        have hnl : (c :: r).contains '\n' = false := by
          refine not_contains_of_all _ (fun x => !isCtl x) ?_ '\n' (by decide)
          rw [List.all_eq_true]
          intro x hx
          rw [Bool.not_eq_true']
          cases hcx : isCtl x with
          | false => rfl
          | true =>
            have : (c :: r).any isCtl = true := by
              rw [List.any_eq_true]
              exact ⟨x, hx, hcx⟩
            rw [this] at hnCtl
            exact absurd hnCtl (by decide)
        rw [hnl]
        simp [hws.1.1.1, hws.1.1.2]
  | arr l => simp [Value.isPrim] at hp
  | obj fl => simp [Value.isPrim] at hp

/-- Well-formed text is nonempty. -/
theorem goodTxt_ne_nil (t : List Char) (h : goodTxt t = true) : t ≠ [] := by
  intro he
  rw [he] at h
  exact absurd h (by decide)

/-- One rendered cell per element. -/
theorem cellsOf_length (d : Char) : ∀ (l : VList), (cellsOf d l).length = l.length
  | .nil => rfl
  | .cons v tl => by
    show (cellsOf d tl).length + 1 = 1 + tl.length
    rw [cellsOf_length d tl, Nat.add_comm]

/-- The rendered cells of a good primitive list parse back elementwise. -/
theorem parseCells_cellsOf (d : Char) : ∀ (l : VList), l.allPrim = true →
    l.goodPrims = true → parseCells (cellsOf d l) = .ok l
  | .nil, _, _ => rfl
  | .cons v tl, hp, hg => by
    have hp2 : v.isPrim = true ∧ tl.allPrim = true := by
      rw [show VList.allPrim (.cons v tl) = (v.isPrim && tl.allPrim) from rfl] at hp
      exact Bool.and_eq_true_iff.mp hp
    have hg2tl : tl.goodPrims = true := by
      cases v <;> exact (Bool.and_eq_true_iff.mp hg).2
    have hg2f : ∀ f, v = .float f → f.isIntegral = false := by
      intro f hf
      subst hf
      have := (Bool.and_eq_true_iff.mp hg).1
      simpa using this
    show parseCells (scalarTxt d false v :: cellsOf d tl) = _
    rw [show parseCells (scalarTxt d false v :: cellsOf d tl) =
      (match parseCellValue (scalarTxt d false v), parseCells (cellsOf d tl) with
       | .error e, _ => .error e
       | _, .error e => .error e
       | .ok v, .ok vs => .ok (.cons v vs)) from rfl]
    rw [parseCellValue_scalarTxt d v hp2.1 hg2f, parseCells_cellsOf d tl hp2.2 hg2tl]

/-- The values of a field list, one per key. -/
theorem vals_length : ∀ (fl : FList), fl.vals.length = fl.keys.length
  | .fnil => rfl
  | .fcons k v tl => by
    show 1 + tl.vals.length = (k :: tl.keys).length
    rw [vals_length tl]
    simp [Nat.add_comm]

/-- Zipping a field list's keys with its values rebuilds it. -/
theorem zipFields_vals : ∀ (fl : FList), zipFields fl.keys fl.vals = fl
  | .fnil => rfl
  | .fcons k v tl => by
    show FList.fcons k v (zipFields tl.keys tl.vals) = _
    rw [zipFields_vals tl]

/-- All-primitive fields have all-primitive values. -/
theorem vals_allPrim : ∀ (fl : FList), fl.allPrim = true → fl.vals.allPrim = true
  | .fnil, _ => rfl
  | .fcons k v tl, h => by
    rw [show FList.allPrim (.fcons k v tl) = (v.isPrim && tl.allPrim) from rfl,
      Bool.and_eq_true] at h
    show (v.isPrim && tl.vals.allPrim) = true
    rw [h.1, vals_allPrim tl h.2]
    rfl

/-- A field list with keys has values. -/
theorem vals_ne_nil (fl : FList) (h : fl.keys ≠ []) : fl.vals ≠ .nil := by
  cases fl with
  | fnil => exact absurd rfl h
  | fcons k v tl =>
    show VList.cons v tl.vals ≠ .nil
    intro hx
    exact VList.noConfusion hx

/-- The row-cell renderer agrees with the cell renderer on the values. -/
theorem cellsTxtF_eq (d : Char) : ∀ (fl : FList),
    rowLines.cellsTxtF d fl = cellsTxt d fl.vals
  | .fnil => rfl
  | .fcons k v .fnil => rfl
  | .fcons k v (.fcons k2 v2 tl2) => by
    show scalarTxt d false v ++ d :: rowLines.cellsTxtF d (.fcons k2 v2 tl2) =
      cellsTxt d (.cons v (FList.vals (.fcons k2 v2 tl2)))
    rw [cellsTxtF_eq d (.fcons k2 v2 tl2)]
    rfl

/-- An emitted inline array body decodes to exactly its elements. -/
theorem finishInline_enc (d : Delim) (l : VList) (h1 : l.allPrim = true)
    (h2 : l.goodPrims = true) (hne : l ≠ .nil) :
    finishInline true l.length d (cellsTxt d.char l) = .ok (.arr l) := by
  have hcnt : strictCheck true
      (decide ((cellsOf d.char l).length ≠ l.length)) .countMismatch = .ok () := by
    rw [cellsOf_length]
    unfold strictCheck
    simp
  unfold finishInline
  rw [splitCells_cellsTxt d l h1 hne]
  show (match strictCheck true
      (decide ((cellsOf d.char l).length ≠ l.length)) .countMismatch with
    | Except.error e => (Except.error e : Except Err Value)
    | Except.ok a =>
      match parseCells (cellsOf d.char l) with
      | Except.error e => Except.error e
      | Except.ok vs => Except.ok (Value.arr vs)) = Except.ok (Value.arr l)
  rw [hcnt]
  show (match parseCells (cellsOf d.char l) with
    | Except.error e => (Except.error e : Except Err Value)
    | Except.ok vs => Except.ok (Value.arr vs)) = Except.ok (Value.arr l)
  rw [parseCells_cellsOf d.char l h1 h2]

/-- An emitted tabular row decodes to exactly its object. -/
theorem parseRow_enc (d : Delim) (fl : FList) (hp : fl.allPrim = true)
    (hg : fl.vals.goodPrims = true) (hk : fl.keys ≠ []) :
    parseRow true fl.keys d (rowLines.cellsTxtF d.char fl) = .ok (.obj fl) := by
  have hcnt : strictCheck true
      (decide ((cellsOf d.char fl.vals).length ≠ fl.keys.length)) .widthMismatch =
      .ok () := by
    rw [cellsOf_length, vals_length]
    unfold strictCheck
    simp
  unfold parseRow
  rw [cellsTxtF_eq]
  rw [splitCells_cellsTxt d fl.vals (vals_allPrim fl hp) (vals_ne_nil fl hk)]
  show (match strictCheck true
      (decide ((cellsOf d.char fl.vals).length ≠ fl.keys.length)) .widthMismatch with
    | Except.error e => (Except.error e : Except Err Value)
    | Except.ok a =>
      match parseCells (cellsOf d.char fl.vals) with
      | Except.error e => Except.error e
      | Except.ok vs => Except.ok (Value.obj (zipFields fl.keys vs))) =
    Except.ok (Value.obj fl)
  rw [hcnt]
  show (match parseCells (cellsOf d.char fl.vals) with
    | Except.error e => (Except.error e : Except Err Value)
    | Except.ok vs => Except.ok (Value.obj (zipFields fl.keys vs))) =
    Except.ok (Value.obj fl)
  rw [parseCells_cellsOf d.char fl.vals (vals_allPrim fl hp) hg]
  show Except.ok (Value.obj (zipFields fl.keys fl.vals)) = Except.ok (Value.obj fl)
  rw [zipFields_vals fl]

/-- Rendered scalars are nonempty. -/
theorem scalarTxt_ne_nil (d : Char) (root : Bool) (v : Value) (hp : v.isPrim = true) :
    scalarTxt d root v ≠ [] :=
  goodTxt_ne_nil _ (goodTxt_scalar d root v hp)

/-- Rendered cell rows are nonempty. -/
theorem cellsTxt_ne_nil (d : Char) : ∀ (l : VList), l.allPrim = true → l ≠ .nil →
    cellsTxt d l ≠ [] := by
  intro l hp hne
  cases l with
  | nil => exact absurd rfl hne
  | cons v tl =>
    have hv : v.isPrim = true := by
      rw [show VList.allPrim (.cons v tl) = (v.isPrim && tl.allPrim) from rfl,
        Bool.and_eq_true] at hp
      exact hp.1
    cases tl with
    | nil => exact scalarTxt_ne_nil d false v hv
    | cons w tl2 =>
      show scalarTxt d false v ++ d :: cellsTxt d (.cons w tl2) ≠ []
      intro hx
      exact List.noConfusion (List.append_eq_nil.mp hx).2

/-- The emitted rows of a uniform object array decode back row by row. -/
theorem parseRows_enc (d : Delim) (ks : List String) (hks : ks ≠ []) (c : Nat) :
    ∀ (l : VList), l.allRows ks = true → tripVL l = true →
      parseRows true ks d (rowLines d.char c l) = .ok l
  | .nil, _, _ => rfl
  | .cons v tl, hr, ht => by
    obtain ⟨hs, hv, htl⟩ := tripVL_cons v tl ht
    have hr2 : rowMatches ks v = true ∧ tl.allRows ks = true := by
      rw [show VList.allRows ks (.cons v tl) = (rowMatches ks v && tl.allRows ks)
        from rfl, Bool.and_eq_true] at hr
      exact hr
    cases v with
    | obj fl =>
      have hkeq : fl.keys = ks ∧ fl.allPrim = true := by
        have := hr2.1
        rw [show rowMatches ks (.obj fl) = (decide (fl.keys = ks) && fl.allPrim)
          from rfl, Bool.and_eq_true] at this
        exact ⟨by simpa using this.1, this.2⟩
      show parseRows true ks d
        (⟨c, rowLines.cellsTxtF d.char fl⟩ :: rowLines d.char c tl) = _
      have hblank : Line.blank ⟨c, rowLines.cellsTxtF d.char fl⟩ = false := by
        show (rowLines.cellsTxtF d.char fl).isEmpty = false
        rw [cellsTxtF_eq]
        have hne := cellsTxt_ne_nil d.char fl.vals (vals_allPrim fl hkeq.2)
          (vals_ne_nil fl (by rw [hkeq.1]; exact hks))
        cases hc : cellsTxt d.char fl.vals with
        | nil => exact absurd hc hne
        | cons a b => rfl
      rw [show parseRows true ks d
          (⟨c, rowLines.cellsTxtF d.char fl⟩ :: rowLines d.char c tl) =
        (if Line.blank ⟨c, rowLines.cellsTxtF d.char fl⟩ then
          (match strictCheck true true .blankInArray with
           | .error e => .error e
           | .ok _ => parseRows true ks d (rowLines d.char c tl))
         else
          match parseRow true ks d (Line.txt ⟨c, rowLines.cellsTxtF d.char fl⟩),
              parseRows true ks d (rowLines d.char c tl) with
          | .error e, _ => .error e
          | _, .error e => .error e
          | .ok v, .ok tl => .ok (.cons v tl)) from rfl]
      rw [if_neg (by rw [hblank]; exact Bool.false_ne_true)]
      rw [show Line.txt ⟨c, rowLines.cellsTxtF d.char fl⟩ =
        rowLines.cellsTxtF d.char fl from rfl]
      rw [show parseRow true ks d (rowLines.cellsTxtF d.char fl) =
        parseRow true fl.keys d (rowLines.cellsTxtF d.char fl) by rw [hkeq.1]]
      rw [parseRow_enc d fl hkeq.2
        (tripFN_goodPrims fl (by rwa [show tripV (.obj fl) = tripFN fl from rfl] at hv))
        (by rw [hkeq.1]; exact hks)]
      rw [parseRows_enc d ks hks c tl hr2.2 htl]
    | null => simp [show VList.allRows ks (.cons .null tl) =
        (rowMatches ks .null && tl.allRows ks) from rfl, rowMatches] at hr
    | bool b => simp [show VList.allRows ks (.cons (.bool b) tl) =
        (rowMatches ks (.bool b) && tl.allRows ks) from rfl, rowMatches] at hr
    | int n => simp [show VList.allRows ks (.cons (.int n) tl) =
        (rowMatches ks (.int n) && tl.allRows ks) from rfl, rowMatches] at hr
    | float f => simp [show VList.allRows ks (.cons (.float f) tl) =
        (rowMatches ks (.float f) && tl.allRows ks) from rfl, rowMatches] at hr
    | str ss => simp [show VList.allRows ks (.cons (.str ss) tl) =
        (rowMatches ks (.str ss) && tl.allRows ks) from rfl, rowMatches] at hr
    | arr l2 => simp [show VList.allRows ks (.cons (.arr l2) tl) =
        (rowMatches ks (.arr l2) && tl.allRows ks) from rfl, rowMatches] at hr

/-- An emitted tabular body decodes to exactly its array. -/
theorem parseTabular_enc (d : Delim) (ks : List String) (hks : ks ≠ []) (c : Nat)
    (l : VList) (hr : l.allRows ks = true) (ht : tripVL l = true) :
    parseTabular true l.length ks d (rowLines d.char c l) = .ok (.arr l) := by
  unfold parseTabular
  rw [parseRows_enc d ks hks c l hr ht]
  show (match strictCheck true (decide (l.length ≠ l.length)) .countMismatch with
    | Except.error e => (Except.error e : Except Err Value)
    | Except.ok a => Except.ok (Value.arr l)) = Except.ok (Value.arr l)
  rw [show strictCheck true (decide (l.length ≠ l.length)) .countMismatch = .ok () by
    unfold strictCheck
    simp]

/-! ## Round-trip machinery: goodness and geometry of emitted lines -/

/-- Well-formed text has no raw newline. -/
theorem goodTxt_no_nl (t : List Char) (h : goodTxt t = true) :
    t.contains '\n' = false := by
  cases t with
  | nil => rfl
  | cons c r =>
    rw [show goodTxt (c :: r) =
      (!(c = ' ') && !(c = '\t') && !(c :: r).contains '\n') from rfl,
      Bool.and_eq_true] at h
    rw [← Bool.not_eq_true']
    exact h.2

/-- Rendered scalars contain no raw newline. -/
theorem scalarTxt_no_nl (d : Char) (root : Bool) (v : Value) (hp : v.isPrim = true) :
    (scalarTxt d root v).contains '\n' = false :=
  goodTxt_no_nl _ (goodTxt_scalar d root v hp)

/-- Prefixing well-formed text with newline-free text stays well-formed. -/
theorem goodTxt_append (a b : List Char) (ha : goodTxt a = true)
    (hb : b.contains '\n' = false) : goodTxt (a ++ b) = true := by
  cases a with
  | nil => exact absurd ha (by decide)
  | cons c r =>
    rw [show goodTxt (c :: r) =
      (!(c = ' ') && !(c = '\t') && !(c :: r).contains '\n') from rfl,
      Bool.and_eq_true, Bool.and_eq_true] at ha
    show goodTxt (c :: (r ++ b)) = true
    rw [show goodTxt (c :: (r ++ b)) =
      (!(c = ' ') && !(c = '\t') && !(c :: (r ++ b)).contains '\n') from rfl]
    have hrb : (c :: (r ++ b)).contains '\n' = false := by
      have hcr : (c :: r).contains '\n' = false := by
        rw [← Bool.not_eq_true']
        exact ha.2
      obtain ⟨h1, h2⟩ := contains_cons_false c '\n' r hcr
      exact contains_cons_false_intro c '\n' (r ++ b) h1 (contains_append_false r b '\n' h2 hb)
    rw [hrb, ha.1.1, ha.1.2]
    rfl

/-- Emitted keys contain no raw newline. -/
theorem encodeKey_no_nl (k : String) : (encodeKey k).contains '\n' = false := by
  unfold encodeKey
  by_cases hb : bareKeyOk k.toList = true
  · rw [if_pos hb]
    exact not_contains_of_all _ kChar (bareKeyOk_all k.toList hb) '\n' (by decide)
  · rw [if_neg hb]
    show ('"' :: (escChars k.toList ++ ['"'])).contains '\n' = false
    exact contains_cons_false_intro '"' '\n' _ (by decide)
      (contains_append_false _ _ _ (escChars_no_nl _) (by decide))

/-- An emitted key followed by newline-free text is well-formed line content. -/
theorem goodTxt_key (k : String) (rest : List Char) (h : rest.contains '\n' = false) :
    goodTxt (encodeKey k ++ rest) = true := by
  refine goodTxt_append (encodeKey k) rest ?_ h
  unfold encodeKey
  by_cases hb : bareKeyOk k.toList = true
  · rw [if_pos hb]
    have hall := bareKeyOk_all k.toList hb
    cases he : k.toList with
    | nil =>
      rw [he] at hb
      simp [bareKeyOk] at hb
    | cons c r =>
      rw [he] at hall
      rw [List.all_cons, Bool.and_eq_true] at hall
      show (!(c = ' ') && !(c = '\t') && !(c :: r).contains '\n') = true
      have h1 : c ≠ ' ' := by
        intro hx
        rw [hx] at hall
        exact absurd hall.1 (by decide)
      have h2 : c ≠ '\t' := by
        intro hx
        rw [hx] at hall
        exact absurd hall.1 (by decide)
      rw [not_contains_of_all _ kChar (by rw [List.all_cons]; simp [hall.1, hall.2])
        '\n' (by decide)]
      simp [h1, h2]
  · rw [if_neg hb]
    show goodTxt ('"' :: (escChars k.toList ++ ['"'])) = true
    show (!(('"' : Char) = ' ') && !(('"' : Char) = '\t') &&
      !('"' :: (escChars k.toList ++ ['"'])).contains '\n') = true
    rw [contains_cons_false_intro '"' '\n' _ (by decide)
      (contains_append_false _ _ _ (escChars_no_nl _) (by decide))]
    rfl

/-- Rendered cell rows contain no raw newline. -/
theorem cellsTxt_no_nl (d : Delim) : ∀ (l : VList), l.allPrim = true →
    (cellsTxt d.char l).contains '\n' = false
  | .nil, _ => rfl
  | .cons v tl, hp => by
    have hp2 : v.isPrim = true ∧ tl.allPrim = true := by
      rw [show VList.allPrim (.cons v tl) = (v.isPrim && tl.allPrim) from rfl,
        Bool.and_eq_true] at hp
      exact hp
    cases tl with
    | nil => exact scalarTxt_no_nl d.char false v hp2.1
    | cons w tl2 =>
      show (scalarTxt d.char false v ++
        d.char :: cellsTxt d.char (.cons w tl2)).contains '\n' = false
      refine contains_append_false _ _ _ (scalarTxt_no_nl d.char false v hp2.1) ?_
      refine contains_cons_false_intro _ _ _ (by cases d <;> decide) ?_
      exact cellsTxt_no_nl d (.cons w tl2) hp2.2

/-- Emitted key blocks contain no raw newline. -/
theorem keysTxt_no_nl (d : Delim) : ∀ (fs : List String),
    (keysTxt d.char fs).contains '\n' = false
  | [] => rfl
  | [k] => encodeKey_no_nl k
  | k :: k2 :: ks => by
    show (encodeKey k ++ d.char :: keysTxt d.char (k2 :: ks)).contains '\n' = false
    refine contains_append_false _ _ _ (encodeKey_no_nl k) ?_
    refine contains_cons_false_intro _ _ _ (by cases d <;> decide) ?_
    exact keysTxt_no_nl d (k2 :: ks)

/-- The bracket tail of an emitted header contains no raw newline. -/
theorem mkHeaderTail_no_nl (n : Nat) (d : Delim) (fields : Option (List String))
    (tail : Option (List Char)) (ht : ∀ x, tail = some x → x.contains '\n' = false) :
    (mkHeaderTail n d fields tail).contains '\n' = false := by
  unfold mkHeaderTail
  refine contains_cons_false_intro _ _ _ (by decide) ?_
  refine contains_append_false _ _ _
    (not_contains_of_all _ numChar (all_numChar_of_digits _ (natDigits_all_digits n))
      '\n' (by decide)) ?_
  refine contains_append_false _ _ _ ?_ ?_
  · cases hd : decide (d = Delim.comma) with
    | true =>
      simp only [decide_eq_true_eq] at hd
      rw [if_pos hd]
      rfl
    | false =>
      simp only [decide_eq_false_iff_not] at hd
      rw [if_neg hd]
      cases d <;> decide
  · refine contains_cons_false_intro _ _ _ (by decide) ?_
    refine contains_append_false _ _ _ ?_ ?_
    · cases fields with
      | none => rfl
      | some fs =>
        show ('\x7b' :: (keysTxt d.char fs ++ ['\x7d'])).contains '\n' = false
        refine contains_cons_false_intro _ _ _ (by decide) ?_
        exact contains_append_false _ _ _ (keysTxt_no_nl d fs) (by decide)
    · refine contains_cons_false_intro _ _ _ (by decide) ?_
      cases tail with
      | none => rfl
      | some t =>
        show (' ' :: t).contains '\n' = false
        exact contains_cons_false_intro _ _ _ (by decide) (ht t rfl)

/-- Emitted header lines are well-formed line content. -/
theorem goodTxt_mkHeader (k : Option String) (n : Nat) (d : Delim)
    (fields : Option (List String)) (tail : Option (List Char))
    (ht : ∀ x, tail = some x → x.contains '\n' = false) :
    goodTxt (mkHeader k n d fields tail) = true := by
  rw [mkHeader_eq]
  cases k with
  | some k =>
    exact goodTxt_key k _ (mkHeaderTail_no_nl n d fields tail ht)
  | none =>
    show goodTxt (mkHeaderTail n d fields tail) = true
    unfold mkHeaderTail
    show (!(('[' : Char) = ' ') && !(('[' : Char) = '\t') &&
      !(mkHeaderTail n d fields tail).contains '\n') = true
    rw [mkHeaderTail_no_nl n d fields tail ht]
    rfl

/-- A well-formed emitted line for a block based at column `c0`: at least as
deep as `c0`, on the indent grid, with well-formed content. -/
def goodLine (u c0 : Nat) (l : Line) : Bool :=
  decide (c0 ≤ l.col) && decide (l.col % u = 0) && goodTxt l.txt

/-- Pointwise implication between `all` scans. -/
theorem all_imp {p q : Line → Bool} : ∀ (L : List Line),
    (∀ x, p x = true → q x = true) → L.all p = true → L.all q = true := by
  intro L h hall
  rw [List.all_eq_true] at hall ⊢
  intro x hx
  exact h x (hall x hx)

/-- Goodness is monotone in the base column. -/
theorem goodLine_mono (u c0 c1 : Nat) (hc : c0 ≤ c1) (l : Line)
    (h : goodLine u c1 l = true) : goodLine u c0 l = true := by
  unfold goodLine at h ⊢
  simp only [Bool.and_eq_true, decide_eq_true_eq] at h ⊢
  exact ⟨⟨Nat.le_trans hc h.1.1, h.1.2⟩, h.2⟩

/-- Building one good line. -/
theorem goodLine_mk (u c0 c : Nat) (t : List Char) (h1 : c0 ≤ c) (h2 : c % u = 0)
    (h3 : goodTxt t = true) : goodLine u c0 ⟨c, t⟩ = true := by
  unfold goodLine
  simp only [Bool.and_eq_true, decide_eq_true_eq]
  exact ⟨⟨h1, h2⟩, h3⟩

/-- Rendered nonempty cell rows are well-formed line content. -/
theorem goodTxt_cellsTxt (d : Delim) : ∀ (l : VList), l.allPrim = true → l ≠ .nil →
    goodTxt (cellsTxt d.char l) = true := by
  intro l hp hne
  cases l with
  | nil => exact absurd rfl hne
  | cons v tl =>
    have hp2 : v.isPrim = true ∧ tl.allPrim = true := by
      rw [show VList.allPrim (.cons v tl) = (v.isPrim && tl.allPrim) from rfl,
        Bool.and_eq_true] at hp
      exact hp
    cases tl with
    | nil => exact goodTxt_scalar d.char false v hp2.1
    | cons w tl2 =>
      show goodTxt (scalarTxt d.char false v ++ d.char :: cellsTxt d.char (.cons w tl2)) = true
      refine goodTxt_append _ _ (goodTxt_scalar d.char false v hp2.1) ?_
      refine contains_cons_false_intro _ _ _ (by cases d <;> decide) ?_
      exact cellsTxt_no_nl d (.cons w tl2) hp2.2

/-- What a successful tabular-candidate test tells us. -/
theorem tabFields_spec (v : Value) (tl : VList) (fs : List String)
    (h : tabFields? (.cons v tl) = some fs) :
    ∃ fl1, v = .obj fl1 ∧ fs = fl1.keys ∧ fs ≠ [] ∧ fl1.allPrim = true ∧
      (VList.cons v tl).allRows fs = true := by
  cases v with
  | obj fl1 =>
    rw [show tabFields? (.cons (.obj fl1) tl) =
      (if !(fl1.keys).isEmpty && fl1.allPrim && tl.allRows fl1.keys
       then some fl1.keys else none) from rfl] at h
    by_cases hg : (!(fl1.keys).isEmpty && fl1.allPrim && tl.allRows fl1.keys) = true
    · rw [if_pos hg] at h
      injection h with h
      subst h
      simp only [Bool.and_eq_true] at hg
      refine ⟨fl1, rfl, rfl, ?_, hg.1.2, ?_⟩
      · intro hx
        rw [hx] at hg
        exact absurd hg.1.1 (by decide)
      · show (rowMatches fl1.keys (.obj fl1) && tl.allRows fl1.keys) = true
        rw [show rowMatches fl1.keys (.obj fl1) =
          (decide (fl1.keys = fl1.keys) && fl1.allPrim) from rfl]
        simp [hg.1.2, hg.2]
    · rw [if_neg hg] at h
      cases h
  | null => cases h
  | bool b => cases h
  | int n => cases h
  | float f => cases h
  | str s => cases h
  | arr l2 => cases h

/-- Emitted tabular rows are good lines at their own column. -/
theorem rowLines_good (d : Delim) (u : Nat) (ks : List String) (hks : ks ≠ [])
    (c c0 : Nat) (hc : c0 ≤ c) (hcu : c % u = 0) : ∀ (l : VList),
    l.allRows ks = true → (rowLines d.char c l).all (goodLine u c0) = true
  | .nil, _ => rfl
  | .cons v tl, hr => by
    have hr2 : rowMatches ks v = true ∧ tl.allRows ks = true := by
      rw [show VList.allRows ks (.cons v tl) = (rowMatches ks v && tl.allRows ks)
        from rfl, Bool.and_eq_true] at hr
      exact hr
    have ih := rowLines_good d u ks hks c c0 hc hcu tl hr2.2
    cases v with
    | obj fl =>
      have hm : fl.keys = ks ∧ fl.allPrim = true := by
        have := hr2.1
        rw [show rowMatches ks (.obj fl) = (decide (fl.keys = ks) && fl.allPrim)
          from rfl, Bool.and_eq_true] at this
        exact ⟨by simpa using this.1, this.2⟩
      show (⟨c, rowLines.cellsTxtF d.char fl⟩ :: rowLines d.char c tl).all
        (goodLine u c0) = true
      rw [List.all_cons, Bool.and_eq_true]
      refine ⟨goodLine_mk u c0 c _ hc hcu ?_, ih⟩
      rw [cellsTxtF_eq]
      exact goodTxt_cellsTxt d fl.vals (vals_allPrim fl hm.2)
        (vals_ne_nil fl (by rw [hm.1]; exact hks))
    | null => exact ih
    | bool b => exact ih
    | int n => exact ih
    | float f => exact ih
    | str s => exact ih
    | arr l2 => exact ih

/-- The encoder's array output always starts with its header line. -/
theorem encArr_ne_nil (d : Delim) (u : Nat) (k : Option String) (l : VList) (c : Nat) :
    encArr d u k l c ≠ [] := by
  cases l with
  | nil =>
    intro h
    exact List.noConfusion h
  | cons v tl =>
    rw [show encArr d u k (.cons v tl) c =
      (if (VList.cons v tl).allPrim then
        [⟨c, mkHeader k (VList.cons v tl).length d none
          (some (cellsTxt d.char (.cons v tl)))⟩]
      else
        match tabFields? (.cons v tl) with
        | some fs =>
          ⟨c, mkHeader k (VList.cons v tl).length d (some fs) none⟩ ::
            rowLines d.char (c + u) (.cons v tl)
        | none =>
          ⟨c, mkHeader k (VList.cons v tl).length d none none⟩ ::
            (encItem d u v (c + u) ++ encItems d u tl (c + u))) from rfl]
    by_cases hap : (VList.cons v tl).allPrim = true
    · rw [if_pos hap]
      intro h
      exact List.noConfusion h
    · rw [if_neg hap]
      cases htf : tabFields? (.cons v tl) with
      | some fs =>
        intro h
        exact List.noConfusion h
      | none =>
        intro h
        exact List.noConfusion h

/-- The shifted column of an array-valued field stays on the indent grid. -/
theorem arrCol_mod (u c : Nat) (hu : c % u = 0) :
    (if c = 0 then 0 else c + u) % u = 0 := by
  by_cases h0 : c = 0
  · rw [if_pos h0]
    simp
  · rw [if_neg h0, Nat.add_mod_right]
    exact hu

/-- The shifted column of an array-valued field is at least the field column. -/
theorem arrCol_le (u c : Nat) : c ≤ (if c = 0 then 0 else c + u) := by
  by_cases h0 : c = 0
  · rw [if_pos h0, h0]
  · rw [if_neg h0]
    exact Nat.le_add_right c u

mutual

/-- Every line emitted for object fields at column `c` is good for base `c`. -/
theorem encFields_good (d : Delim) (u : Nat) : ∀ (fl : FList) (c : Nat), c % u = 0 →
    (encFields d u fl c).all (goodLine u c) = true
  | .fnil, c, hu => rfl
  | .fcons k v tl, c, hu => by
    cases v with
    | arr vl =>
      show (encArr d u (some k) vl (if c = 0 then 0 else c + u) ++
        encFields d u tl c).all (goodLine u c) = true
      rw [List.all_append, Bool.and_eq_true]
      refine ⟨?_, encFields_good d u tl c hu⟩
      refine all_imp _ (goodLine_mono u c _ (arrCol_le u c)) ?_
      exact encArr_good d u vl (some k) (if c = 0 then 0 else c + u) (arrCol_mod u c hu)
    | obj fl2 =>
      show ((⟨c, encodeKey k ++ [':']⟩ :: encFields d u fl2 (c + u)) ++
        encFields d u tl c).all (goodLine u c) = true
      rw [List.all_append, Bool.and_eq_true]
      refine ⟨?_, encFields_good d u tl c hu⟩
      rw [List.all_cons, Bool.and_eq_true]
      refine ⟨goodLine_mk u c c _ (Nat.le_refl c) hu (goodTxt_key k [':'] (by decide)), ?_⟩
      refine all_imp _ (goodLine_mono u c (c + u) (Nat.le_add_right c u)) ?_
      exact encFields_good d u fl2 (c + u) (by rw [Nat.add_mod_right]; exact hu)
    | null =>
      show (([⟨c, encodeKey k ++ ':' :: ' ' :: scalarTxt d.char false .null⟩] : List Line) ++
        encFields d u tl c).all (goodLine u c) = true
      rw [List.all_append, Bool.and_eq_true]
      refine ⟨?_, encFields_good d u tl c hu⟩
      rw [List.all_cons, Bool.and_eq_true]
      refine ⟨goodLine_mk u c c _ (Nat.le_refl c) hu (goodTxt_key k _ ?_), rfl⟩
      refine contains_cons_false_intro _ _ _ (by decide) ?_
      exact contains_cons_false_intro _ _ _ (by decide)
        (scalarTxt_no_nl d.char false .null rfl)
    | bool b =>
      show (([⟨c, encodeKey k ++ ':' :: ' ' :: scalarTxt d.char false (.bool b)⟩] : List Line) ++
        encFields d u tl c).all (goodLine u c) = true
      rw [List.all_append, Bool.and_eq_true]
      refine ⟨?_, encFields_good d u tl c hu⟩
      rw [List.all_cons, Bool.and_eq_true]
      refine ⟨goodLine_mk u c c _ (Nat.le_refl c) hu (goodTxt_key k _ ?_), rfl⟩
      refine contains_cons_false_intro _ _ _ (by decide) ?_
      exact contains_cons_false_intro _ _ _ (by decide)
        (scalarTxt_no_nl d.char false (.bool b) rfl)
    | int n =>
      show (([⟨c, encodeKey k ++ ':' :: ' ' :: scalarTxt d.char false (.int n)⟩] : List Line) ++
        encFields d u tl c).all (goodLine u c) = true
      rw [List.all_append, Bool.and_eq_true]
      refine ⟨?_, encFields_good d u tl c hu⟩
      rw [List.all_cons, Bool.and_eq_true]
      refine ⟨goodLine_mk u c c _ (Nat.le_refl c) hu (goodTxt_key k _ ?_), rfl⟩
      refine contains_cons_false_intro _ _ _ (by decide) ?_
      exact contains_cons_false_intro _ _ _ (by decide)
        (scalarTxt_no_nl d.char false (.int n) rfl)
    | float f =>
      show (([⟨c, encodeKey k ++ ':' :: ' ' :: scalarTxt d.char false (.float f)⟩] : List Line) ++
        encFields d u tl c).all (goodLine u c) = true
      rw [List.all_append, Bool.and_eq_true]
      refine ⟨?_, encFields_good d u tl c hu⟩
      rw [List.all_cons, Bool.and_eq_true]
      refine ⟨goodLine_mk u c c _ (Nat.le_refl c) hu (goodTxt_key k _ ?_), rfl⟩
      refine contains_cons_false_intro _ _ _ (by decide) ?_
      exact contains_cons_false_intro _ _ _ (by decide)
        (scalarTxt_no_nl d.char false (.float f) rfl)
    | str s =>
      show (([⟨c, encodeKey k ++ ':' :: ' ' :: scalarTxt d.char false (.str s)⟩] : List Line) ++
        encFields d u tl c).all (goodLine u c) = true
      rw [List.all_append, Bool.and_eq_true]
      refine ⟨?_, encFields_good d u tl c hu⟩
      rw [List.all_cons, Bool.and_eq_true]
      refine ⟨goodLine_mk u c c _ (Nat.le_refl c) hu (goodTxt_key k _ ?_), rfl⟩
      refine contains_cons_false_intro _ _ _ (by decide) ?_
      exact contains_cons_false_intro _ _ _ (by decide)
        (scalarTxt_no_nl d.char false (.str s) rfl)

/-- Every line emitted for an array at column `c` is good for base `c`. -/
theorem encArr_good (d : Delim) (u : Nat) : ∀ (l : VList) (k : Option String) (c : Nat),
    c % u = 0 → (encArr d u k l c).all (goodLine u c) = true
  | .nil, k, c, hu => by
    show (⟨c, mkHeader k 0 d none none⟩ :: []).all (goodLine u c) = true
    rw [List.all_cons, Bool.and_eq_true]
    exact ⟨goodLine_mk u c c _ (Nat.le_refl c) hu
      (goodTxt_mkHeader k 0 d none none (fun x hx => Option.noConfusion hx)), rfl⟩
  | .cons v tl, k, c, hu => by
    rw [show encArr d u k (.cons v tl) c =
      (if (VList.cons v tl).allPrim then
        [⟨c, mkHeader k (VList.cons v tl).length d none
          (some (cellsTxt d.char (.cons v tl)))⟩]
      else
        match tabFields? (.cons v tl) with
        | some fs =>
          ⟨c, mkHeader k (VList.cons v tl).length d (some fs) none⟩ ::
            rowLines d.char (c + u) (.cons v tl)
        | none =>
          ⟨c, mkHeader k (VList.cons v tl).length d none none⟩ ::
            (encItem d u v (c + u) ++ encItems d u tl (c + u))) from rfl]
    by_cases hap : (VList.cons v tl).allPrim = true
    · rw [if_pos hap]
      rw [List.all_cons, Bool.and_eq_true]
      refine ⟨goodLine_mk u c c _ (Nat.le_refl c) hu (goodTxt_mkHeader k _ d none _ ?_), rfl⟩
      intro x hx
      injection hx with hx
      rw [← hx]
      exact cellsTxt_no_nl d _ hap
    · rw [if_neg hap]
      cases htf : tabFields? (.cons v tl) with
      | some fs =>
        obtain ⟨fl1, hv, hfs, hne, hfp, hrows⟩ := tabFields_spec v tl fs htf
        rw [List.all_cons, Bool.and_eq_true]
        refine ⟨goodLine_mk u c c _ (Nat.le_refl c) hu
          (goodTxt_mkHeader k _ d (some fs) none (fun x hx => Option.noConfusion hx)), ?_⟩
        exact rowLines_good d u fs hne (c + u) c (Nat.le_add_right c u)
          (by rw [Nat.add_mod_right]; exact hu) (.cons v tl) hrows
      | none =>
        rw [List.all_cons, Bool.and_eq_true]
        refine ⟨goodLine_mk u c c _ (Nat.le_refl c) hu
          (goodTxt_mkHeader k _ d none none (fun x hx => Option.noConfusion hx)), ?_⟩
        rw [List.all_append, Bool.and_eq_true]
        constructor
        · refine all_imp _ (goodLine_mono u c (c + u) (Nat.le_add_right c u)) ?_
          exact encItem_good d u v (c + u) (by rw [Nat.add_mod_right]; exact hu)
        · refine all_imp _ (goodLine_mono u c (c + u) (Nat.le_add_right c u)) ?_
          exact encItems_good d u tl (c + u) (by rw [Nat.add_mod_right]; exact hu)

/-- Every line emitted for expanded items at column `c` is good for base `c`. -/
theorem encItems_good (d : Delim) (u : Nat) : ∀ (l : VList) (c : Nat), c % u = 0 →
    (encItems d u l c).all (goodLine u c) = true
  | .nil, c, hu => rfl
  | .cons v tl, c, hu => by
    show (encItem d u v c ++ encItems d u tl c).all (goodLine u c) = true
    rw [List.all_append, Bool.and_eq_true]
    exact ⟨encItem_good d u v c hu, encItems_good d u tl c hu⟩

/-- Every line emitted for one expanded item at column `c` is good for base `c`. -/
theorem encItem_good (d : Delim) (u : Nat) : ∀ (v : Value) (c : Nat), c % u = 0 →
    (encItem d u v c).all (goodLine u c) = true
  | .arr vl, c, hu => by
    rw [show encItem d u (.arr vl) c =
      (match encArr d u none vl c with
       | ⟨_, h⟩ :: rest => ⟨c, '-' :: ' ' :: h⟩ :: rest
       | [] => []) from rfl]
    cases hea : encArr d u none vl c with
    | nil => rfl
    | cons l0 rest =>
      have hgood := encArr_good d u vl none c hu
      rw [hea, List.all_cons, Bool.and_eq_true] at hgood
      cases l0 with
      | mk col0 txt0 =>
        rw [List.all_cons, Bool.and_eq_true]
        refine ⟨goodLine_mk u c c _ (Nat.le_refl c) hu ?_, hgood.2⟩
        have htxt : goodTxt txt0 = true := by
          unfold goodLine at hgood
          simp only [Bool.and_eq_true] at hgood
          exact hgood.1.2
        show (!(('-' : Char) = ' ') && !(('-' : Char) = '\t') &&
          !('-' :: ' ' :: txt0).contains '\n') = true
        rw [contains_cons_false_intro '-' '\n' _ (by decide)
          (contains_cons_false_intro ' ' '\n' _ (by decide) (goodTxt_no_nl txt0 htxt))]
        rfl
  | .obj fl, c, hu => by
    show (⟨c, ['-']⟩ :: encFields d u fl (c + u)).all (goodLine u c) = true
    rw [List.all_cons, Bool.and_eq_true]
    refine ⟨goodLine_mk u c c _ (Nat.le_refl c) hu (by decide), ?_⟩
    refine all_imp _ (goodLine_mono u c (c + u) (Nat.le_add_right c u)) ?_
    exact encFields_good d u fl (c + u) (by rw [Nat.add_mod_right]; exact hu)
  | .null, c, hu => by
    show (⟨c, '-' :: ' ' :: scalarTxt d.char false .null⟩ :: []).all (goodLine u c) = true
    rw [List.all_cons, Bool.and_eq_true]
    refine ⟨goodLine_mk u c c _ (Nat.le_refl c) hu ?_, rfl⟩
    show (!(('-' : Char) = ' ') && !(('-' : Char) = '\t') &&
      !('-' :: ' ' :: scalarTxt d.char false .null).contains '\n') = true
    rw [contains_cons_false_intro '-' '\n' _ (by decide)
      (contains_cons_false_intro ' ' '\n' _ (by decide)
        (scalarTxt_no_nl d.char false .null rfl))]
    rfl
  | .bool b, c, hu => by
    show (⟨c, '-' :: ' ' :: scalarTxt d.char false (.bool b)⟩ :: []).all
      (goodLine u c) = true
    rw [List.all_cons, Bool.and_eq_true]
    refine ⟨goodLine_mk u c c _ (Nat.le_refl c) hu ?_, rfl⟩
    show (!(('-' : Char) = ' ') && !(('-' : Char) = '\t') &&
      !('-' :: ' ' :: scalarTxt d.char false (.bool b)).contains '\n') = true
    rw [contains_cons_false_intro '-' '\n' _ (by decide)
      (contains_cons_false_intro ' ' '\n' _ (by decide)
        (scalarTxt_no_nl d.char false (.bool b) rfl))]
    rfl
  | .int n, c, hu => by
    show (⟨c, '-' :: ' ' :: scalarTxt d.char false (.int n)⟩ :: []).all
      (goodLine u c) = true
    rw [List.all_cons, Bool.and_eq_true]
    refine ⟨goodLine_mk u c c _ (Nat.le_refl c) hu ?_, rfl⟩
    show (!(('-' : Char) = ' ') && !(('-' : Char) = '\t') &&
      !('-' :: ' ' :: scalarTxt d.char false (.int n)).contains '\n') = true
    rw [contains_cons_false_intro '-' '\n' _ (by decide)
      (contains_cons_false_intro ' ' '\n' _ (by decide)
        (scalarTxt_no_nl d.char false (.int n) rfl))]
    rfl
  | .float f, c, hu => by
    show (⟨c, '-' :: ' ' :: scalarTxt d.char false (.float f)⟩ :: []).all
      (goodLine u c) = true
    rw [List.all_cons, Bool.and_eq_true]
    refine ⟨goodLine_mk u c c _ (Nat.le_refl c) hu ?_, rfl⟩
    show (!(('-' : Char) = ' ') && !(('-' : Char) = '\t') &&
      !('-' :: ' ' :: scalarTxt d.char false (.float f)).contains '\n') = true
    rw [contains_cons_false_intro '-' '\n' _ (by decide)
      (contains_cons_false_intro ' ' '\n' _ (by decide)
        (scalarTxt_no_nl d.char false (.float f) rfl))]
    rfl
  | .str s, c, hu => by
    show (⟨c, '-' :: ' ' :: scalarTxt d.char false (.str s)⟩ :: []).all
      (goodLine u c) = true
    rw [List.all_cons, Bool.and_eq_true]
    refine ⟨goodLine_mk u c c _ (Nat.le_refl c) hu ?_, rfl⟩
    show (!(('-' : Char) = ' ') && !(('-' : Char) = '\t') &&
      !('-' :: ' ' :: scalarTxt d.char false (.str s)).contains '\n') = true
    rw [contains_cons_false_intro '-' '\n' _ (by decide)
      (contains_cons_false_intro ' ' '\n' _ (by decide)
        (scalarTxt_no_nl d.char false (.str s) rfl))]
    rfl

end

/-! ## Round-trip machinery: block carving and the main induction -/

/-- Append two element lists. -/
def vappend : VList → VList → VList
  | .nil, g => g
  | .cons v tl, g => .cons v (vappend tl g)

/-- Appending no elements is the identity. -/
theorem vappend_nil : ∀ (l : VList), vappend l .nil = l
  | .nil => rfl
  | .cons v tl => by
    show VList.cons v (vappend tl .nil) = _
    rw [vappend_nil tl]

/-- A proper block boundary: nothing follows, or the next line is content at
or left of the opening column. -/
def restOkL (c : Nat) (rest : List Line) : Prop :=
  rest = [] ∨ ∃ l0 tl, rest = l0 :: tl ∧ l0.blank = false ∧ l0.col ≤ c

/-- A boundary line is not part of the deeper block. -/
theorem boundary_not_deeper (c : Nat) (l0 : Line) (h1 : l0.blank = false)
    (h2 : l0.col ≤ c) : Line.deeper c l0 = false := by
  unfold Line.deeper
  rw [h1]
  simp
  omega

/-- Carving the deeper block from a body followed by a boundary. -/
theorem takedrop_block (c : Nat) : ∀ (body rest : List Line),
    (∀ l ∈ body, Line.deeper c l = true) → restOkL c rest →
    (body ++ rest).takeWhile (Line.deeper c) = body ∧
      (body ++ rest).dropWhile (Line.deeper c) = rest := by
  intro body
  induction body with
  | nil =>
    intro rest _ hrest
    rcases hrest with h | ⟨l0, tl, hr, hb, hc⟩
    · subst h
      exact ⟨rfl, rfl⟩
    · subst hr
      constructor
      · show (l0 :: tl).takeWhile (Line.deeper c) = []
        rw [List.takeWhile_cons, boundary_not_deeper c l0 hb hc]
        rfl
      · show (l0 :: tl).dropWhile (Line.deeper c) = l0 :: tl
        rw [List.dropWhile_cons, boundary_not_deeper c l0 hb hc]
        rfl
  | cons l body ih =>
    intro rest hbody hrest
    have hl := hbody l (by simp)
    have ih2 := ih rest (fun x hx => hbody x (by simp [hx])) hrest
    constructor
    · show ((l :: body) ++ rest).takeWhile (Line.deeper c) = l :: body
      rw [List.cons_append, List.takeWhile_cons, hl, if_pos rfl, ih2.1]
    · show ((l :: body) ++ rest).dropWhile (Line.deeper c) = rest
      rw [List.cons_append, List.dropWhile_cons, hl, if_pos rfl, ih2.2]

/-- Good lines of a deeper block are deeper. -/
theorem good_deeper (u c : Nat) (hu : 1 ≤ u) (L : List Line)
    (h : L.all (goodLine u (c + u)) = true) : ∀ l ∈ L, Line.deeper c l = true := by
  intro l hl
  rw [List.all_eq_true] at h
  have := h l hl
  unfold goodLine at this
  simp only [Bool.and_eq_true, decide_eq_true_eq] at this
  unfold Line.deeper
  have : c < l.col := by omega
  simp [this]

/-- Good lines are not blank. -/
theorem good_not_blank (u c : Nat) (l : Line) (h : goodLine u c l = true) :
    l.blank = false := by
  unfold goodLine at h
  simp only [Bool.and_eq_true] at h
  show l.txt.isEmpty = false
  have := goodTxt_ne_nil l.txt h.2
  cases hx : l.txt with
  | nil => exact absurd hx this
  | cons a b => rfl

/-- A good-line list contains no blank line. -/
theorem good_no_blank (u c : Nat) (L : List Line) (h : L.all (goodLine u c) = true) :
    L.any Line.blank = false := by
  rw [List.all_eq_true] at h
  cases ha : L.any Line.blank with
  | false => rfl
  | true =>
    rw [List.any_eq_true] at ha
    obtain ⟨l, hl, hb⟩ := ha
    rw [good_not_blank u c l (h l hl)] at hb
    cases hb

/-- Empty input parses to no fields, with any usable fuel. -/
theorem parseFields_nil (g : Nat) (hg : 2 ≤ g) : parseFields true g [] = .ok .fnil := by
  cases g with
  | zero => omega
  | succ g2 => rfl

/-- Empty input parses to no items, with any usable fuel. -/
theorem parseItems_nil (g : Nat) (hg : 2 ≤ g) : parseItems true g [] = .ok .nil := by
  cases g with
  | zero => omega
  | succ g2 => rfl

/-- One `parseFields` step over a content line with a keyed anatomy. -/
theorem parseFields_step (f : Nat) (l : Line) (ls : List Line) (k : String)
    (hdr0 : Option HeaderInfo) (tail0 : Option (List Char))
    (hblank : l.blank = false)
    (hfl : parseFieldLine l.txt = .ok ⟨some k, hdr0, tail0⟩) :
    parseFields true (f + 1) (l :: ls) =
      (if FieldLine.opensBlock ⟨some k, hdr0, tail0⟩ then
        (match parseValueAfter true f ⟨some k, hdr0, tail0⟩
            (ls.takeWhile (Line.deeper l.col)) with
         | .error e => .error e
         | .ok v =>
           match parseFields true f (ls.dropWhile (Line.deeper l.col)) with
           | .error e => .error e
           | .ok tl2 => .ok (.fcons k v tl2))
       else
        (match parseValueAfter true f ⟨some k, hdr0, tail0⟩ [] with
         | .error e => .error e
         | .ok v =>
           match parseFields true f ls with
           | .error e => .error e
           | .ok tl2 => .ok (.fcons k v tl2))) := by
  show (if Line.blank l then parseFields true f ls
    else
      match parseFieldLine l.txt with
      | .error e => .error e
      | .ok fl =>
        match fl.key with
        | none => .error .missingColon
        | some k =>
          if fl.opensBlock then
            match parseValueAfter true f fl (ls.takeWhile (Line.deeper l.col)) with
            | .error e => .error e
            | .ok v =>
              match parseFields true f (ls.dropWhile (Line.deeper l.col)) with
              | .error e => .error e
              | .ok tl => .ok (.fcons k v tl)
          else
            match parseValueAfter true f fl [] with
            | .error e => .error e
            | .ok v =>
              match parseFields true f ls with
              | .error e => .error e
              | .ok tl => .ok (.fcons k v tl)) = _
  rw [if_neg (by rw [hblank]; exact Bool.false_ne_true), hfl]

/-- One `parseItems` step over a content line. -/
theorem parseItems_step (f : Nat) (l : Line) (ls : List Line)
    (hblank : l.blank = false) :
    parseItems true (f + 1) (l :: ls) =
      (match parseItem true f l.txt (ls.takeWhile (Line.deeper l.col)) with
       | .error e => .error e
       | .ok v =>
         match parseItems true f (ls.dropWhile (Line.deeper l.col)) with
         | .error e => .error e
         | .ok tl => .ok (.cons v tl)) := by
  show ((if Line.blank l then
      match strictCheck true true .blankInArray with
      | Except.error e => Except.error e
      | Except.ok _ => parseItems true f ls
    else
      match parseItem true f l.txt (ls.takeWhile (Line.deeper l.col)) with
      | Except.error e => Except.error e
      | Except.ok v =>
        match parseItems true f (ls.dropWhile (Line.deeper l.col)) with
        | Except.error e => Except.error e
        | Except.ok tl => Except.ok (VList.cons v tl)) : Except Err VList) = _
  rw [if_neg (by rw [hblank]; exact Bool.false_ne_true)]

/-- Every encoded array starts with a header line at its own column. -/
theorem encArr_shape (k : Option String) (l : VList) (c : Nat) :
    ∃ t body, encArr .comma 2 k l c = ⟨c, t⟩ :: body := by
  cases l with
  | nil => exact ⟨_, _, rfl⟩
  | cons v tl =>
    rw [show encArr .comma 2 k (.cons v tl) c =
      (if (VList.cons v tl).allPrim then
        [⟨c, mkHeader k (VList.cons v tl).length .comma none
          (some (cellsTxt (Delim.char .comma) (.cons v tl)))⟩]
      else
        match tabFields? (.cons v tl) with
        | some fs =>
          ⟨c, mkHeader k (VList.cons v tl).length .comma (some fs) none⟩ ::
            rowLines (Delim.char .comma) (c + 2) (.cons v tl)
        | none =>
          ⟨c, mkHeader k (VList.cons v tl).length .comma none none⟩ ::
            (encItem .comma 2 v (c + 2) ++ encItems .comma 2 tl (c + 2))) from rfl]
    by_cases hap : (VList.cons v tl).allPrim = true
    · rw [if_pos hap]
      exact ⟨_, _, rfl⟩
    · rw [if_neg hap]
      cases htf : tabFields? (.cons v tl) with
      | some fs => exact ⟨_, _, rfl⟩
      | none => exact ⟨_, _, rfl⟩

/-- Every encoded expanded item starts with a line at its own column. -/
theorem encItem_shape0 (v : Value) (c : Nat) :
    ∃ t body, encItem .comma 2 v c = ⟨c, t⟩ :: body := by
  cases v with
  | arr vl =>
    obtain ⟨t, body, he⟩ := encArr_shape none vl c
    rw [show encItem .comma 2 (.arr vl) c =
      (match encArr .comma 2 none vl c with
       | ⟨_, h⟩ :: rest => ⟨c, '-' :: ' ' :: h⟩ :: rest
       | [] => []) from rfl, he]
    exact ⟨_, _, rfl⟩
  | obj fl => exact ⟨_, _, rfl⟩
  | null => exact ⟨_, _, rfl⟩
  | bool b => exact ⟨_, _, rfl⟩
  | int n => exact ⟨_, _, rfl⟩
  | float f => exact ⟨_, _, rfl⟩
  | str s => exact ⟨_, _, rfl⟩

/-- Encoded fields are empty or start at their own column. -/
theorem encFields_shape (fl : FList) (c : Nat)
    (htrip : (if c = 0 then tripFR fl else tripFN fl) = true) :
    encFields .comma 2 fl c = [] ∨
      ∃ t tlL, encFields .comma 2 fl c = ⟨c, t⟩ :: tlL := by
  cases fl with
  | fnil => exact Or.inl rfl
  | fcons k v tl =>
    cases v with
    | arr vl =>
      by_cases h0 : c = 0
      · subst h0
        obtain ⟨t, body, he⟩ := encArr_shape (some k) vl 0
        refine Or.inr ⟨t, body ++ encFields .comma 2 tl 0, ?_⟩
        show encArr .comma 2 (some k) vl (if 0 = 0 then 0 else 0 + 2) ++
          encFields .comma 2 tl 0 = _
        rw [if_pos rfl, he]
        rfl
      · rw [if_neg h0] at htrip
        obtain ⟨_, _, hne⟩ := tripFN_cons k (.arr vl) tl htrip
        exact absurd rfl (hne vl)
    | obj fl2 =>
      exact Or.inr ⟨encodeKey k ++ [':'],
        encFields .comma 2 fl2 (c + 2) ++ encFields .comma 2 tl c, rfl⟩
    | null =>
      exact Or.inr ⟨_, encFields .comma 2 tl c, rfl⟩
    | bool b =>
      exact Or.inr ⟨_, encFields .comma 2 tl c, rfl⟩
    | int n =>
      exact Or.inr ⟨_, encFields .comma 2 tl c, rfl⟩
    | float f =>
      exact Or.inr ⟨_, encFields .comma 2 tl c, rfl⟩
    | str s =>
      exact Or.inr ⟨_, encFields .comma 2 tl c, rfl⟩

/-- A block boundary survives prefixing the next sibling fields. -/
theorem restOk_encFields (fl : FList) (c : Nat) (rest : List Line)
    (htrip : (if c = 0 then tripFR fl else tripFN fl) = true) (hc : c % 2 = 0)
    (hrest : restOkL c rest) : restOkL c (encFields .comma 2 fl c ++ rest) := by
  rcases encFields_shape fl c htrip with he | ⟨t, tlL, he⟩
  · rw [he, List.nil_append]
    exact hrest
  · have hgood := encFields_good .comma 2 fl c hc
    rw [he, List.all_cons, Bool.and_eq_true] at hgood
    refine Or.inr ⟨⟨c, t⟩, tlL ++ rest, by rw [he]; rfl, ?_, Nat.le_refl c⟩
    exact good_not_blank 2 c _ hgood.1

/-- A block boundary survives prefixing the next sibling items. -/
theorem restOk_encItems (l : VList) (c : Nat) (rest : List Line) (hc : c % 2 = 0)
    (hrest : restOkL c rest) : restOkL c (encItems .comma 2 l c ++ rest) := by
  cases l with
  | nil =>
    show restOkL c (([] : List Line) ++ rest)
    rw [List.nil_append]
    exact hrest
  | cons v tl =>
    obtain ⟨t, body, he⟩ := encItem_shape0 v c
    have hgood := encItem_good .comma 2 v c hc
    rw [he, List.all_cons, Bool.and_eq_true] at hgood
    refine Or.inr ⟨⟨c, t⟩, body ++ encItems .comma 2 tl c ++ rest, ?_, ?_, Nat.le_refl c⟩
    · show encItem .comma 2 v c ++ encItems .comma 2 tl c ++ rest = _
      rw [he]
      simp [List.append_assoc]
    · exact good_not_blank 2 c _ hgood.1

/-- A line with well-formed content is not blank. -/
theorem blank_mk (c : Nat) (t : List Char) (h : goodTxt t = true) :
    Line.blank ⟨c, t⟩ = false := by
  show t.isEmpty = false
  have := goodTxt_ne_nil t h
  cases hx : t with
  | nil => exact absurd hx this
  | cons a b => rfl

/-- `parseValueAfter` on a bare key line builds an object from the block. -/
theorem parseValueAfter_objRed (g : Nat) (key0 : Option String) (block : List Line) :
    parseValueAfter true (g + 1) ⟨key0, none, none⟩ block =
      (match parseFields true g block with
       | .error e => .error e
       | .ok fs => .ok (.obj fs)) := rfl

/-- `parseValueAfter` on a scalar field line decodes the tail. -/
theorem parseValueAfter_primRed (g : Nat) (key0 : Option String) (t : List Char)
    (block : List Line) :
    parseValueAfter true (g + 1) ⟨key0, none, some t⟩ block = parseCellValue t := rfl

/-- `parseValueAfter` on an inline header decodes the tail cells. -/
theorem parseValueAfter_inlineRed (g : Nat) (key0 : Option String) (n : Nat) (d : Delim)
    (t : List Char) (block : List Line) :
    parseValueAfter true (g + 1) ⟨key0, some ⟨n, d, none⟩, some t⟩ block =
      finishInline true n d t := rfl

/-- `parseValueAfter` on a tabular header decodes the row block. -/
theorem parseValueAfter_tabRed (g : Nat) (key0 : Option String) (n : Nat) (d : Delim)
    (fs : List String) (tail0 : Option (List Char)) (block : List Line) :
    parseValueAfter true (g + 1) ⟨key0, some ⟨n, d, some fs⟩, tail0⟩ block =
      parseTabular true n fs d block := rfl

/-- `parseValueAfter` on an expanded header decodes the item block. -/
theorem parseValueAfter_expRed (g : Nat) (key0 : Option String) (n : Nat) (d : Delim)
    (block : List Line) :
    parseValueAfter true (g + 1) ⟨key0, some ⟨n, d, none⟩, none⟩ block =
      (match strictCheck true (block.any Line.blank) .blankInArray with
       | .error e => .error e
       | .ok _ =>
         match parseItems true g block with
         | .error e => .error e
         | .ok items =>
           match strictCheck true (decide (items.length ≠ n)) .countMismatch with
           | .error e => .error e
           | .ok _ => .ok (.arr items)) := rfl

/-- One primitive field line in an object run. -/
theorem parseFields_prim_step (k : String) (v : Value) (ls : List Line) (c : Nat)
    (resF : FList) (fuel : Nat)
    (hp : v.isPrim = true) (hf : ∀ f2, v = .float f2 → f2.isIntegral = false)
    (hnext : parseFields true (fuel - 1) ls = .ok resF)
    (hfuel : 3 ≤ fuel) :
    parseFields true fuel
      (⟨c, encodeKey k ++ ':' :: ' ' :: scalarTxt (Delim.char .comma) false v⟩ :: ls) =
      .ok (.fcons k v resF) := by
  cases fuel with
  | zero => omega
  | succ f =>
    have hgood : goodTxt (encodeKey k ++ ':' :: ' ' ::
        scalarTxt (Delim.char .comma) false v) = true := by
      refine goodTxt_key k _ ?_
      refine contains_cons_false_intro _ _ _ (by decide) ?_
      exact contains_cons_false_intro _ _ _ (by decide)
        (scalarTxt_no_nl (Delim.char .comma) false v hp)
    rw [parseFields_step f _ ls k none
      (some (scalarTxt (Delim.char .comma) false v)) (blank_mk c _ hgood)
      (parseFieldLine_prim k _)]
    rw [if_neg (fun h => Bool.noConfusion h)]
    cases f with
    | zero => omega
    | succ g =>
      rw [parseValueAfter_primRed g (some k) _ []]
      rw [parseCellValue_scalarTxt (Delim.char .comma) v hp hf]
      show (match parseFields true (g + 1) ls with
        | Except.error e => (Except.error e : Except Err FList)
        | Except.ok tl2 => Except.ok (.fcons k v tl2)) = _
      rw [show parseFields true (g + 1) ls = .ok resF from hnext]

/-- One object-valued field line in an object run. -/
theorem parseFields_objfield_step (k : String) (fs resF : FList)
    (body rest2 : List Line) (c fuel : Nat)
    (hbodyall : body.all (goodLine 2 (c + 2)) = true)
    (hrest2 : restOkL c rest2)
    (hbody : ∀ g, 3 * body.length + 2 ≤ g → parseFields true g body = .ok fs)
    (hnext : parseFields true (fuel - 1) rest2 = .ok resF)
    (hfuel : 3 * body.length + 4 ≤ fuel) :
    parseFields true fuel (⟨c, encodeKey k ++ [':']⟩ :: (body ++ rest2)) =
      .ok (.fcons k (.obj fs) resF) := by
  cases fuel with
  | zero => omega
  | succ f =>
    rw [parseFields_step f ⟨c, encodeKey k ++ [':']⟩ (body ++ rest2) k none none
      (blank_mk c _ (goodTxt_key k [':'] (by decide))) (parseFieldLine_objkey k)]
    rw [if_pos (show FieldLine.opensBlock ⟨some k, none, none⟩ = true from rfl)]
    rw [show (⟨c, encodeKey k ++ [':']⟩ : Line).col = c from rfl]
    obtain ⟨htake, hdrop⟩ := takedrop_block c body rest2
      (good_deeper 2 c (by decide) body hbodyall) hrest2
    rw [htake, hdrop]
    cases f with
    | zero => omega
    | succ g =>
      rw [parseValueAfter_objRed g (some k) body]
      rw [hbody g (by simp at hfuel; omega)]
      show (match parseFields true (g + 1) rest2 with
        | Except.error e => (Except.error e : Except Err FList)
        | Except.ok tl2 => Except.ok (.fcons k (.obj fs) tl2)) = _
      rw [show parseFields true (g + 1) rest2 = .ok resF from hnext]

/-- One array-valued field line in an object run. -/
theorem parseFields_arrfield_step (k : String) (l : VList) (htxt : List Char)
    (body rest2 : List Line) (c fuel : Nat) (resF : FList)
    (hdr : HeaderInfo) (tail0 : Option (List Char))
    (hgoodh : goodTxt htxt = true)
    (hbodyall : body.all (goodLine 2 (c + 2)) = true)
    (hfl : parseFieldLine htxt = .ok ⟨some k, some hdr, tail0⟩)
    (hob0 : FieldLine.opensBlock ⟨some k, some hdr, tail0⟩ = false → body = [])
    (hobT : ∀ fuel2, 3 * body.length + 3 ≤ fuel2 →
      FieldLine.opensBlock ⟨some k, some hdr, tail0⟩ = true →
      parseValueAfter true fuel2 ⟨some k, some hdr, tail0⟩ body = .ok (.arr l))
    (hobF : ∀ fuel2 block, 1 ≤ fuel2 →
      FieldLine.opensBlock ⟨some k, some hdr, tail0⟩ = false →
      parseValueAfter true fuel2 ⟨some k, some hdr, tail0⟩ block = .ok (.arr l))
    (hrest2 : restOkL c rest2)
    (hnext : parseFields true (fuel - 1) rest2 = .ok resF)
    (hfuel : 3 * body.length + 4 ≤ fuel) :
    parseFields true fuel (⟨c, htxt⟩ :: (body ++ rest2)) = .ok (.fcons k (.arr l) resF) := by
  cases fuel with
  | zero => omega
  | succ f =>
    rw [parseFields_step f ⟨c, htxt⟩ (body ++ rest2) k (some hdr) tail0
      (blank_mk c _ hgoodh) hfl]
    cases hob : FieldLine.opensBlock ⟨some k, some hdr, tail0⟩ with
    | true =>
      rw [if_pos (show (true = true) from rfl)]
      rw [show (⟨c, htxt⟩ : Line).col = c from rfl]
      obtain ⟨htake, hdrop⟩ := takedrop_block c body rest2
        (good_deeper 2 c (by decide) body hbodyall) hrest2
      rw [htake, hdrop]
      rw [hobT f (by simp at hfuel; omega) hob]
      show (match parseFields true f rest2 with
        | Except.error e => (Except.error e : Except Err FList)
        | Except.ok tl2 => Except.ok (.fcons k (.arr l) tl2)) = _
      rw [show parseFields true f rest2 = .ok resF from hnext]
    | false =>
      rw [if_neg (show ¬(false = true) from Bool.false_ne_true)]
      rw [hobF f [] (by omega) hob]
      rw [hob0 hob, List.nil_append]
      show (match parseFields true f rest2 with
        | Except.error e => (Except.error e : Except Err FList)
        | Except.ok tl2 => Except.ok (.fcons k (.arr l) tl2)) = _
      rw [show parseFields true f rest2 = .ok resF from hnext]

/-- One expanded item in an item run. -/
theorem parseItems_item_step (htxt : List Char) (v : Value) (body rest2 : List Line)
    (c fuel : Nat) (resV : VList)
    (hgoodh : goodTxt htxt = true)
    (hbodyall : body.all (goodLine 2 (c + 2)) = true)
    (hitem : ∀ fuel2, 3 * body.length + 4 ≤ fuel2 → parseItem true fuel2 htxt body = .ok v)
    (hrest2 : restOkL c rest2)
    (hnext : parseItems true (fuel - 1) rest2 = .ok resV)
    (hfuel : 3 * body.length + 5 ≤ fuel) :
    parseItems true fuel (⟨c, htxt⟩ :: (body ++ rest2)) = .ok (.cons v resV) := by
  cases fuel with
  | zero => omega
  | succ f =>
    rw [parseItems_step f ⟨c, htxt⟩ (body ++ rest2) (blank_mk c _ hgoodh)]
    rw [show (⟨c, htxt⟩ : Line).col = c from rfl]
    obtain ⟨htake, hdrop⟩ := takedrop_block c body rest2
      (good_deeper 2 c (by decide) body hbodyall) hrest2
    rw [htake, hdrop]
    rw [show (⟨c, htxt⟩ : Line).txt = htxt from rfl]
    rw [hitem f (by simp at hfuel; omega)]
    show (match parseItems true f rest2 with
      | Except.error e => (Except.error e : Except Err VList)
      | Except.ok tl => Except.ok (.cons v tl)) = _
    rw [show parseItems true f rest2 = .ok resV from hnext]

/-- A head character outside a class cannot head a list inside the class. -/
theorem all_head_notP (cs : List Char) (p : Char → Bool) (h : cs.all p = true)
    (x : Char) (hx : p x = false) : cs.head? ≠ some x := by
  cases cs with
  | nil => simp
  | cons c r =>
    rw [List.all_cons, Bool.and_eq_true] at h
    intro he
    injection he with he
    rw [he] at h
    rw [h.1] at hx
    cases hx

/-- `parseItem` on a bare hyphen builds an object from the block. -/
theorem parseItem_objRed (g : Nat) (block : List Line) :
    parseItem true (g + 1) ['-'] block =
      (match parseFields true g block with
       | .error e => .error e
       | .ok fs => .ok (.obj fs)) := rfl

/-- `parseItem` on a primitive item line decodes the content. -/
theorem parseItem_contentRed (g : Nat) (content : List Char) (block : List Line)
    (h1 : content.head? ≠ some '[') (h2 : hasUnquotedColon content = false) :
    parseItem true (g + 1) ('-' :: ' ' :: content) block = parseCellValue content := by
  show (if content.head? = some '[' then
      match parseFieldLine content with
      | .error e => .error e
      | .ok fl => parseValueAfter true g fl block
    else if hasUnquotedColon content then
      match parseFieldLine content with
      | .error e => .error e
      | .ok fl =>
        match fl.key with
        | none => .error .missingColon
        | some k =>
          match parseValueAfter true g fl [] with
          | .error e => .error e
          | .ok v0 =>
            match parseFields true g block with
            | .error e => .error e
            | .ok fs => .ok (.obj (.fcons k v0 fs))
    else parseCellValue content) = _
  rw [if_neg h1, if_neg (by rw [h2]; exact Bool.false_ne_true)]

/-- `parseItem` on a nested-array item line parses the header content. -/
theorem parseItem_arrRed (g : Nat) (content : List Char) (block : List Line)
    (h1 : content.head? = some '[') :
    parseItem true (g + 1) ('-' :: ' ' :: content) block =
      (match parseFieldLine content with
       | .error e => .error e
       | .ok fl => parseValueAfter true g fl block) := by
  show (if content.head? = some '[' then
      match parseFieldLine content with
      | .error e => .error e
      | .ok fl => parseValueAfter true g fl block
    else if hasUnquotedColon content then
      match parseFieldLine content with
      | .error e => .error e
      | .ok fl =>
        match fl.key with
        | none => .error .missingColon
        | some k =>
          match parseValueAfter true g fl [] with
          | .error e => .error e
          | .ok v0 =>
            match parseFields true g block with
            | .error e => .error e
            | .ok fs => .ok (.obj (.fcons k v0 fs))
    else parseCellValue content) = _
  rw [if_pos h1]

/-- Rendered scalars never start with an opening bracket, except possibly a
bare string, which the element condition rules out. -/
theorem scalarTxt_head_ne_lb (v : Value) (hp : v.isPrim = true)
    (hs : strItemOk v = true) :
    (scalarTxt (Delim.char .comma) false v).head? ≠ some '[' := by
  cases v with
  | null => decide
  | bool b => cases b <;> decide
  | int n =>
    exact all_head_notP _ numChar (renderInt_all n) '[' (by decide)
  | float f =>
    exact all_head_notP _ numChar (renderFloat_all f) '[' (by decide)
  | str s =>
    show (encodeStr s (Delim.char .comma) false).head? ≠ some '['
    unfold encodeStr
    cases hq : needsQuotes s.toList (Delim.char .comma) false with
    | true =>
      simp only [if_true]
      show ('"' :: (escChars s.toList ++ ['"'])).head? ≠ some '['
      simp
    | false =>
      simp only [Bool.false_eq_true, if_false]
      have := hs
      rw [show strItemOk (.str s) =
        (!(decide (s.toList.head? = some '[')) ||
          needsQuotes s.toList ',' false) from rfl] at this
      rw [show (Delim.char .comma) = ',' from rfl] at hq
      rw [hq] at this
      simp only [Bool.or_false, Bool.not_eq_true', decide_eq_false_iff_not] at this
      exact this
  | arr l => simp [Value.isPrim] at hp
  | obj fl => simp [Value.isPrim] at hp

set_option maxHeartbeats 2000000 in
mutual

/-- Emitted object fields followed by a well-delimited continuation parse back
to the fields, then the continuation. -/
theorem parseFields_enc : ∀ (fl : FList) (c : Nat) (rest : List Line) (restF : FList)
    (fuel : Nat),
    (if c = 0 then tripFR fl else tripFN fl) = true →
    c % 2 = 0 →
    restOkL c rest →
    (∀ g, 3 * rest.length + 2 ≤ g → parseFields true g rest = .ok restF) →
    3 * (encFields .comma 2 fl c ++ rest).length + 2 ≤ fuel →
    parseFields true fuel (encFields .comma 2 fl c ++ rest) = .ok (fappend fl restF)
  | .fnil, c, rest, restF, fuel, _, _, _, hrestP, hfuel => by
    show parseFields true fuel (([] : List Line) ++ rest) = .ok restF
    rw [List.nil_append]
    refine hrestP fuel ?_
    have h2 : 3 * (([] : List Line) ++ rest).length + 2 ≤ fuel := hfuel
    simpa using h2
  | .fcons k v tl, c, rest, restF, fuel, htrip, hc, hrest, hrestP, hfuel => by
    have htv : tripV v = true ∧ (if c = 0 then tripFR tl else tripFN tl) = true ∧
        (¬c = 0 → ∀ l2, v ≠ .arr l2) := by
      by_cases h0 : c = 0
      · rw [if_pos h0] at htrip
        obtain ⟨h1, h2⟩ := tripFR_cons k v tl htrip
        rw [if_pos h0]
        exact ⟨h1, h2, fun hcon => absurd h0 hcon⟩
      · rw [if_neg h0] at htrip
        obtain ⟨h1, h2, h3⟩ := tripFN_cons k v tl htrip
        rw [if_neg h0]
        exact ⟨h1, h2, fun _ => h3⟩
    have hrest2 : restOkL c (encFields .comma 2 tl c ++ rest) :=
      restOk_encFields tl c rest htv.2.1 hc hrest
    cases v with
    | null =>
      have h0 : 3 * ((⟨c, encodeKey k ++ ':' :: ' ' ::
          scalarTxt (Delim.char .comma) false .null⟩ ::
          (encFields .comma 2 tl c ++ rest)).length) + 2 ≤ fuel := hfuel
      rw [List.length_cons, List.length_append] at h0
      show parseFields true fuel
        (⟨c, encodeKey k ++ ':' :: ' ' :: scalarTxt (Delim.char .comma) false .null⟩ ::
          (encFields .comma 2 tl c ++ rest)) =
        Except.ok (FList.fcons k .null (fappend tl restF))
      exact parseFields_prim_step k .null _ c (fappend tl restF) fuel rfl
        (fun f2 hf2 => Value.noConfusion hf2)
        (parseFields_enc tl c rest restF (fuel - 1) htv.2.1 hc hrest hrestP
          (by rw [List.length_append]; omega))
        (by omega)
    | bool b =>
      have h0 : 3 * ((⟨c, encodeKey k ++ ':' :: ' ' ::
          scalarTxt (Delim.char .comma) false (.bool b)⟩ ::
          (encFields .comma 2 tl c ++ rest)).length) + 2 ≤ fuel := hfuel
      rw [List.length_cons, List.length_append] at h0
      show parseFields true fuel
        (⟨c, encodeKey k ++ ':' :: ' ' :: scalarTxt (Delim.char .comma) false (.bool b)⟩ ::
          (encFields .comma 2 tl c ++ rest)) =
        Except.ok (FList.fcons k (.bool b) (fappend tl restF))
      exact parseFields_prim_step k (.bool b) _ c (fappend tl restF) fuel rfl
        (fun f2 hf2 => Value.noConfusion hf2)
        (parseFields_enc tl c rest restF (fuel - 1) htv.2.1 hc hrest hrestP
          (by rw [List.length_append]; omega))
        (by omega)
    | int n =>
      have h0 : 3 * ((⟨c, encodeKey k ++ ':' :: ' ' ::
          scalarTxt (Delim.char .comma) false (.int n)⟩ ::
          (encFields .comma 2 tl c ++ rest)).length) + 2 ≤ fuel := hfuel
      rw [List.length_cons, List.length_append] at h0
      show parseFields true fuel
        (⟨c, encodeKey k ++ ':' :: ' ' :: scalarTxt (Delim.char .comma) false (.int n)⟩ ::
          (encFields .comma 2 tl c ++ rest)) =
        Except.ok (FList.fcons k (.int n) (fappend tl restF))
      exact parseFields_prim_step k (.int n) _ c (fappend tl restF) fuel rfl
        (fun f2 hf2 => Value.noConfusion hf2)
        (parseFields_enc tl c rest restF (fuel - 1) htv.2.1 hc hrest hrestP
          (by rw [List.length_append]; omega))
        (by omega)
    | float fv =>
      have h0 : 3 * ((⟨c, encodeKey k ++ ':' :: ' ' ::
          scalarTxt (Delim.char .comma) false (.float fv)⟩ ::
          (encFields .comma 2 tl c ++ rest)).length) + 2 ≤ fuel := hfuel
      rw [List.length_cons, List.length_append] at h0
      show parseFields true fuel
        (⟨c, encodeKey k ++ ':' :: ' ' ::
            scalarTxt (Delim.char .comma) false (.float fv)⟩ ::
          (encFields .comma 2 tl c ++ rest)) =
        Except.ok (FList.fcons k (.float fv) (fappend tl restF))
      refine parseFields_prim_step k (.float fv) _ c (fappend tl restF) fuel rfl
        (fun f2 hf2 => ?_)
        (parseFields_enc tl c rest restF (fuel - 1) htv.2.1 hc hrest hrestP
          (by rw [List.length_append]; omega))
        (by omega)
      injection hf2 with h
      rw [← h]
      have := htv.1
      rw [show tripV (.float fv) = !fv.isIntegral from rfl] at this
      simpa using this
    | str s =>
      have h0 : 3 * ((⟨c, encodeKey k ++ ':' :: ' ' ::
          scalarTxt (Delim.char .comma) false (.str s)⟩ ::
          (encFields .comma 2 tl c ++ rest)).length) + 2 ≤ fuel := hfuel
      rw [List.length_cons, List.length_append] at h0
      show parseFields true fuel
        (⟨c, encodeKey k ++ ':' :: ' ' :: scalarTxt (Delim.char .comma) false (.str s)⟩ ::
          (encFields .comma 2 tl c ++ rest)) =
        Except.ok (FList.fcons k (.str s) (fappend tl restF))
      exact parseFields_prim_step k (.str s) _ c (fappend tl restF) fuel rfl
        (fun f2 hf2 => Value.noConfusion hf2)
        (parseFields_enc tl c rest restF (fuel - 1) htv.2.1 hc hrest hrestP
          (by rw [List.length_append]; omega))
        (by omega)
    | obj fl2 =>
      have h0 : 3 * ((⟨c, encodeKey k ++ [':']⟩ ::
          ((encFields .comma 2 fl2 (c + 2) ++ encFields .comma 2 tl c) ++ rest)).length) +
          2 ≤ fuel := hfuel
      rw [List.length_cons, List.length_append, List.length_append] at h0
      show parseFields true fuel
        (⟨c, encodeKey k ++ [':']⟩ ::
          ((encFields .comma 2 fl2 (c + 2) ++ encFields .comma 2 tl c) ++ rest)) =
        Except.ok (FList.fcons k (.obj fl2) (fappend tl restF))
      rw [List.append_assoc]
      refine parseFields_objfield_step k fl2 (fappend tl restF)
        (encFields .comma 2 fl2 (c + 2)) (encFields .comma 2 tl c ++ rest) c fuel
        (encFields_good .comma 2 fl2 (c + 2) (by rw [Nat.add_mod_right]; exact hc))
        hrest2 ?_
        (parseFields_enc tl c rest restF (fuel - 1) htv.2.1 hc hrest hrestP
          (by rw [List.length_append]; omega))
        (by omega)
      intro g hg
      have hrec := parseFields_enc fl2 (c + 2) [] .fnil g
        (by rw [if_neg (by omega)]
            have := htv.1
            rw [show tripV (.obj fl2) = tripFN fl2 from rfl] at this
            exact this)
        (by rw [Nat.add_mod_right]; exact hc)
        (Or.inl rfl)
        (fun g2 hg2 => parseFields_nil g2 (by omega))
        (by rw [List.append_nil]; exact hg)
      rw [List.append_nil, fappend_fnil] at hrec
      exact hrec
    | arr vl =>
      by_cases hc0 : c = 0
      · subst hc0
        have htvl : tripVL vl = true := by
          have := htv.1
          rw [show tripV (.arr vl) = tripVL vl from rfl] at this
          exact this
        obtain ⟨htxt, body, hdr, tail0, hea, hgh, hball, hfl, hhd, hob0, hobT, hobF⟩ :=
          encArr_parse vl (some k) 0 htvl rfl
        have hsh : encFields .comma 2 (.fcons k (.arr vl) tl) 0 ++ rest =
            ⟨0, htxt⟩ :: (body ++ (encFields .comma 2 tl 0 ++ rest)) := by
          show (encArr .comma 2 (some k) vl (if 0 = 0 then 0 else 0 + 2) ++
            encFields .comma 2 tl 0) ++ rest = _
          rw [if_pos rfl, hea, List.cons_append, List.cons_append, List.append_assoc]
        rw [hsh]
        have h0 : 3 * ((⟨0, htxt⟩ ::
            (body ++ (encFields .comma 2 tl 0 ++ rest))).length) + 2 ≤ fuel := by
          rw [← hsh]
          exact hfuel
        rw [List.length_cons, List.length_append, List.length_append] at h0
        exact parseFields_arrfield_step k vl htxt body
          (encFields .comma 2 tl 0 ++ rest) 0 fuel (fappend tl restF) hdr tail0
          hgh hball hfl hob0 hobT hobF hrest2
          (parseFields_enc tl 0 rest restF (fuel - 1) htv.2.1 hc hrest hrestP
            (by rw [List.length_append]; omega))
          (by omega)
      · exact absurd rfl (htv.2.2 hc0 vl)

/-- An emitted array is one header line plus a body block that `parseValueAfter`
reads back to the array. -/
theorem encArr_parse : ∀ (l : VList) (k : Option String) (c : Nat),
    tripVL l = true → c % 2 = 0 →
    ∃ (htxt : List Char) (body : List Line) (hdr : HeaderInfo)
      (tail0 : Option (List Char)),
      encArr .comma 2 k l c = ⟨c, htxt⟩ :: body ∧
      goodTxt htxt = true ∧
      body.all (goodLine 2 (c + 2)) = true ∧
      parseFieldLine htxt = .ok ⟨k, some hdr, tail0⟩ ∧
      (k = none → htxt.head? = some '[') ∧
      (FieldLine.opensBlock ⟨k, some hdr, tail0⟩ = false → body = []) ∧
      (∀ fuel2, 3 * body.length + 3 ≤ fuel2 →
        FieldLine.opensBlock ⟨k, some hdr, tail0⟩ = true →
        parseValueAfter true fuel2 ⟨k, some hdr, tail0⟩ body = .ok (.arr l)) ∧
      (∀ fuel2 (block : List Line), 1 ≤ fuel2 →
        FieldLine.opensBlock ⟨k, some hdr, tail0⟩ = false →
        parseValueAfter true fuel2 ⟨k, some hdr, tail0⟩ block = .ok (.arr l))
  | .nil, k, c, ht, hc => by
    refine ⟨mkHeader k 0 .comma none none, [], ⟨0, .comma, none⟩, none, rfl,
      goodTxt_mkHeader k 0 .comma none none (fun x hx => Option.noConfusion hx), rfl,
      ?_, ?_, fun h => Bool.noConfusion h, ?_, fun _ _ _ h => Bool.noConfusion h⟩
    · cases k with
      | some k2 =>
        exact parseFieldLine_header_some k2 0 .comma none none
          (fun fs hfs => Option.noConfusion hfs)
      | none =>
        exact parseFieldLine_header_none 0 .comma none none
          (fun fs hfs => Option.noConfusion hfs)
    · intro hk
      subst hk
      rfl
    · intro fuel2 hb _
      cases fuel2 with
      | zero => omega
      | succ g =>
        rw [parseValueAfter_expRed g k 0 .comma []]
        show (match parseItems true g ([] : List Line) with
          | Except.error e => (Except.error e : Except Err Value)
          | Except.ok items =>
            match strictCheck true (decide (items.length ≠ 0)) .countMismatch with
            | Except.error e => Except.error e
            | Except.ok _ => Except.ok (.arr items)) = Except.ok (.arr .nil)
        rw [parseItems_nil g (by simp at hb; omega)]
        rfl
  | .cons v tl, k, c, ht, hc => by
    by_cases hap : (VList.cons v tl).allPrim = true
    · refine ⟨mkHeader k (VList.cons v tl).length .comma none
          (some (cellsTxt (Delim.char .comma) (.cons v tl))), [],
        ⟨(VList.cons v tl).length, .comma, none⟩,
        some (cellsTxt (Delim.char .comma) (.cons v tl)), ?_, ?_, rfl, ?_, ?_,
        fun _ => rfl, fun _ _ h => Bool.noConfusion h, ?_⟩
      · rw [show encArr .comma 2 k (.cons v tl) c =
          (if (VList.cons v tl).allPrim then
            [⟨c, mkHeader k (VList.cons v tl).length .comma none
              (some (cellsTxt (Delim.char .comma) (.cons v tl)))⟩]
          else
            match tabFields? (.cons v tl) with
            | some fs =>
              ⟨c, mkHeader k (VList.cons v tl).length .comma (some fs) none⟩ ::
                rowLines (Delim.char .comma) (c + 2) (.cons v tl)
            | none =>
              ⟨c, mkHeader k (VList.cons v tl).length .comma none none⟩ ::
                (encItem .comma 2 v (c + 2) ++ encItems .comma 2 tl (c + 2)))
          from rfl, if_pos hap]
      · refine goodTxt_mkHeader k _ .comma none _ ?_
        intro x hx
        injection hx with hx
        rw [← hx]
        exact cellsTxt_no_nl .comma _ hap
      · cases k with
        | some k2 =>
          exact parseFieldLine_header_some k2 _ .comma none _
            (fun fs hfs => Option.noConfusion hfs)
        | none =>
          exact parseFieldLine_header_none _ .comma none _
            (fun fs hfs => Option.noConfusion hfs)
      · intro hk
        subst hk
        rfl
      · intro fuel2 block h1 _
        cases fuel2 with
        | zero => omega
        | succ g =>
          rw [parseValueAfter_inlineRed g k _ .comma _ block]
          exact finishInline_enc .comma (.cons v tl) hap (tripVL_goodPrims _ ht)
            (fun hx => VList.noConfusion hx)
    · cases htf : tabFields? (.cons v tl) with
      | some fs =>
        obtain ⟨fl1, hv, hfs, hksne, hfp, hrows⟩ := tabFields_spec v tl fs htf
        refine ⟨mkHeader k (VList.cons v tl).length .comma (some fs) none,
          rowLines (Delim.char .comma) (c + 2) (.cons v tl),
          ⟨(VList.cons v tl).length, .comma, some fs⟩, none, ?_,
          goodTxt_mkHeader k _ .comma (some fs) none (fun x hx => Option.noConfusion hx),
          ?_, ?_, ?_, fun h => Bool.noConfusion h, ?_, fun _ _ _ h => Bool.noConfusion h⟩
        · rw [show encArr .comma 2 k (.cons v tl) c =
            (if (VList.cons v tl).allPrim then
              [⟨c, mkHeader k (VList.cons v tl).length .comma none
                (some (cellsTxt (Delim.char .comma) (.cons v tl)))⟩]
            else
              match tabFields? (.cons v tl) with
              | some fs =>
                ⟨c, mkHeader k (VList.cons v tl).length .comma (some fs) none⟩ ::
                  rowLines (Delim.char .comma) (c + 2) (.cons v tl)
              | none =>
                ⟨c, mkHeader k (VList.cons v tl).length .comma none none⟩ ::
                  (encItem .comma 2 v (c + 2) ++ encItems .comma 2 tl (c + 2)))
            from rfl, if_neg hap, htf]
        · exact rowLines_good .comma 2 fs hksne (c + 2) (c + 2) (Nat.le_refl _)
            (by rw [Nat.add_mod_right]; exact hc) (.cons v tl) hrows
        · cases k with
          | some k2 =>
            refine parseFieldLine_header_some k2 _ .comma (some fs) none ?_
            intro fs2 hfs2
            injection hfs2 with h
            rw [← h]
            exact hksne
          | none =>
            refine parseFieldLine_header_none _ .comma (some fs) none ?_
            intro fs2 hfs2
            injection hfs2 with h
            rw [← h]
            exact hksne
        · intro hk
          subst hk
          rfl
        · intro fuel2 hb _
          cases fuel2 with
          | zero => omega
          | succ g =>
            rw [parseValueAfter_tabRed g k _ .comma fs none _]
            exact parseTabular_enc .comma fs hksne (c + 2) (.cons v tl) hrows ht
      | none =>
        refine ⟨mkHeader k (VList.cons v tl).length .comma none none,
          encItem .comma 2 v (c + 2) ++ encItems .comma 2 tl (c + 2),
          ⟨(VList.cons v tl).length, .comma, none⟩, none, ?_,
          goodTxt_mkHeader k _ .comma none none (fun x hx => Option.noConfusion hx),
          ?_, ?_, ?_, fun h => Bool.noConfusion h, ?_, fun _ _ _ h => Bool.noConfusion h⟩
        · rw [show encArr .comma 2 k (.cons v tl) c =
            (if (VList.cons v tl).allPrim then
              [⟨c, mkHeader k (VList.cons v tl).length .comma none
                (some (cellsTxt (Delim.char .comma) (.cons v tl)))⟩]
            else
              match tabFields? (.cons v tl) with
              | some fs =>
                ⟨c, mkHeader k (VList.cons v tl).length .comma (some fs) none⟩ ::
                  rowLines (Delim.char .comma) (c + 2) (.cons v tl)
              | none =>
                ⟨c, mkHeader k (VList.cons v tl).length .comma none none⟩ ::
                  (encItem .comma 2 v (c + 2) ++ encItems .comma 2 tl (c + 2)))
            from rfl, if_neg hap, htf]
        · rw [List.all_append, Bool.and_eq_true]
          exact ⟨encItem_good .comma 2 v (c + 2) (by rw [Nat.add_mod_right]; exact hc),
            encItems_good .comma 2 tl (c + 2) (by rw [Nat.add_mod_right]; exact hc)⟩
        · cases k with
          | some k2 =>
            exact parseFieldLine_header_some k2 _ .comma none none
              (fun fs hfs => Option.noConfusion hfs)
          | none =>
            exact parseFieldLine_header_none _ .comma none none
              (fun fs hfs => Option.noConfusion hfs)
        · intro hk
          subst hk
          rfl
        · intro fuel2 hb _
          cases fuel2 with
          | zero => omega
          | succ g =>
            rw [parseValueAfter_expRed g k _ .comma _]
            rw [show (encItem .comma 2 v (c + 2) ++
                encItems .comma 2 tl (c + 2)).any Line.blank = false from
              good_no_blank 2 (c + 2) _ (by
                rw [List.all_append, Bool.and_eq_true]
                exact ⟨encItem_good .comma 2 v (c + 2)
                    (by rw [Nat.add_mod_right]; exact hc),
                  encItems_good .comma 2 tl (c + 2)
                    (by rw [Nat.add_mod_right]; exact hc)⟩)]
            show (match parseItems true g
                (encItem .comma 2 v (c + 2) ++ encItems .comma 2 tl (c + 2)) with
              | Except.error e => (Except.error e : Except Err Value)
              | Except.ok items =>
                match strictCheck true
                  (decide (items.length ≠ (VList.cons v tl).length)) .countMismatch with
                | Except.error e => Except.error e
                | Except.ok _ => Except.ok (.arr items)) =
              Except.ok (.arr (.cons v tl))
            have hitems := parseItems_enc (.cons v tl) (c + 2) [] .nil g ht
              (by rw [Nat.add_mod_right]; exact hc) (Or.inl rfl)
              (fun g2 hg2 => parseItems_nil g2 (by omega))
              (by rw [show encItems .comma 2 (.cons v tl) (c + 2) ++ ([] : List Line) =
                    encItem .comma 2 v (c + 2) ++ encItems .comma 2 tl (c + 2) from
                    Eq.trans (List.append_nil _) rfl]
                  omega)
            rw [List.append_nil, vappend_nil] at hitems
            rw [show (encItems .comma 2 (.cons v tl) (c + 2)) =
              encItem .comma 2 v (c + 2) ++ encItems .comma 2 tl (c + 2) from rfl]
              at hitems
            rw [hitems]
            show (match strictCheck true
                (decide ((VList.cons v tl).length ≠ (VList.cons v tl).length))
                .countMismatch with
              | Except.error e => (Except.error e : Except Err Value)
              | Except.ok _ => Except.ok (.arr (.cons v tl))) =
              Except.ok (.arr (.cons v tl))
            rw [show decide ((VList.cons v tl).length ≠ (VList.cons v tl).length) =
              false from by simp]
            rfl

/-- Emitted expanded items followed by a well-delimited continuation parse back
to the items, then the continuation. -/
theorem parseItems_enc : ∀ (l : VList) (c : Nat) (rest : List Line) (restV : VList)
    (fuel : Nat),
    tripVL l = true →
    c % 2 = 0 →
    restOkL c rest →
    (∀ g, 3 * rest.length + 2 ≤ g → parseItems true g rest = .ok restV) →
    3 * (encItems .comma 2 l c ++ rest).length + 2 ≤ fuel →
    parseItems true fuel (encItems .comma 2 l c ++ rest) = .ok (vappend l restV)
  | .nil, c, rest, restV, fuel, _, _, _, hrestP, hfuel => by
    show parseItems true fuel (([] : List Line) ++ rest) = .ok restV
    rw [List.nil_append]
    refine hrestP fuel ?_
    have h2 : 3 * (([] : List Line) ++ rest).length + 2 ≤ fuel := hfuel
    simpa using h2
  | .cons v tl, c, rest, restV, fuel, ht, hc, hrest, hrestP, hfuel => by
    obtain ⟨hs, hv, htl⟩ := tripVL_cons v tl ht
    obtain ⟨htxt, body, hei, hgh, hball, hitem⟩ := encItem_parse v c hs hv hc
    have hsh : encItems .comma 2 (.cons v tl) c ++ rest =
        ⟨c, htxt⟩ :: (body ++ (encItems .comma 2 tl c ++ rest)) := by
      show (encItem .comma 2 v c ++ encItems .comma 2 tl c) ++ rest = _
      rw [hei, List.cons_append, List.cons_append, List.append_assoc]
    rw [hsh]
    have h0 : 3 * ((⟨c, htxt⟩ ::
        (body ++ (encItems .comma 2 tl c ++ rest))).length) + 2 ≤ fuel := by
      rw [← hsh]
      exact hfuel
    rw [List.length_cons, List.length_append, List.length_append] at h0
    exact parseItems_item_step htxt v body (encItems .comma 2 tl c ++ rest) c fuel
      (vappend tl restV) hgh hball hitem (restOk_encItems tl c rest hc hrest)
      (parseItems_enc tl c rest restV (fuel - 1) htl hc hrest hrestP
        (by rw [List.length_append]; omega))
      (by omega)

/-- An emitted expanded item is one hyphen line plus a body block that
`parseItem` reads back to the value. -/
theorem encItem_parse : ∀ (v : Value) (c : Nat), strItemOk v = true → tripV v = true →
    c % 2 = 0 →
    ∃ (htxt : List Char) (body : List Line),
      encItem .comma 2 v c = ⟨c, htxt⟩ :: body ∧
      goodTxt htxt = true ∧
      body.all (goodLine 2 (c + 2)) = true ∧
      ∀ fuel2, 3 * body.length + 4 ≤ fuel2 → parseItem true fuel2 htxt body = .ok v
  | .null, c, hs, hv, hc => by
    refine ⟨'-' :: ' ' :: scalarTxt (Delim.char .comma) false .null, [], rfl, ?_, rfl, ?_⟩
    · show (!(('-' : Char) = ' ') && !(('-' : Char) = '\t') &&
        !('-' :: ' ' :: scalarTxt (Delim.char .comma) false .null).contains '\n') = true
      rw [contains_cons_false_intro '-' '\n' _ (by decide)
        (contains_cons_false_intro ' ' '\n' _ (by decide)
          (scalarTxt_no_nl (Delim.char .comma) false .null rfl))]
      rfl
    · intro fuel2 hb
      cases fuel2 with
      | zero => omega
      | succ g =>
        rw [parseItem_contentRed g _ [] (scalarTxt_head_ne_lb .null rfl hs)
          (hasUnquotedColon_scalar (Delim.char .comma) false .null rfl)]
        exact parseCellValue_scalarTxt (Delim.char .comma) .null rfl
          (fun f2 hf2 => Value.noConfusion hf2)
  | .bool b, c, hs, hv, hc => by
    refine ⟨'-' :: ' ' :: scalarTxt (Delim.char .comma) false (.bool b), [], rfl, ?_, rfl, ?_⟩
    · show (!(('-' : Char) = ' ') && !(('-' : Char) = '\t') &&
        !('-' :: ' ' :: scalarTxt (Delim.char .comma) false (.bool b)).contains '\n') = true
      rw [contains_cons_false_intro '-' '\n' _ (by decide)
        (contains_cons_false_intro ' ' '\n' _ (by decide)
          (scalarTxt_no_nl (Delim.char .comma) false (.bool b) rfl))]
      rfl
    · intro fuel2 hb2
      cases fuel2 with
      | zero => omega
      | succ g =>
        rw [parseItem_contentRed g _ [] (scalarTxt_head_ne_lb (.bool b) rfl hs)
          (hasUnquotedColon_scalar (Delim.char .comma) false (.bool b) rfl)]
        exact parseCellValue_scalarTxt (Delim.char .comma) (.bool b) rfl
          (fun f2 hf2 => Value.noConfusion hf2)
  | .int n, c, hs, hv, hc => by
    refine ⟨'-' :: ' ' :: scalarTxt (Delim.char .comma) false (.int n), [], rfl, ?_, rfl, ?_⟩
    · show (!(('-' : Char) = ' ') && !(('-' : Char) = '\t') &&
        !('-' :: ' ' :: scalarTxt (Delim.char .comma) false (.int n)).contains '\n') = true
      rw [contains_cons_false_intro '-' '\n' _ (by decide)
        (contains_cons_false_intro ' ' '\n' _ (by decide)
          (scalarTxt_no_nl (Delim.char .comma) false (.int n) rfl))]
      rfl
    · intro fuel2 hb2
      cases fuel2 with
      | zero => omega
      | succ g =>
        rw [parseItem_contentRed g _ [] (scalarTxt_head_ne_lb (.int n) rfl hs)
          (hasUnquotedColon_scalar (Delim.char .comma) false (.int n) rfl)]
        exact parseCellValue_scalarTxt (Delim.char .comma) (.int n) rfl
          (fun f2 hf2 => Value.noConfusion hf2)
  | .float fv, c, hs, hv, hc => by
    refine ⟨'-' :: ' ' :: scalarTxt (Delim.char .comma) false (.float fv), [], rfl, ?_,
      rfl, ?_⟩
    · show (!(('-' : Char) = ' ') && !(('-' : Char) = '\t') &&
        !('-' :: ' ' :: scalarTxt (Delim.char .comma) false (.float fv)).contains '\n') = true
      rw [contains_cons_false_intro '-' '\n' _ (by decide)
        (contains_cons_false_intro ' ' '\n' _ (by decide)
          (scalarTxt_no_nl (Delim.char .comma) false (.float fv) rfl))]
      rfl
    · intro fuel2 hb2
      cases fuel2 with
      | zero => omega
      | succ g =>
        rw [parseItem_contentRed g _ [] (scalarTxt_head_ne_lb (.float fv) rfl hs)
          (hasUnquotedColon_scalar (Delim.char .comma) false (.float fv) rfl)]
        refine parseCellValue_scalarTxt (Delim.char .comma) (.float fv) rfl ?_
        intro f2 hf2
        injection hf2 with h
        rw [← h]
        rw [show tripV (.float fv) = !fv.isIntegral from rfl] at hv
        simpa using hv
  | .str s, c, hs, hv, hc => by
    refine ⟨'-' :: ' ' :: scalarTxt (Delim.char .comma) false (.str s), [], rfl, ?_, rfl, ?_⟩
    · show (!(('-' : Char) = ' ') && !(('-' : Char) = '\t') &&
        !('-' :: ' ' :: scalarTxt (Delim.char .comma) false (.str s)).contains '\n') = true
      rw [contains_cons_false_intro '-' '\n' _ (by decide)
        (contains_cons_false_intro ' ' '\n' _ (by decide)
          (scalarTxt_no_nl (Delim.char .comma) false (.str s) rfl))]
      rfl
    · intro fuel2 hb2
      cases fuel2 with
      | zero => omega
      | succ g =>
        rw [parseItem_contentRed g _ [] (scalarTxt_head_ne_lb (.str s) rfl hs)
          (hasUnquotedColon_scalar (Delim.char .comma) false (.str s) rfl)]
        exact parseCellValue_scalarTxt (Delim.char .comma) (.str s) rfl
          (fun f2 hf2 => Value.noConfusion hf2)
  | .obj fl, c, hs, hv, hc => by
    refine ⟨['-'], encFields .comma 2 fl (c + 2), rfl, by decide,
      encFields_good .comma 2 fl (c + 2) (by rw [Nat.add_mod_right]; exact hc), ?_⟩
    intro fuel2 hb2
    cases fuel2 with
    | zero => omega
    | succ g =>
      rw [parseItem_objRed g _]
      have hrec := parseFields_enc fl (c + 2) [] .fnil g
        (by rw [if_neg (by omega)]
            rw [show tripV (.obj fl) = tripFN fl from rfl] at hv
            exact hv)
        (by rw [Nat.add_mod_right]; exact hc)
        (Or.inl rfl)
        (fun g2 hg2 => parseFields_nil g2 (by omega))
        (by rw [List.append_nil]; omega)
      rw [List.append_nil, fappend_fnil] at hrec
      rw [hrec]
  | .arr vl, c, hs, hv, hc => by
    have htvl : tripVL vl = true := by
      rw [show tripV (.arr vl) = tripVL vl from rfl] at hv
      exact hv
    obtain ⟨htxt, body, hdr, tail0, hea, hgh, hball, hfl, hhd, hob0, hobT, hobF⟩ :=
      encArr_parse vl none c htvl hc
    refine ⟨'-' :: ' ' :: htxt, body, ?_, ?_, hball, ?_⟩
    · rw [show encItem .comma 2 (.arr vl) c =
        (match encArr .comma 2 none vl c with
         | ⟨_, h⟩ :: rest => ⟨c, '-' :: ' ' :: h⟩ :: rest
         | [] => []) from rfl, hea]
    · show (!(('-' : Char) = ' ') && !(('-' : Char) = '\t') &&
        !('-' :: ' ' :: htxt).contains '\n') = true
      rw [contains_cons_false_intro '-' '\n' _ (by decide)
        (contains_cons_false_intro ' ' '\n' _ (by decide) (goodTxt_no_nl htxt hgh))]
      rfl
    · intro fuel2 hb2
      cases fuel2 with
      | zero => omega
      | succ g =>
        rw [parseItem_arrRed g htxt body (hhd rfl), hfl]
        show parseValueAfter true g ⟨none, some hdr, tail0⟩ body = Except.ok (.arr vl)
        cases hob : FieldLine.opensBlock ⟨none, some hdr, tail0⟩ with
        | true => exact hobT g (by omega) hob
        | false => exact hobF g body (by omega) hob

end

/-! ## Round-trip machinery: document assembly -/

/-- The first-indent scan skips a column-zero line. -/
theorem fpc_cons_col0 (l : Line) (L : List Line) (h : l.col = 0) :
    firstPosCol (l :: L) = firstPosCol L := by
  show (if !l.blank && decide (0 < l.col) then some l.col else firstPosCol L) =
    firstPosCol L
  rw [h]
  simp

/-- The first-indent scan stops at a positive content line. -/
theorem fpc_cons_pos (l : Line) (L : List Line) (hb : l.blank = false)
    (h : 0 < l.col) : firstPosCol (l :: L) = some l.col := by
  unfold firstPosCol
  simp [hb, h]

/-- A nested block contributes its own column or nothing to the first-indent
scan. -/
theorem fpc_deepBlock (B rest2 : List Line) (hall : B.all (goodLine 2 0) = true)
    (hhead : B = [] ∨ ∃ t b2, B = ⟨2, t⟩ :: b2)
    (hr : firstPosCol rest2 = none ∨ firstPosCol rest2 = some 2) :
    firstPosCol (B ++ rest2) = none ∨ firstPosCol (B ++ rest2) = some 2 := by
  rcases hhead with h | ⟨t, b2, h⟩
  · rw [h, List.nil_append]
    exact hr
  · subst h
    rw [List.all_cons, Bool.and_eq_true] at hall
    have hp : firstPosCol ((⟨2, t⟩ : Line) :: (b2 ++ rest2)) = some (⟨2, t⟩ : Line).col :=
      fpc_cons_pos ⟨2, t⟩ (b2 ++ rest2) (good_not_blank 2 0 ⟨2, t⟩ hall.1)
        (Nat.succ_pos 1)
    rw [List.cons_append, hp]
    exact Or.inr rfl

/-- The encoded array's body starts two columns deeper, if at all. -/
theorem encArr_shape2 (k : Option String) (l : VList) (c : Nat) :
    ∃ htxt body, encArr .comma 2 k l c = ⟨c, htxt⟩ :: body ∧
      (body = [] ∨ ∃ t2 b2, body = ⟨c + 2, t2⟩ :: b2) := by
  cases l with
  | nil => exact ⟨_, _, rfl, Or.inl rfl⟩
  | cons v tl =>
    rw [show encArr .comma 2 k (.cons v tl) c =
      (if (VList.cons v tl).allPrim then
        [⟨c, mkHeader k (VList.cons v tl).length .comma none
          (some (cellsTxt (Delim.char .comma) (.cons v tl)))⟩]
      else
        match tabFields? (.cons v tl) with
        | some fs =>
          ⟨c, mkHeader k (VList.cons v tl).length .comma (some fs) none⟩ ::
            rowLines (Delim.char .comma) (c + 2) (.cons v tl)
        | none =>
          ⟨c, mkHeader k (VList.cons v tl).length .comma none none⟩ ::
            (encItem .comma 2 v (c + 2) ++ encItems .comma 2 tl (c + 2)))
      from rfl]
    by_cases hap : (VList.cons v tl).allPrim = true
    · rw [if_pos hap]
      exact ⟨_, _, rfl, Or.inl rfl⟩
    · rw [if_neg hap]
      cases htf : tabFields? (.cons v tl) with
      | some fs =>
        obtain ⟨fl1, hv, hfs, _, _, _⟩ := tabFields_spec v tl fs htf
        subst hv
        refine ⟨_, _, rfl, Or.inr ?_⟩
        exact ⟨rowLines.cellsTxtF (Delim.char .comma) fl1,
          rowLines (Delim.char .comma) (c + 2) tl, rfl⟩
      | none =>
        obtain ⟨t, body2, hei⟩ := encItem_shape0 v (c + 2)
        refine ⟨_, _, rfl, Or.inr ?_⟩
        refine ⟨t, body2 ++ encItems .comma 2 tl (c + 2), ?_⟩
        rw [hei, List.cons_append]

/-- The encoded array's head line carries an emitted header. -/
theorem encArr_shape3 (k : Option String) (l : VList) (c : Nat) :
    ∃ n fields tail body,
      encArr .comma 2 k l c = ⟨c, mkHeader k n .comma fields tail⟩ :: body := by
  cases l with
  | nil => exact ⟨0, none, none, _, rfl⟩
  | cons v tl =>
    rw [show encArr .comma 2 k (.cons v tl) c =
      (if (VList.cons v tl).allPrim then
        [⟨c, mkHeader k (VList.cons v tl).length .comma none
          (some (cellsTxt (Delim.char .comma) (.cons v tl)))⟩]
      else
        match tabFields? (.cons v tl) with
        | some fs =>
          ⟨c, mkHeader k (VList.cons v tl).length .comma (some fs) none⟩ ::
            rowLines (Delim.char .comma) (c + 2) (.cons v tl)
        | none =>
          ⟨c, mkHeader k (VList.cons v tl).length .comma none none⟩ ::
            (encItem .comma 2 v (c + 2) ++ encItems .comma 2 tl (c + 2)))
      from rfl]
    by_cases hap : (VList.cons v tl).allPrim = true
    · rw [if_pos hap]
      exact ⟨_, none, some _, _, rfl⟩
    · rw [if_neg hap]
      cases htf : tabFields? (.cons v tl) with
      | some fs => exact ⟨_, some fs, none, _, rfl⟩
      | none => exact ⟨_, none, none, _, rfl⟩

/-- The head of an emitted keyed line is never an opening bracket. -/
theorem encodeKey_head_ne_lb (k : String) (rest0 : List Char) :
    (encodeKey k ++ rest0).head? ≠ some '[' := by
  unfold encodeKey
  by_cases hb : bareKeyOk k.toList = true
  · rw [if_pos hb]
    cases he : k.toList with
    | nil =>
      rw [he] at hb
      simp [bareKeyOk] at hb
    | cons a t =>
      have h2 := (bareKey_head k.toList hb).2
      rw [he] at h2
      intro hx
      exact h2 (by simpa using hx)
  · rw [if_neg hb]
    show ('"' :: (escChars k.toList ++ ['"']) ++ rest0).head? ≠ some '['
    simp

/-- A keyed header line never starts with an opening bracket. -/
theorem mkHeader_some_head_ne_lb (k : String) (n : Nat) (d : Delim)
    (fields : Option (List String)) (tail : Option (List Char)) :
    (mkHeader (some k) n d fields tail).head? ≠ some '[' := by
  rw [mkHeader_eq]
  exact encodeKey_head_ne_lb k _

/-- The head line of encoded nonempty fields, with root-dispatch facts. -/
theorem encFields_cons_shape (k : String) (v0 : Value) (tl : FList) (c : Nat)
    (htrip : (if c = 0 then tripFR (.fcons k v0 tl) else tripFN (.fcons k v0 tl)) = true) :
    ∃ t tlL, encFields .comma 2 (.fcons k v0 tl) c = ⟨c, t⟩ :: tlL ∧
      hasUnquotedColon t = true ∧ t.head? ≠ some '[' := by
  cases v0 with
  | arr vl =>
    by_cases h0 : c = 0
    · subst h0
      obtain ⟨n, fields, tail, body, he⟩ := encArr_shape3 (some k) vl 0
      refine ⟨mkHeader (some k) n .comma fields tail, body ++ encFields .comma 2 tl 0,
        ?_, hasUnquotedColon_mkHeader _ _ _ _ _, mkHeader_some_head_ne_lb _ _ _ _ _⟩
      show encArr .comma 2 (some k) vl (if 0 = 0 then 0 else 0 + 2) ++
        encFields .comma 2 tl 0 = _
      rw [if_pos rfl, he, List.cons_append]
    · rw [if_neg h0] at htrip
      obtain ⟨_, _, hne⟩ := tripFN_cons k (.arr vl) tl htrip
      exact absurd rfl (hne vl)
  | obj fl2 =>
    refine ⟨encodeKey k ++ [':'],
      encFields .comma 2 fl2 (c + 2) ++ encFields .comma 2 tl c,
      rfl, ?_, encodeKey_head_ne_lb k [':']⟩
    rw [show encodeKey k ++ [':'] = encodeKey k ++ ':' :: [] from rfl]
    exact hasUnquotedColon_field k []
  | null =>
    exact ⟨_, encFields .comma 2 tl c, rfl, hasUnquotedColon_field k _,
      encodeKey_head_ne_lb k _⟩
  | bool b =>
    exact ⟨_, encFields .comma 2 tl c, rfl, hasUnquotedColon_field k _,
      encodeKey_head_ne_lb k _⟩
  | int n =>
    exact ⟨_, encFields .comma 2 tl c, rfl, hasUnquotedColon_field k _,
      encodeKey_head_ne_lb k _⟩
  | float f =>
    exact ⟨_, encFields .comma 2 tl c, rfl, hasUnquotedColon_field k _,
      encodeKey_head_ne_lb k _⟩
  | str s =>
    exact ⟨_, encFields .comma 2 tl c, rfl, hasUnquotedColon_field k _,
      encodeKey_head_ne_lb k _⟩

/-- Root-position scalar text parses back to the value (root quoting of
space-containing strings included). -/
theorem parseCellValue_scalarTxtR (d : Char) (v : Value)
    (hp : v.isPrim = true)
    (hf : ∀ f, v = .float f → f.isIntegral = false) :
    parseCellValue (scalarTxt d true v) = .ok v := by
  cases v with
  | null => rfl
  | bool b => cases b <;> rfl
  | int n =>
    rw [show scalarTxt d true (.int n) = renderInt n from rfl,
        parseCellValue_ne_quote _ (renderInt_head_ne_quote n), decodeScalar_renderInt]
  | float f =>
    have hnf := hf f rfl
    rw [show scalarTxt d true (.float f) = renderFloat f from rfl,
        parseCellValue_ne_quote _ (renderFloat_head_ne_quote f),
        decodeScalar_renderFloat f hnf]
  | str s =>
    show parseCellValue (encodeStr s d true) = _
    unfold encodeStr
    cases hq : needsQuotes s.toList d true with
    | true =>
      simp only [if_true]
      rw [parseCellValue_quoteWrap, strMk_toList]
    | false =>
      simp only [Bool.false_eq_true, if_false]
      have htr : quoteTrigger s.toList d = false := by
        unfold needsQuotes at hq
        rw [Bool.or_eq_false_iff] at hq
        exact hq.1
      obtain ⟨hne, hq2, _, _, _⟩ := quoteTrigger_false_facts _ _ htr
      rw [parseCellValue_ne_quote _ (head_ne_of_not_contains _ _ hq2),
          decodeScalar_bare _ d htr, strMk_toList]
  | arr l => simp [Value.isPrim] at hp
  | obj l => simp [Value.isPrim] at hp

/-- Nested-object fields, when nonempty, start with a line at their own
column. -/
theorem encFields_shapeN (fl : FList) (c : Nat) (h : tripFN fl = true) :
    encFields .comma 2 fl c = [] ∨
      ∃ t b2, encFields .comma 2 fl c = ⟨c, t⟩ :: b2 := by
  cases fl with
  | fnil => exact Or.inl rfl
  | fcons k v tl =>
    obtain ⟨_, _, hne⟩ := tripFN_cons k v tl h
    cases v with
    | arr vl => exact absurd rfl (hne vl)
    | obj fl2 => exact Or.inr ⟨_, _, rfl⟩
    | null => exact Or.inr ⟨_, _, rfl⟩
    | bool b => exact Or.inr ⟨_, _, rfl⟩
    | int n => exact Or.inr ⟨_, _, rfl⟩
    | float f => exact Or.inr ⟨_, _, rfl⟩
    | str s => exact Or.inr ⟨_, _, rfl⟩

/-- The first-indent scan skips any column-zero line. -/
theorem fpc_cons0 (t : List Char) (L : List Line) :
    firstPosCol ((⟨0, t⟩ : Line) :: L) = firstPosCol L :=
  fpc_cons_col0 ⟨0, t⟩ L rfl

/-- Root-level fields contribute only column-2 positives to the first-indent
scan. -/
theorem fpc_encFields0 : ∀ (fl : FList), tripFR fl = true → ∀ (rest : List Line),
    (firstPosCol rest = none ∨ firstPosCol rest = some 2) →
    (firstPosCol (encFields .comma 2 fl 0 ++ rest) = none ∨
      firstPosCol (encFields .comma 2 fl 0 ++ rest) = some 2)
  | .fnil, _, rest, hr => by
    rw [show encFields .comma 2 .fnil 0 = [] from rfl, List.nil_append]
    exact hr
  | .fcons k v tl, h, rest, hr => by
    obtain ⟨hv, htl⟩ := tripFR_cons k v tl h
    have hrec := fpc_encFields0 tl htl rest hr
    cases v with
    | arr vl =>
      obtain ⟨htxt, body, he, hsh⟩ := encArr_shape2 (some k) vl 0
      have hgood : (encArr .comma 2 (some k) vl 0).all (goodLine 2 0) = true :=
        encArr_good .comma 2 vl (some k) 0 rfl
      rw [he, List.all_cons, Bool.and_eq_true] at hgood
      have heq : encFields .comma 2 (.fcons k (.arr vl) tl) 0 ++ rest =
          (⟨0, htxt⟩ : Line) :: (body ++ (encFields .comma 2 tl 0 ++ rest)) := by
        show (encArr .comma 2 (some k) vl 0 ++ encFields .comma 2 tl 0) ++ rest = _
        rw [he, List.cons_append, List.cons_append, List.append_assoc]
      rw [heq, fpc_cons0]
      exact fpc_deepBlock body (encFields .comma 2 tl 0 ++ rest) hgood.2 hsh hrec
    | obj fl2 =>
      have hfn : tripFN fl2 = true := hv
      have hgood : (encFields .comma 2 fl2 2).all (goodLine 2 0) = true :=
        all_imp _ (fun x => goodLine_mono 2 0 2 (by omega) x)
          (encFields_good .comma 2 fl2 2 rfl)
      have heq : encFields .comma 2 (.fcons k (.obj fl2) tl) 0 ++ rest =
          (⟨0, encodeKey k ++ [':']⟩ : Line) ::
            (encFields .comma 2 fl2 2 ++ (encFields .comma 2 tl 0 ++ rest)) := by
        show ((⟨0, encodeKey k ++ [':']⟩ : Line) :: encFields .comma 2 fl2 2 ++
          encFields .comma 2 tl 0) ++ rest = _
        rw [List.cons_append, List.cons_append, List.append_assoc]
      rw [heq, fpc_cons0]
      exact fpc_deepBlock (encFields .comma 2 fl2 2) (encFields .comma 2 tl 0 ++ rest)
        hgood (encFields_shapeN fl2 2 hfn) hrec
    | null =>
      rw [show encFields .comma 2 (.fcons k .null tl) 0 ++ rest =
        (⟨0, encodeKey k ++ ':' :: ' ' :: scalarTxt (Delim.char .comma) false .null⟩ : Line)
          :: (encFields .comma 2 tl 0 ++ rest) from rfl, fpc_cons0]
      exact hrec
    | bool b =>
      rw [show encFields .comma 2 (.fcons k (.bool b) tl) 0 ++ rest =
        (⟨0, encodeKey k ++ ':' :: ' ' ::
          scalarTxt (Delim.char .comma) false (.bool b)⟩ : Line)
          :: (encFields .comma 2 tl 0 ++ rest) from rfl, fpc_cons0]
      exact hrec
    | int n =>
      rw [show encFields .comma 2 (.fcons k (.int n) tl) 0 ++ rest =
        (⟨0, encodeKey k ++ ':' :: ' ' ::
          scalarTxt (Delim.char .comma) false (.int n)⟩ : Line)
          :: (encFields .comma 2 tl 0 ++ rest) from rfl, fpc_cons0]
      exact hrec
    | float f =>
      rw [show encFields .comma 2 (.fcons k (.float f) tl) 0 ++ rest =
        (⟨0, encodeKey k ++ ':' :: ' ' ::
          scalarTxt (Delim.char .comma) false (.float f)⟩ : Line)
          :: (encFields .comma 2 tl 0 ++ rest) from rfl, fpc_cons0]
      exact hrec
    | str st =>
      rw [show encFields .comma 2 (.fcons k (.str st) tl) 0 ++ rest =
        (⟨0, encodeKey k ++ ':' :: ' ' ::
          scalarTxt (Delim.char .comma) false (.str st)⟩ : Line)
          :: (encFields .comma 2 tl 0 ++ rest) from rfl, fpc_cons0]
      exact hrec

/-- The root array's lines contribute only column-2 positives to the
first-indent scan. -/
theorem fpc_encArr0 (vl : VList) :
    firstPosCol (encArr .comma 2 none vl 0) = none ∨
      firstPosCol (encArr .comma 2 none vl 0) = some 2 := by
  obtain ⟨htxt, body, he, hsh⟩ := encArr_shape2 none vl 0
  have hgood : (encArr .comma 2 none vl 0).all (goodLine 2 0) = true :=
    encArr_good .comma 2 vl none 0 rfl
  rw [he, List.all_cons, Bool.and_eq_true] at hgood
  rw [he, fpc_cons0]
  rcases hsh with h | ⟨t2, b2, h⟩
  · rw [h]
    exact Or.inl rfl
  · subst h
    obtain ⟨hg1, hg2⟩ := hgood
    rw [List.all_cons, Bool.and_eq_true] at hg2
    rw [fpc_cons_pos ⟨0 + 2, t2⟩ b2 (good_not_blank 2 0 _ hg2.1) (Nat.succ_pos 1)]
    exact Or.inr rfl

/-- A good line's text is good. -/
theorem goodLine_goodTxt (u c0 : Nat) (l : Line) (h : goodLine u c0 l = true) :
    goodTxt l.txt = true := by
  unfold goodLine at h
  simp only [Bool.and_eq_true] at h
  exact h.2

/-- Good lines have good text, listwise. -/
theorem goodAll_goodTxt (u c0 : Nat) (L : List Line) (h : L.all (goodLine u c0) = true) :
    ∀ l ∈ L, goodTxt l.txt = true := by
  rw [List.all_eq_true] at h
  intro l hl
  exact goodLine_goodTxt u c0 l (h l hl)

/-- The strict indent pre-check passes on well-formed encoder output. -/
theorem checkIndent_ok (L : List Line) (hall : L.all (goodLine 2 0) = true)
    (hfp : firstPosCol L = none ∨ firstPosCol L = some 2) :
    checkIndent true L = .ok () := by
  unfold checkIndent
  rcases hfp with h | h
  · rw [h]
  · rw [h]
    show strictCheck true (!(L.all (fun l => l.blank || decide (l.col % 2 = 0))))
      .badIndent = .ok ()
    have h2 : L.all (fun l => l.blank || decide (l.col % 2 = 0)) = true := by
      refine all_imp L ?_ hall
      intro x hx
      unfold goodLine at hx
      simp only [Bool.and_eq_true, decide_eq_true_eq] at hx
      rw [Bool.or_eq_true]
      right
      simpa using hx.1.2
    rw [h2]
    rfl

/-- Dropping leading blanks is a no-op when the head line is not blank. -/
theorem dropWhile_nonblank (l : Line) (L : List Line) (h : l.blank = false) :
    (l :: L).dropWhile Line.blank = l :: L := by
  rw [List.dropWhile_cons, h]
  simp

/-- The root dispatch of `loads` after the line pipeline and the indent
pre-check succeed (the tail of the source's `loads` body, lifted out so the
branches can be reasoned about one at a time). -/
def rootDispatch (strict : Bool) (fuel : Nat) : List Line → Except Err Value
  | [] => .ok .null
  | l0 :: restL =>
    if restL.all Line.blank && !hasUnquotedColon l0.txt then
      parseCellValue l0.txt
    else if l0.txt.head? = some '[' then
      match parseFieldLine l0.txt with
      | .error e => .error e
      | .ok fl =>
        match fl.key, fl.header with
        | none, some _ => parseValueAfter strict fuel fl restL
        | _, _ => .error .missingColon
    else
      match parseFields strict fuel (l0 :: restL) with
      | .error e => .error e
      | .ok fs => .ok (.obj fs)

/-- `loads` reduces to the root dispatch once the pipeline and the indent
pre-check succeed. -/
theorem loads_pipeline (text : String) (L : List Line)
    (hmap : mapLines (dropLastEmpty (splitNl text.toList)) = .ok L)
    (hci : checkIndent true L = .ok ()) :
    loads text true = rootDispatch true (4 * L.length + 4) (L.dropWhile Line.blank) := by
  unfold loads
  rw [hmap]
  show (match checkIndent true L with
    | Except.error e => Except.error e
    | Except.ok _ => rootDispatch true (4 * L.length + 4) (L.dropWhile Line.blank)
      : Except Err Value) = _
  rw [hci]

/-- The bare-primitive branch of the root dispatch. -/
theorem rootDispatch_prim (fuel : Nat) (l0 : Line) (restL : List Line)
    (h1 : restL.all Line.blank = true) (h2 : hasUnquotedColon l0.txt = false) :
    rootDispatch true fuel (l0 :: restL) = parseCellValue l0.txt := by
  show (if restL.all Line.blank && !hasUnquotedColon l0.txt then
      parseCellValue l0.txt
    else if l0.txt.head? = some '[' then
      match parseFieldLine l0.txt with
      | Except.error e => Except.error e
      | Except.ok fl =>
        match fl.key, fl.header with
        | none, some _ => parseValueAfter true fuel fl restL
        | _, _ => Except.error Err.missingColon
    else
      match parseFields true fuel (l0 :: restL) with
      | Except.error e => Except.error e
      | Except.ok fs => Except.ok (Value.obj fs) : Except Err Value) = _
  rw [h1, h2, if_pos (show (true && !false) = true from rfl)]

/-- The root-object branch of the root dispatch. -/
theorem rootDispatch_obj (fuel : Nat) (l0 : Line) (restL : List Line) (fs : FList)
    (hUC : hasUnquotedColon l0.txt = true) (hhd : l0.txt.head? ≠ some '[')
    (hpf : parseFields true fuel (l0 :: restL) = .ok fs) :
    rootDispatch true fuel (l0 :: restL) = .ok (.obj fs) := by
  show (if restL.all Line.blank && !hasUnquotedColon l0.txt then
      parseCellValue l0.txt
    else if l0.txt.head? = some '[' then
      match parseFieldLine l0.txt with
      | Except.error e => Except.error e
      | Except.ok fl =>
        match fl.key, fl.header with
        | none, some _ => parseValueAfter true fuel fl restL
        | _, _ => Except.error Err.missingColon
    else
      match parseFields true fuel (l0 :: restL) with
      | Except.error e => Except.error e
      | Except.ok fs => Except.ok (Value.obj fs) : Except Err Value) = _
  rw [hUC, show (restL.all Line.blank && !true) = false from Bool.and_false _,
    if_neg Bool.false_ne_true, if_neg hhd, hpf]

/-- The root-array branch of the root dispatch. -/
theorem rootDispatch_arrT (fuel : Nat) (l0 : Line) (restL : List Line)
    (hdr : HeaderInfo) (tail0 : Option (List Char)) (v : Value)
    (hUC : hasUnquotedColon l0.txt = true) (hhd : l0.txt.head? = some '[')
    (hfl : parseFieldLine l0.txt = .ok ⟨none, some hdr, tail0⟩)
    (hpva : parseValueAfter true fuel ⟨none, some hdr, tail0⟩ restL = .ok v) :
    rootDispatch true fuel (l0 :: restL) = .ok v := by
  show (if restL.all Line.blank && !hasUnquotedColon l0.txt then
      parseCellValue l0.txt
    else if l0.txt.head? = some '[' then
      match parseFieldLine l0.txt with
      | Except.error e => Except.error e
      | Except.ok fl =>
        match fl.key, fl.header with
        | none, some _ => parseValueAfter true fuel fl restL
        | _, _ => Except.error Err.missingColon
    else
      match parseFields true fuel (l0 :: restL) with
      | Except.error e => Except.error e
      | Except.ok fs => Except.ok (Value.obj fs) : Except Err Value) = _
  rw [hUC, show (restL.all Line.blank && !true) = false from Bool.and_false _,
    if_neg Bool.false_ne_true, if_pos hhd, hfl]
  show parseValueAfter true fuel ⟨none, some hdr, tail0⟩ restL = .ok v
  exact hpva

/-- A primitive root document decodes back to its value. -/
theorem loads_encDoc_prim (v : Value) (hp : v.isPrim = true)
    (hf : ∀ f, v = .float f → f.isIntegral = false) :
    loads (String.mk (joinLines [(⟨0, scalarTxt (Delim.char .comma) true v⟩ : Line)]))
      true = .ok v := by
  have hgt : goodTxt (scalarTxt (Delim.char .comma) true v) = true :=
    goodTxt_scalar (Delim.char .comma) true v hp
  have hg1 : goodLine 2 0 ⟨0, scalarTxt (Delim.char .comma) true v⟩ = true :=
    goodLine_mk 2 0 0 _ (Nat.le_refl 0) rfl hgt
  have hgoodAll : ([(⟨0, scalarTxt (Delim.char .comma) true v⟩ : Line)]).all
      (goodLine 2 0) = true := by
    rw [List.all_cons, hg1]
    rfl
  have hmap : mapLines (dropLastEmpty (splitNl
      (String.mk (joinLines
        [(⟨0, scalarTxt (Delim.char .comma) true v⟩ : Line)])).toList)) =
      .ok [(⟨0, scalarTxt (Delim.char .comma) true v⟩ : Line)] :=
    mapLines_pipeline _ (List.cons_ne_nil _ _) (goodAll_goodTxt 2 0 _ hgoodAll)
  have hfp : firstPosCol [(⟨0, scalarTxt (Delim.char .comma) true v⟩ : Line)] = none ∨
      firstPosCol [(⟨0, scalarTxt (Delim.char .comma) true v⟩ : Line)] = some 2 :=
    Or.inl (by rw [fpc_cons0]; rfl)
  have hci := checkIndent_ok _ hgoodAll hfp
  rw [loads_pipeline _ _ hmap hci]
  rw [dropWhile_nonblank _ _ (good_not_blank 2 0 _ hg1)]
  rw [rootDispatch_prim
    (4 * ([(⟨0, scalarTxt (Delim.char .comma) true v⟩ : Line)]).length + 4)
    ⟨0, scalarTxt (Delim.char .comma) true v⟩ [] rfl
    (hasUnquotedColon_scalar (Delim.char .comma) true v hp)]
  exact parseCellValue_scalarTxtR (Delim.char .comma) v hp hf

/-- The default-options encoding of any trippable value decodes back to it
verbatim. -/
theorem loads_encDoc (v : Value) (ht : Trippable v = true) :
    loads (String.mk (joinLines (encDoc .comma 2 v))) true = .ok v := by
  cases v with
  | null => exact loads_encDoc_prim .null rfl (fun f h => nomatch h)
  | bool b => exact loads_encDoc_prim (.bool b) rfl (fun f h => nomatch h)
  | int n => exact loads_encDoc_prim (.int n) rfl (fun f h => nomatch h)
  | str s => exact loads_encDoc_prim (.str s) rfl (fun f h => nomatch h)
  | float f =>
    have hfE : f.isIntegral = false := by
      have h2 : (!f.isIntegral) = true := ht
      cases hfi : f.isIntegral with
      | false => rfl
      | true =>
        rw [hfi] at h2
        exact absurd h2 (by decide)
    exact loads_encDoc_prim (.float f) rfl
      (fun f2 h => by
        injection h with h2
        rw [← h2]
        exact hfE)
  | arr vl =>
    have htVL : tripVL vl = true := ht
    obtain ⟨htxt, body, hdr, tail0, he, hgt, hgb, hfl, hknone, hobE, hobT, hobF⟩ :=
      encArr_parse vl none 0 htVL rfl
    have hgoodAll : (encArr .comma 2 none vl 0).all (goodLine 2 0) = true :=
      encArr_good .comma 2 vl none 0 rfl
    have hgA2 := hgoodAll
    rw [he, List.all_cons, Bool.and_eq_true] at hgA2
    have hne : encArr .comma 2 none vl 0 ≠ [] := by
      rw [he]
      exact List.cons_ne_nil _ _
    have hmap : mapLines (dropLastEmpty (splitNl
        (String.mk (joinLines (encArr .comma 2 none vl 0))).toList)) =
        .ok (encArr .comma 2 none vl 0) :=
      mapLines_pipeline _ hne (goodAll_goodTxt 2 0 _ hgoodAll)
    have hci := checkIndent_ok _ hgoodAll (fpc_encArr0 vl)
    obtain ⟨n2, fields2, tail2, body2, he3⟩ := encArr_shape3 none vl 0
    rw [he] at he3
    simp only [List.cons.injEq, Line.mk.injEq] at he3
    have hUCt : hasUnquotedColon htxt = true := by
      rw [he3.1.2]
      exact hasUnquotedColon_mkHeader none n2 .comma fields2 tail2
    have hpva : parseValueAfter true
        (4 * (((⟨0, htxt⟩ : Line)) :: body).length + 4)
        ⟨none, some hdr, tail0⟩ body = .ok (.arr vl) := by
      cases hob : FieldLine.opensBlock ⟨none, some hdr, tail0⟩ with
      | true =>
        exact hobT _ (by rw [List.length_cons]; omega) hob
      | false =>
        exact hobF _ body (by rw [List.length_cons]; omega) hob
    rw [show encDoc .comma 2 (Value.arr vl) = encArr .comma 2 none vl 0 from rfl]
    rw [loads_pipeline _ _ hmap hci, he]
    rw [dropWhile_nonblank _ _ (good_not_blank 2 0 _ hgA2.1)]
    exact rootDispatch_arrT _ _ _ hdr tail0 _ hUCt (hknone rfl) hfl hpva
  | obj fl =>
    cases fl with
    | fnil =>
      rw [show Trippable (.obj .fnil) = false from rfl] at ht
      exact absurd ht Bool.false_ne_true
    | fcons k0 v0 tl0 =>
      have htr : tripFR (.fcons k0 v0 tl0) = true := ht
      obtain ⟨t, tlL, hshape, hUC, hhd⟩ := encFields_cons_shape k0 v0 tl0 0 htr
      have hgoodAll : (encFields .comma 2 (.fcons k0 v0 tl0) 0).all (goodLine 2 0) = true :=
        encFields_good .comma 2 _ 0 rfl
      have hgA2 := hgoodAll
      rw [hshape, List.all_cons, Bool.and_eq_true] at hgA2
      have hne : encFields .comma 2 (.fcons k0 v0 tl0) 0 ≠ [] := by
        rw [hshape]
        exact List.cons_ne_nil _ _
      have hmap : mapLines (dropLastEmpty (splitNl
          (String.mk (joinLines (encFields .comma 2 (.fcons k0 v0 tl0) 0))).toList)) =
          .ok (encFields .comma 2 (.fcons k0 v0 tl0) 0) :=
        mapLines_pipeline _ hne (goodAll_goodTxt 2 0 _ hgoodAll)
      have hfp := fpc_encFields0 (.fcons k0 v0 tl0) htr [] (Or.inl rfl)
      rw [List.append_nil] at hfp
      have hci := checkIndent_ok _ hgoodAll hfp
      have hpf := parseFields_enc (.fcons k0 v0 tl0) 0 [] .fnil
        (4 * (((⟨0, t⟩ : Line)) :: tlL).length + 4) htr rfl (Or.inl rfl)
        (fun g hg => parseFields_nil g (by simpa using hg))
        (by rw [List.append_nil, hshape, List.length_cons]; omega)
      rw [List.append_nil, hshape, fappend_fnil] at hpf
      rw [show encDoc .comma 2 (Value.obj (.fcons k0 v0 tl0)) =
        encFields .comma 2 (.fcons k0 v0 tl0) 0 from rfl]
      rw [loads_pipeline _ _ hmap hci, hshape]
      rw [dropWhile_nonblank _ _ (good_not_blank 2 0 _ hgA2.1)]
      exact rootDispatch_obj _ _ _ _ hUC hhd hpf

/-! ## C1: round-trip under default options -/

/-- C1 counterexample: the round-trip claim over the whole admissible domain
fails.  The empty root object encodes to the empty document, which decodes to
`null` — not data-model-equal to the empty object; and an integral float such
as `1.0` is emitted without a decimal point, so it reads back as the integer
`1`, which the data-model equality keeps distinct from every float. -/
theorem C1_counterexample :
    (dumpsDef (vObj []) = .ok "" ∧ loadsDef "" = .ok .null ∧
      dmEq (vObj []) .null = false) ∧
    (dumpsDef (vObj [("x", .float ⟨false, 1, 0⟩)]) = .ok "x: 1" ∧
      loadsDef "x: 1" = .ok (vObj [("x", .int 1)]) ∧
      dmEq (.float ⟨false, 1, 0⟩) (.int 1) = false) :=
  ⟨⟨rfl, rfl, rfl⟩, ⟨rfl, rfl, rfl⟩⟩

/-- C1 (amended): on the round-trippable domain — no empty root object, floats
not integral, arrays not nested inside non-root objects, bare array-item
strings not starting with `[` — decoding the default-options encoding returns
the value verbatim: `loads (dumps v) = .ok v`. -/
theorem C1_roundtrip_on_domain (v : Value) (ht : Trippable v = true) :
    ∃ s, dumpsDef v = .ok s ∧ loadsDef s = .ok v := by
  refine ⟨String.mk (joinLines (encDoc .comma 2 v)), rfl, ?_⟩
  exact loads_encDoc v ht

/-- C1 witness: a concrete trippable document with an object root, a nested
object, strings and an array field round-trips exactly. -/
theorem C1_roundtrip_on_domain_witness :
    Trippable (vObj [("name", .str "Alice"), ("tags", vArr [.int 1, .str "x"]),
      ("meta", vObj [("ok", .bool true)])]) = true ∧
    ∃ s, dumpsDef (vObj [("name", .str "Alice"), ("tags", vArr [.int 1, .str "x"]),
      ("meta", vObj [("ok", .bool true)])]) = .ok s ∧
      loadsDef s = .ok (vObj [("name", .str "Alice"), ("tags", vArr [.int 1, .str "x"]),
        ("meta", vObj [("ok", .bool true)])]) :=
  ⟨by decide, C1_roundtrip_on_domain _ (by decide)⟩

/-! ## C2: tabular iff applicable -/

/-- An emitted header line (keyed or keyless) parses back to its header
data. -/
theorem parseFieldLine_mkHeader (k : Option String) (n : Nat) (d : Delim)
    (fields : Option (List String)) (tail : Option (List Char))
    (hfs : ∀ fs, fields = some fs → fs ≠ []) :
    parseFieldLine (mkHeader k n d fields tail) = .ok ⟨k, some ⟨n, d, fields⟩, tail⟩ := by
  cases k with
  | some k2 => exact parseFieldLine_header_some k2 n d fields tail hfs
  | none => exact parseFieldLine_header_none n d fields tail hfs

/-- **C2**: the encoder emits a tabular field header if and only if the spec's
tabular-candidate condition holds — every element a non-empty object with the
first element's keys in the same first-insertion order and only primitive
leaves — and the emitted field list is exactly the first element's keys in
insertion order.  Observable through the parsed head line of any encoded
array: its header carries a field clause exactly under `claimTabular`, and
that clause equals `firstKeys`. -/
theorem C2_tabular_iff (l : VList) (k : Option String) (c : Nat) :
    ∃ htxt body flp,
      encArr .comma 2 k l c = ⟨c, htxt⟩ :: body ∧
      parseFieldLine htxt = .ok flp ∧
      headerFields flp = (if claimTabular l = true then firstKeys l else none) := by
  cases l with
  | nil =>
    refine ⟨mkHeader k 0 .comma none none, [], ⟨k, some ⟨0, .comma, none⟩, none⟩, rfl,
      parseFieldLine_mkHeader k 0 .comma none none (fun fs h => nomatch h), ?_⟩
    rw [show claimTabular .nil = false from rfl, if_neg Bool.false_ne_true]
    rfl
  | cons v tl =>
    by_cases hap : (VList.cons v tl).allPrim = true
    · have hct : claimTabular (.cons v tl) = false := by
        cases v with
        | obj fl =>
          rw [show (VList.cons (.obj fl) tl).allPrim =
            ((Value.obj fl).isPrim && tl.allPrim) from rfl] at hap
          simp [Value.isPrim] at hap
        | null => rfl
        | bool b => rfl
        | int n => rfl
        | float f => rfl
        | str s => rfl
        | arr l2 => rfl
      refine ⟨mkHeader k (VList.cons v tl).length .comma none
        (some (cellsTxt (Delim.char .comma) (.cons v tl))),
        [], ⟨k, some ⟨(VList.cons v tl).length, .comma, none⟩,
          some (cellsTxt (Delim.char .comma) (.cons v tl))⟩, ?_,
        parseFieldLine_mkHeader k _ .comma none _ (fun fs h => nomatch h), ?_⟩
      · rw [show encArr .comma 2 k (.cons v tl) c =
          (if (VList.cons v tl).allPrim then
            [⟨c, mkHeader k (VList.cons v tl).length .comma none
              (some (cellsTxt (Delim.char .comma) (.cons v tl)))⟩]
          else
            match tabFields? (.cons v tl) with
            | some fs =>
              ⟨c, mkHeader k (VList.cons v tl).length .comma (some fs) none⟩ ::
                rowLines (Delim.char .comma) (c + 2) (.cons v tl)
            | none =>
              ⟨c, mkHeader k (VList.cons v tl).length .comma none none⟩ ::
                (encItem .comma 2 v (c + 2) ++ encItems .comma 2 tl (c + 2)))
          from rfl, if_pos hap]
      · rw [hct, if_neg Bool.false_ne_true]
        rfl
    · cases htf : tabFields? (.cons v tl) with
      | some fs =>
        obtain ⟨fl1, hv, hfs, hfsne, hallp, hallr⟩ := tabFields_spec v tl fs htf
        subst hv
        have hct : claimTabular (.cons (.obj fl1) tl) = true := by
          rw [show claimTabular (.cons (.obj fl1) tl) =
            (!fl1.keys.isEmpty && VList.allRows fl1.keys (.cons (.obj fl1) tl)) from rfl]
          simp only [Bool.and_eq_true]
          constructor
          · rw [← hfs]
            cases fs with
            | nil => exact absurd rfl hfsne
            | cons a b => rfl
          · rw [← hfs]
            exact hallr
        refine ⟨mkHeader k (VList.cons (.obj fl1) tl).length .comma (some fs) none,
          rowLines (Delim.char .comma) (c + 2) (.cons (.obj fl1) tl),
          ⟨k, some ⟨(VList.cons (.obj fl1) tl).length, .comma, some fs⟩, none⟩, ?_,
          parseFieldLine_mkHeader k _ .comma (some fs) none
            (fun fs2 h => by
              injection h with h2
              rw [← h2]
              exact hfsne), ?_⟩
        · rw [show encArr .comma 2 k (.cons (.obj fl1) tl) c =
            (if (VList.cons (.obj fl1) tl).allPrim then
              [⟨c, mkHeader k (VList.cons (.obj fl1) tl).length .comma none
                (some (cellsTxt (Delim.char .comma) (.cons (.obj fl1) tl)))⟩]
            else
              match tabFields? (.cons (.obj fl1) tl) with
              | some fs =>
                ⟨c, mkHeader k (VList.cons (.obj fl1) tl).length .comma (some fs) none⟩ ::
                  rowLines (Delim.char .comma) (c + 2) (.cons (.obj fl1) tl)
              | none =>
                ⟨c, mkHeader k (VList.cons (.obj fl1) tl).length .comma none none⟩ ::
                  (encItem .comma 2 (.obj fl1) (c + 2) ++ encItems .comma 2 tl (c + 2)))
            from rfl, if_neg hap, htf]
        · rw [hct, if_pos (show (true = true) from rfl)]
          show some fs = firstKeys (.cons (.obj fl1) tl)
          rw [show firstKeys (.cons (.obj fl1) tl) = some fl1.keys from rfl, hfs]
      | none =>
        have hct : claimTabular (.cons v tl) = false := by
          cases hc2 : claimTabular (.cons v tl) with
          | false => rfl
          | true =>
            exfalso
            cases v with
            | obj fl =>
              rw [show claimTabular (.cons (.obj fl) tl) =
                (!fl.keys.isEmpty && VList.allRows fl.keys (.cons (.obj fl) tl))
                from rfl] at hc2
              rw [show VList.allRows fl.keys (.cons (.obj fl) tl) =
                (rowMatches fl.keys (.obj fl) && VList.allRows fl.keys tl) from rfl] at hc2
              rw [show rowMatches fl.keys (.obj fl) =
                (decide (fl.keys = fl.keys) && fl.allPrim) from rfl] at hc2
              simp only [Bool.and_eq_true, decide_eq_true_eq] at hc2
              have hcond : (!(fl.keys).isEmpty && fl.allPrim && tl.allRows fl.keys)
                  = true := by
                simp only [Bool.and_eq_true]
                exact ⟨⟨hc2.1, hc2.2.1.2⟩, hc2.2.2⟩
              rw [show tabFields? (.cons (.obj fl) tl) =
                (if !(fl.keys).isEmpty && fl.allPrim && tl.allRows fl.keys
                 then some fl.keys else none) from rfl, if_pos hcond] at htf
              exact Option.noConfusion htf
            | null => exact Bool.false_ne_true hc2
            | bool b => exact Bool.false_ne_true hc2
            | int n => exact Bool.false_ne_true hc2
            | float f => exact Bool.false_ne_true hc2
            | str s => exact Bool.false_ne_true hc2
            | arr l2 => exact Bool.false_ne_true hc2
        refine ⟨mkHeader k (VList.cons v tl).length .comma none none,
          encItem .comma 2 v (c + 2) ++ encItems .comma 2 tl (c + 2),
          ⟨k, some ⟨(VList.cons v tl).length, .comma, none⟩, none⟩, ?_,
          parseFieldLine_mkHeader k _ .comma none none (fun fs h => nomatch h), ?_⟩
        · rw [show encArr .comma 2 k (.cons v tl) c =
            (if (VList.cons v tl).allPrim then
              [⟨c, mkHeader k (VList.cons v tl).length .comma none
                (some (cellsTxt (Delim.char .comma) (.cons v tl)))⟩]
            else
              match tabFields? (.cons v tl) with
              | some fs =>
                ⟨c, mkHeader k (VList.cons v tl).length .comma (some fs) none⟩ ::
                  rowLines (Delim.char .comma) (c + 2) (.cons v tl)
              | none =>
                ⟨c, mkHeader k (VList.cons v tl).length .comma none none⟩ ::
                  (encItem .comma 2 v (c + 2) ++ encItems .comma 2 tl (c + 2)))
            from rfl, if_neg hap, htf]
        · rw [hct, if_neg Bool.false_ne_true]
          rfl

/-! ## C10: Python-side stringification of datetime, date, time, Decimal -/

/-- The characters that can occur in an ISO date rendering. -/
def dateChar (c : Char) : Bool :=
  c = '0' || c = '1' || c = '2' || c = '3' || c = '4' || c = '5' || c = '6' ||
    c = '7' || c = '8' || c = '9' || c = '-'

/-- Enumerate the date characters. -/
theorem dateChar_cases (c : Char) (h : dateChar c = true) :
    c = '0' ∨ c = '1' ∨ c = '2' ∨ c = '3' ∨ c = '4' ∨ c = '5' ∨ c = '6' ∨ c = '7' ∨
      c = '8' ∨ c = '9' ∨ c = '-' := by
  unfold dateChar at h
  simp only [Bool.or_eq_true, decide_eq_true_eq] at h
  tauto

/-- No date character triggers quoting on its own. -/
theorem dateChar_safe (c : Char) (h : dateChar c = true) :
    isWsA c = false ∧ isCtl c = false ∧ c ≠ '"' ∧ c ≠ '\\' ∧ c ≠ ':' ∧ c ≠ ',' ∧
      c ≠ 't' ∧ c ≠ 'f' ∧ c ≠ 'n' := by
  rcases dateChar_cases c h with h|h|h|h|h|h|h|h|h|h|h <;> subst h <;> decide

/-- Digit characters are date characters. -/
theorem digitChar_dateChar (d : Nat) : dateChar (digitChar d) = true := by
  unfold digitChar
  split <;> decide

/-- Every character of a rendering is a date character. -/
theorem natDigits_all_dateChar (n : Nat) : (natDigits n).all dateChar = true := by
  induction n using Nat.strong_induction_on with
  | _ n ih =>
    by_cases h : n < 10
    · rw [natDigits_small n h]
      simp [digitChar_dateChar]
    · rw [natDigits_split n (by omega)]
      simp [List.all_append, ih (n / 10) (by omega), digitChar_dateChar]

/-- Two-digit fields are made of date characters. -/
theorem pad2_all_dateChar (n : Nat) : (pad2 n).all dateChar = true := by
  unfold pad2
  by_cases h : n < 10
  · rw [if_pos h, List.all_cons, natDigits_all_dateChar]
    rfl
  · rw [if_neg h]
    exact natDigits_all_dateChar n

/-- Four-digit fields are made of date characters. -/
theorem pad4_all_dateChar (n : Nat) : (pad4 n).all dateChar = true := by
  unfold pad4
  rw [List.all_append, natDigits_all_dateChar, Bool.and_true]
  rw [List.all_eq_true]
  intro c hc
  rw [List.eq_of_mem_replicate hc]
  rfl

/-- Four-digit fields are made of decimal digits. -/
theorem pad4_all_digits (n : Nat) : (pad4 n).all Char.isDigit = true := by
  unfold pad4
  rw [List.all_append, natDigits_all_digits, Bool.and_true]
  rw [List.all_eq_true]
  intro c hc
  rw [List.eq_of_mem_replicate hc]
  rfl

/-- Four-digit fields are nonempty. -/
theorem pad4_ne_nil (n : Nat) : pad4 n ≠ [] := by
  unfold pad4
  intro h
  rw [List.append_eq_nil] at h
  exact natDigits_ne_nil n h.2

/-- A four-digit field starts with a decimal digit. -/
theorem pad4_head (y : Nat) : ∃ c r, pad4 y = c :: r ∧ c.isDigit = true := by
  unfold pad4
  cases hk : 4 - (natDigits y).length with
  | zero =>
    obtain ⟨c, hh, hd⟩ := natDigits_head_digit y
    cases hd2 : natDigits y with
    | nil => exact absurd hd2 (natDigits_ne_nil y)
    | cons c2 r2 =>
      rw [hd2] at hh
      injection hh with hh
      subst hh
      exact ⟨c2, r2, rfl, hd⟩
  | succ k =>
    exact ⟨'0', List.replicate k '0' ++ natDigits y, rfl, rfl⟩

/-- A list headed by a character other than a minus keeps its sign stripped
off. -/
theorem stripNeg_nodash (cs : List Char) (h : cs.head? ≠ some '-') :
    stripNeg cs = (false, cs) := by
  rw [stripNeg.eq_def]
  split
  · exact absurd rfl h
  · rfl

/-- The exponent clause rejects a tail whose head is no exponent marker. -/
theorem numParseExp_other_head (neg : Bool) (ip : List Char) (d2 : Char) (X : List Char)
    (he1 : d2 ≠ 'e') (he2 : d2 ≠ 'E') : numParseExp neg ip [] (d2 :: X) = none := by
  simp [numParseExp, he1, he2]

/-- The numeric grammar rejects digits followed by an embedded dash. -/
theorem numParseCore_digits_badDash (neg : Bool) (ds rest : List Char)
    (hall : ds.all Char.isDigit = true) (hne : ds ≠ []) :
    numParseCore neg (ds ++ '-' :: rest) = none := by
  unfold numParseCore
  cases hd2 : ds with
  | nil => exact absurd hd2 hne
  | cons c r =>
    rw [hd2] at hall
    simp only [List.all_cons, Bool.and_eq_true] at hall
    simp only [List.cons_append]
    simp only [hall.1, if_true]
    by_cases hc : c = '0'
    · simp only [if_pos hc]
      cases r with
      | nil =>
        show numParseExp neg [c] [] ('-' :: rest) = none
        exact numParseExp_other_head neg [c] '-' rest (by decide) (by decide)
      | cons d2 r2 =>
        have hd2d : d2.isDigit = true := by
          have := hall.2
          rw [List.all_cons, Bool.and_eq_true] at this
          exact this.1
        simp only [List.cons_append]
        split
        · rename_i r2' heq
          injection heq with h1 _
          exact absurd h1 (isDigit_ne hd2d '.' (by decide))
        · exact numParseExp_other_head neg [c] d2 _ (isDigit_ne hd2d 'e' (by decide))
            (isDigit_ne hd2d 'E' (by decide))
    · simp only [hc, if_false]
      have hsp := spanDigits_append r ('-' :: rest) hall.2 (by rfl)
      simp only [hsp]
      show numParseExp neg (c :: r) [] ('-' :: rest) = none
      exact numParseExp_other_head neg (c :: r) '-' rest (by decide) (by decide)

/-- Digits followed by an embedded dash are not a numeric token. -/
theorem numParse_digits_dash (ds rest : List Char) (hall : ds.all Char.isDigit = true)
    (hne : ds ≠ []) : numParse (ds ++ '-' :: rest) = none := by
  have hhd : (ds ++ '-' :: rest).head? ≠ some '-' := by
    cases ds with
    | nil => exact absurd rfl hne
    | cons c r =>
      rw [List.all_cons, Bool.and_eq_true] at hall
      rw [List.cons_append]
      intro he
      injection he with he
      exact isDigit_ne hall.1 '-' (by decide) he
  unfold numParse
  rw [stripNeg_nodash _ hhd]
  exact numParseCore_digits_badDash false ds rest hall hne

/-- A cons list contains its head. -/
theorem contains_head (x : Char) (r : List Char) : (x :: r).contains x = true := by
  rw [List.contains_cons]
  simp

/-- Containment persists under a prepended character. -/
theorem contains_cons_r (c : Char) (r : List Char) (x : Char)
    (h : r.contains x = true) : (c :: r).contains x = true := by
  rw [List.contains_cons, h]
  simp

/-- Containment persists under a prepended prefix. -/
theorem contains_append_r (a b : List Char) (x : Char) (h : b.contains x = true) :
    (a ++ b).contains x = true := by
  induction a with
  | nil => exact h
  | cons c r ih =>
    rw [List.cons_append]
    exact contains_cons_r c _ x ih

/-- A string containing a colon is always quote-triggered. -/
theorem quoteTrigger_of_colon (cs : List Char) (d : Char) (h : cs.contains ':' = true) :
    quoteTrigger cs d = true := by
  unfold quoteTrigger
  rw [h]
  simp

/-- The head of a list is one of its members. -/
theorem mem_of_head (c : Char) (l : List Char) (h : l.head? = some c) : c ∈ l := by
  cases l with
  | nil => cases h
  | cons a r =>
    injection h with h
    rw [h]
    exact List.mem_cons_self c r

/-- Date characters never put whitespace at the end of a token. -/
theorem getLast_ws_false (cs : List Char) (hall : cs.all dateChar = true) :
    (match cs.getLast? with | some c => isWsA c | none => false) = false := by
  cases hg : cs.getLast? with
  | none => rfl
  | some c =>
    have hm : c ∈ cs := by
      rw [← List.head?_reverse] at hg
      rw [← List.mem_reverse]
      exact mem_of_head c cs.reverse hg
    exact (dateChar_safe c (List.all_eq_true.mp hall c hm)).1

/-- Date characters are never ASCII controls. -/
theorem any_isCtl_false (cs : List Char) (hall : cs.all dateChar = true) :
    cs.any isCtl = false := by
  cases h : cs.any isCtl with
  | false => rfl
  | true =>
    exfalso
    rw [List.any_eq_true] at h
    obtain ⟨x, hx, hctl⟩ := h
    have h2 := (dateChar_safe x (List.all_eq_true.mp hall x hx)).2.1
    rw [h2] at hctl
    cases hctl

/-- An ISO date is never quote-triggered: it is emitted bare. -/
theorem quoteTrigger_isoDate (y mo d : Nat) :
    quoteTrigger (isoDate y mo d).toList ',' = false := by
  obtain ⟨c, r, hp4, hcd⟩ := pad4_head y
  have hiso : (isoDate y mo d).toList = pad4 y ++ '-' :: (pad2 mo ++ ('-' :: pad2 d)) := by
    show (pad4 y ++ '-' :: pad2 mo) ++ '-' :: pad2 d =
      pad4 y ++ '-' :: (pad2 mo ++ ('-' :: pad2 d))
    rw [List.append_assoc, List.cons_append]
  have hcs : (isoDate y mo d).toList = c :: (r ++ '-' :: (pad2 mo ++ ('-' :: pad2 d))) := by
    rw [hiso, hp4, List.cons_append]
  have hdash : dateChar '-' = true := by decide
  have hall : ((isoDate y mo d).toList).all dateChar = true := by
    rw [hiso]
    simp [List.all_append, List.all_cons, pad4_all_dateChar, pad2_all_dateChar, hdash]
  have hcdc : dateChar c = true := by
    refine List.all_eq_true.mp hall c ?_
    rw [hcs]
    exact List.mem_cons_self _ _
  unfold quoteTrigger
  simp only [Bool.or_eq_false_iff]
  refine ⟨⟨⟨⟨⟨⟨⟨⟨⟨⟨⟨⟨⟨?_, ?_⟩, ?_⟩, ?_⟩, ?_⟩, ?_⟩, ?_⟩, ?_⟩, ?_⟩, ?_⟩, ?_⟩, ?_⟩, ?_⟩, ?_⟩
  · rw [hcs]
    rfl
  · rw [hcs]
    exact (dateChar_safe c hcdc).1
  · exact getLast_ws_false _ hall
  · simp only [decide_eq_false_iff_not]
    intro he
    rw [hcs] at he
    injection he with h1 _
    exact (dateChar_safe c hcdc).2.2.2.2.2.2.1 h1
  · simp only [decide_eq_false_iff_not]
    intro he
    rw [hcs] at he
    injection he with h1 _
    exact (dateChar_safe c hcdc).2.2.2.2.2.2.2.1 h1
  · simp only [decide_eq_false_iff_not]
    intro he
    rw [hcs] at he
    injection he with h1 _
    exact (dateChar_safe c hcdc).2.2.2.2.2.2.2.2 h1
  · rw [hiso]
    unfold isNumericTok
    rw [numParse_digits_dash (pad4 y) _ (pad4_all_digits y) (pad4_ne_nil y)]
    rfl
  · rw [hcs]
    rw [isLeadZero.eq_def]
    split
    · rename_i r2 heq
      injection heq with h1 _
      exact absurd h1 (isDigit_ne_neg hcd)
    · rename_i r2 heq
      injection heq with h1 h2
      subst h2
      cases ha : (r ++ '-' :: (pad2 mo ++ ('-' :: pad2 d))).all Char.isDigit with
      | false => simp [ha]
      | true =>
        exfalso
        have hm : ('-' : Char) ∈ r ++ '-' :: (pad2 mo ++ ('-' :: pad2 d)) :=
          List.mem_append_right _ (List.mem_cons_self _ _)
        have h3 := List.all_eq_true.mp ha _ hm
        exact absurd h3 (by decide)
    · rfl
  · exact not_contains_of_all _ dateChar hall '"' (by decide)
  · exact not_contains_of_all _ dateChar hall '\\' (by decide)
  · exact not_contains_of_all _ dateChar hall ':' (by decide)
  · exact not_contains_of_all _ dateChar hall ',' (by decide)
  · exact any_isCtl_false _ hall
  · simp only [decide_eq_false_iff_not]
    rw [hcs]
    intro he
    injection he with he
    exact isDigit_ne_neg hcd he

/-- Number-shaped decode results (integer or float). -/
def isNumber : Value → Bool
  | .int _ => true
  | .float _ => true
  | _ => false

/-- **C10**: `dumps` stringifies the non-JSON Python values the tests feed it:
any `datetime.datetime` and `datetime.time` is emitted as its quoted ISO-8601
string (the colon forces quoting), any `datetime.date` as its bare ISO-8601
string, and any `decimal.Decimal` as its bare decimal text, which therefore
reads back as a number, not a string; with the concrete documents of
`test_non_serializable.py` evaluated. -/
theorem C10_python_stringification :
    (∀ y mo d h mi s, scalarTxt (Delim.char .comma) false (pyDatetime y mo d h mi s) =
      quoteWrap (isoDatetime y mo d h mi s).toList) ∧
    (∀ h mi s, scalarTxt (Delim.char .comma) false (pyTime h mi s) =
      quoteWrap (isoTime h mi s).toList) ∧
    (∀ y mo d, scalarTxt (Delim.char .comma) false (pyDate y mo d) =
      (isoDate y mo d).toList) ∧
    (∀ f, FloatV.isIntegral f = false →
      parseCellValue (scalarTxt (Delim.char .comma) false (pyDecimal f)) =
        .ok (.float f) ∧ isNumber (.float f) = true) ∧
    dumpsDef (vObj [("timestamp", pyDatetime 2024 1 15 10 30 0)]) =
      .ok "timestamp: \"2024-01-15T10:30:00\"" ∧
    dumpsDef (vObj [("when", pyTime 10 30 0)]) = .ok "when: \"10:30:00\"" ∧
    dumpsDef (vObj [("date", pyDate 2024 1 15)]) = .ok "date: 2024-01-15" ∧
    dumpsDef (vObj [("price", pyDecimal ⟨false, 1999, -2⟩)]) = .ok "price: 19.99" ∧
    loadsDef "price: 19.99" = .ok (vObj [("price", .float ⟨false, 1999, -2⟩)]) := by
  refine ⟨?_, ?_, ?_, ?_, rfl, rfl, rfl, rfl, rfl⟩
  · intro y mo d h mi s
    show encodeStr (isoDatetime y mo d h mi s) ',' false = _
    unfold encodeStr
    have hT : (isoTime h mi s).toList = pad2 h ++ ':' :: (pad2 mi ++ (':' :: pad2 s)) := by
      show (pad2 h ++ ':' :: pad2 mi) ++ ':' :: pad2 s =
        pad2 h ++ ':' :: (pad2 mi ++ (':' :: pad2 s))
      rw [List.append_assoc, List.cons_append]
    have hcol : (isoDatetime y mo d h mi s).toList.contains ':' = true := by
      show ((isoDate y mo d).toList ++ 'T' :: (isoTime h mi s).toList).contains ':' = true
      refine contains_append_r _ _ _ ?_
      refine contains_cons_r _ _ _ ?_
      rw [hT]
      exact contains_append_r _ _ _ (contains_head _ _)
    have hq : needsQuotes (isoDatetime y mo d h mi s).toList ',' false = true := by
      unfold needsQuotes
      rw [quoteTrigger_of_colon _ ',' hcol]
      rfl
    rw [hq, if_pos (show (true = true) from rfl)]
  · intro h mi s
    show encodeStr (isoTime h mi s) ',' false = _
    unfold encodeStr
    have hT : (isoTime h mi s).toList = pad2 h ++ ':' :: (pad2 mi ++ (':' :: pad2 s)) := by
      show (pad2 h ++ ':' :: pad2 mi) ++ ':' :: pad2 s =
        pad2 h ++ ':' :: (pad2 mi ++ (':' :: pad2 s))
      rw [List.append_assoc, List.cons_append]
    have hcol : (isoTime h mi s).toList.contains ':' = true := by
      rw [hT]
      exact contains_append_r _ _ _ (contains_head _ _)
    have hq : needsQuotes (isoTime h mi s).toList ',' false = true := by
      unfold needsQuotes
      rw [quoteTrigger_of_colon _ ',' hcol]
      rfl
    rw [hq, if_pos (show (true = true) from rfl)]
  · intro y mo d
    show encodeStr (isoDate y mo d) ',' false = _
    unfold encodeStr
    have hq : needsQuotes (isoDate y mo d).toList ',' false = false := by
      unfold needsQuotes
      rw [quoteTrigger_isoDate y mo d]
      rfl
    rw [hq, if_neg Bool.false_ne_true]
  · intro f hf
    refine ⟨?_, rfl⟩
    show parseCellValue (renderFloat f) = _
    rw [parseCellValue_ne_quote _ (renderFloat_head_ne_quote f),
      decodeScalar_renderFloat f hf]

/-- C10 witness: the Decimal clause applied at `Decimal("19.99")`. -/
theorem C10_python_stringification_witness :
    FloatV.isIntegral ⟨false, 1999, -2⟩ = false ∧
    (parseCellValue (scalarTxt (Delim.char .comma) false (pyDecimal ⟨false, 1999, -2⟩)) =
      .ok (.float ⟨false, 1999, -2⟩) ∧ isNumber (.float ⟨false, 1999, -2⟩) = true) :=
  ⟨by decide, C10_python_stringification.2.2.2.1 ⟨false, 1999, -2⟩ (by decide)⟩
